import Mathlib

/-!
# NTT big-integer multiplication (`stage-1/se_mettre_requiem/program.c`)

Shallow embedding of the C program and proofs about it.

* A C `int` is represented by its 32-bit pattern, a natural number below `2 ^ 32`;
  `toInt` gives the signed (two's complement) reading.
* The recursions `add` and `sub` shift their carry left at every call, hence reach a zero
  carry after at most 32 calls on 32-bit ints; they are unrolled to that depth.
* Every `goto` loop is a function that counts a fuel argument down and answers `none`
  when the fuel runs out; a function that calls loops takes the fuel `F` handed to each
  of them.
* Arrays are functions from indices to values; their capacity is not modelled.
* A string is the list of its characters; reading past its end gives the terminating NUL.
-/

namespace Requiem

/-! ## Machine integers -/

/-- The modulus `MOD` of the source. -/
def MOD : Nat := 998244353

/-- The generator `G` of the source. -/
def G : Nat := 3

/-- Signed reading of a 32-bit pattern. -/
def toInt (x : Nat) : Int :=
  if x < 2147483648 then (x : Int) else (x : Int) - 4294967296

/-- The 32-bit pattern of an integer. -/
def ofInt (z : Int) : Nat := (z % 4294967296).toNat

/-- C `x << k` on 32-bit patterns. -/
def shl (x k : Nat) : Nat := (x <<< k) % 4294967296

/-- C `x >> k` on a signed int: arithmetic shift. -/
def sar (x k : Nat) : Nat := ofInt (toInt x >>> k)

/-- C `~x` on 32-bit patterns. -/
def lnot (x : Nat) : Nat := x ^^^ 4294967295

/-- C `!x`. -/
def lneg (x : Nat) : Nat := if x = 0 then 1 else 0

/-- The recursion of `add`, unrolled to depth `d`. -/
def addRec : Nat → Nat → Nat → Nat
  | 0, x, _ => x
  | d + 1, x, y => if y = 0 then x else addRec d (x ^^^ y) (shl (x &&& y) 1)

/-- `int add(int x, int y)`. -/
def add (x y : Nat) : Nat := addRec 32 x y

/-- The recursion of `sub`, unrolled to depth `d`. -/
def subRec : Nat → Nat → Nat → Nat
  | 0, x, _ => x
  | d + 1, x, y => if y = 0 then x else subRec d (x ^^^ y) (shl (lnot x &&& y) 1)

/-- `int sub(int x, int y)`. -/
def sub (x y : Nat) : Nat := subRec 32 x y

/-- `int less_than(int a, int b)`. -/
def less_than (a b : Nat) : Nat := sar (sub a b) 31 &&& 1

/-! ## Modular arithmetic -/

/-- `int addmod(int x, int y)`. -/
def addmod (x y : Nat) : Nat :=
  let s := add x y
  if less_than s MOD = 0 then sub s MOD else s

/-- `int submod(int x, int y)`. -/
def submod (x y : Nat) : Nat :=
  let s := sub x y
  if less_than s 0 ≠ 0 then add s MOD else s

/-- The variables of `mul_mod` at the label `mul_loop`. -/
structure MulSt where
  x : Nat
  y : Nat
  res : Nat
  deriving DecidableEq, Repr

/-- One pass through the body of `mul_loop`. -/
def mul_body (s : MulSt) : MulSt :=
  { res := if s.y &&& 1 ≠ 0 then addmod s.res s.x else s.res
    x := addmod s.x s.x
    y := sar s.y 1 }

/-- The loop `mul_loop` of `mul_mod`. -/
def mul_loop : Nat → MulSt → Option Nat
  | 0, _ => none
  | f + 1, s => if s.y = 0 then some s.res else mul_loop f (mul_body s)

/-- `int mul_mod(int x, int y)`. -/
def mul_mod (F x y : Nat) : Option Nat := mul_loop F ⟨x, y, 0⟩

/-- The loop `pow_loop` of `pow_mod`. -/
def pow_loop (F : Nat) : Nat → Nat → Nat → Nat → Option Nat
  | 0, _, _, _ => none
  | f + 1, a, e, r =>
    if e = 0 then some r else do
      let r ← if e &&& 1 ≠ 0 then mul_mod F r a else pure r
      let a ← mul_mod F a a
      pow_loop F f a (sar e 1) r

/-- `int pow_mod(int a, int e)`. -/
def pow_mod (F a e : Nat) : Option Nat := pow_loop F F a e 1

/-! ## Memory -/

/-- An `int` array. -/
abbrev Mem := Nat → Nat

/-- Store `v` at index `i`. -/
def Mem.set (m : Mem) (i v : Nat) : Mem := fun j => if j = i then v else m j

/-- The byte of a NUL-terminated string held in a zero-initialised buffer. -/
def charAt (s : List Char) (i : Nat) : Nat :=
  match s.get? i with
  | some c => c.toNat
  | none => 0

/-- The loop `gl_loop` of `get_length`. -/
def gl_loop (s : List Char) : Nat → Nat → Option Nat
  | 0, _ => none
  | f + 1, l => if charAt s l = 0 then some l else gl_loop s f (add l 1)

/-- `int get_length(char *s)`. -/
def get_length (F : Nat) (s : List Char) : Option Nat := gl_loop s F 0

/-! ## Bit reversal table -/

/-- The loop `br_bit_loop` of `build_rev`; the result is `r`. -/
def br_bit_loop (logn : Nat) : Nat → Nat → Nat → Nat → Option Nat
  | 0, _, _, _ => none
  | f + 1, x, r, k =>
    if less_than k logn = 0 then some r else
      let r := shl r 1
      let r := if x &&& 1 ≠ 0 then add r 1 else r
      br_bit_loop logn f (sar x 1) r (add k 1)

/-- The loop `br_loop` of `build_rev`. -/
def br_loop (F n logn : Nat) : Nat → Nat → Mem → Option Mem
  | 0, _, _ => none
  | f + 1, i, rev =>
    if less_than i n = 0 then some rev else do
      let r ← br_bit_loop logn F i 0 0
      br_loop F n logn f (add i 1) (rev.set i r)

/-- `void build_rev(int n, int logn)`, acting on `rev_bits`. -/
def build_rev (F n logn : Nat) (rev : Mem) : Option Mem := br_loop F n logn F 0 rev

/-! ## The transform -/

/-- The `while (t > 1)` loop of `ntt`; the result is `logn`. -/
def logn_loop : Nat → Nat → Nat → Option Nat
  | 0, _, _ => none
  | f + 1, logn, t => if 1 < toInt t then logn_loop f (add logn 1) (sar t 1) else some logn

/-- The loop `nr_loop` of `ntt`. -/
def nr_loop (n : Nat) (rev : Mem) : Nat → Nat → Mem → Option Mem
  | 0, _, _ => none
  | f + 1, i, a =>
    if less_than i n = 0 then some a else
      let a := if less_than i (rev i) ≠ 0 then
          let tmp := a i
          let a := a.set i (a (rev i))
          a.set (rev i) tmp
        else a
      nr_loop n rev f (add i 1) a

/-- The loop `inner_loop` of `ntt`. -/
def inner_loop (F i2 len wlen : Nat) : Nat → Nat → Nat → Mem → Option Mem
  | 0, _, _, _ => none
  | f + 1, j, w, a =>
    if less_than j (sar len 1) = 0 then some a else do
      let u := a (add i2 j)
      let v ← mul_mod F (a (add (add i2 j) (sar len 1))) w
      let a := a.set (add i2 j) (addmod u v)
      let a := a.set (add (add i2 j) (sar len 1)) (submod u v)
      let w ← mul_mod F w wlen
      inner_loop F i2 len wlen f (add j 1) w a

/-- The loop `outer_loop` of `ntt`. -/
def outer_loop (F n len wlen : Nat) : Nat → Nat → Mem → Option Mem
  | 0, _, _ => none
  | f + 1, i2, a =>
    if less_than i2 n = 0 then some a else do
      let a ← inner_loop F i2 len wlen F 0 1 a
      outer_loop F n len wlen f (add i2 len) a

/-- The loop `len_loop` of `ntt`. -/
def len_loop (F n invert root root_inv : Nat) : Nat → Nat → Nat → Mem → Option Mem
  | 0, _, _, _ => none
  | f + 1, len, shift, a =>
    if less_than len (add n 1) = 0 then some a else do
      let exponent_shifted := sar (MOD - 1) shift
      let wlen ← pow_mod F (if invert ≠ 0 then root_inv else root) exponent_shifted
      let a ← outer_loop F n len wlen F 0 a
      len_loop F n invert root root_inv f (shl len 1) (add shift 1) a

/-- The loop `inv_loop` of `ntt`. -/
def inv_loop (F n n_inv : Nat) : Nat → Nat → Mem → Option Mem
  | 0, _, _ => none
  | f + 1, k, a =>
    if less_than k n = 0 then some a else do
      let v ← mul_mod F (a k) n_inv
      inv_loop F n n_inv f (add k 1) (a.set k v)

/-- `void ntt(int *a, int n, int invert)`: the new contents of `a` and of `rev_bits`. -/
def ntt (F : Nat) (a rev : Mem) (n invert : Nat) : Option (Mem × Mem) := do
  let logn ← logn_loop F 0 n
  let rev ← build_rev F n logn rev
  let a ← nr_loop n rev F 0 a
  let root := G
  let root_inv ← pow_mod F root (sub MOD 2)
  let a ← len_loop F n invert root root_inv F 2 1 a
  if invert ≠ 0 then do
    let n_inv ← pow_mod F n (sub MOD 2)
    let a ← inv_loop F n n_inv F 0 a
    pure (a, rev)
  else pure (a, rev)

/-! ## Division by ten -/

/-- The loop `dm_scale` of `divmod10`; the result is `(tmp, mult)`. -/
def dm_scale (x : Nat) : Nat → Nat → Nat → Option (Nat × Nat)
  | 0, _, _ => none
  | f + 1, tmp, mult =>
    if less_than x (shl tmp 1) ≠ 0 then some (tmp, mult)
    else dm_scale x f (shl tmp 1) (shl mult 1)

/-- The loop `dm_red` of `divmod10`; the result is `(qq, x)`. -/
def dm_red : Nat → Nat → Nat → Nat → Nat → Option (Nat × Nat)
  | 0, _, _, _, _ => none
  | f + 1, x, tmp, mult, qq =>
    if mult = 0 then some (qq, x) else
      let x1 := if less_than x tmp = 0 then sub x tmp else x
      let qq1 := if less_than x tmp = 0 then add qq mult else qq
      dm_red f x1 (sar tmp 1) (sar mult 1) qq1

/-- `void divmod10(int x, int *q, int *r)`: the values stored in `*q` and `*r`. -/
def divmod10 (F x : Nat) : Option (Nat × Nat) := do
  let (tmp, mult) ← dm_scale x F 10 1
  dm_red F x tmp mult 0

/-! ## The multiplication -/

/-- The global work arrays. -/
structure Globals where
  a_ntt : Mem
  b_ntt : Mem
  rev_bits : Mem
  digits : Mem

/-- Static storage is zero-initialised. -/
def Globals.zero : Globals :=
  { a_ntt := fun _ => 0, b_ntt := fun _ => 0, rev_bits := fun _ => 0, digits := fun _ => 0 }

/-- The loop `grow_loop` of `big_multiply`; the result is `n`. -/
def grow_loop (need : Nat) : Nat → Nat → Option Nat
  | 0, _ => none
  | f + 1, n => if less_than n need = 0 then some n else grow_loop need f (shl n 1)

/-- The loop `cl_loop` of `big_multiply`; the result is `(a_ntt, b_ntt)`. -/
def cl_loop (n : Nat) : Nat → Nat → Mem → Mem → Option (Mem × Mem)
  | 0, _, _, _ => none
  | f + 1, i, a, b =>
    if less_than i n = 0 then some (a, b) else cl_loop n f (add i 1) (a.set i 0) (b.set i 0)

/-- The loop `ld1` of `big_multiply`. -/
def ld1 (s1 : List Char) (n1 : Nat) : Nat → Nat → Mem → Option Mem
  | 0, _, _ => none
  | f + 1, i, a =>
    if less_than i n1 = 0 then some a
    else ld1 s1 n1 f (add i 1) (a.set i (sub (charAt s1 (sub (sub n1 1) i)) 48))

/-- The loop `ld2` of `big_multiply`. -/
def ld2 (s2 : List Char) (n2 : Nat) : Nat → Nat → Mem → Option Mem
  | 0, _, _ => none
  | f + 1, i, b =>
    if less_than i n2 = 0 then some b
    else ld2 s2 n2 f (add i 1) (b.set i (sub (charAt s2 (sub (sub n2 1) i)) 48))

/-- The loop `pm_loop` of `big_multiply`. -/
def pm_loop (F n : Nat) (b : Mem) : Nat → Nat → Mem → Option Mem
  | 0, _, _ => none
  | f + 1, i, a =>
    if less_than i n = 0 then some a else do
      let v ← mul_mod F (a i) (b i)
      pm_loop F n b f (add i 1) (a.set i v)

/-- The loop `car_loop` of `big_multiply`; the result is `(carry, digits)`. -/
def car_loop (F res_len : Nat) (a : Mem) : Nat → Nat → Nat → Mem → Option (Nat × Mem)
  | 0, _, _, _ => none
  | f + 1, i, carry, digits =>
    if less_than i res_len = 0 then some (carry, digits) else do
      let val := add (a i) carry
      let (carry, r) ← divmod10 F val
      car_loop F res_len a f (add i 1) carry (digits.set i r)

/-- The loop `cc_loop` of `big_multiply` with its exit `cc_last`;
the result is `(res_len, digits)`. -/
def cc_loop (F : Nat) : Nat → Nat → Nat → Mem → Option (Nat × Mem)
  | 0, _, _, _ => none
  | f + 1, carry, res_len, digits =>
    if less_than carry 10 ≠ 0 then
      if carry ≠ 0 then some (add res_len 1, digits.set res_len carry)
      else some (res_len, digits)
    else do
      let (carry, r) ← divmod10 F carry
      cc_loop F f carry (add res_len 1) (digits.set res_len r)

/-- The loop `trim_loop` of `big_multiply`; the result is `res_len`. -/
def trim_loop (digits : Mem) : Nat → Nat → Option Nat
  | 0, _ => none
  | f + 1, res_len =>
    if less_than 1 res_len = 0 then some res_len
    else if digits (sub res_len 1) ≠ 0 then some res_len
    else trim_loop digits f (sub res_len 1)

/-- The characters written by `printf("%d", v)`. -/
def printInt (v : Nat) : List Char := (toString (toInt v)).toList

/-- The loop `out_loop` of `big_multiply`; the result is the text written so far. -/
def out_loop (digits : Mem) : Nat → Nat → List Char → Option (List Char)
  | 0, _, _ => none
  | f + 1, i, out =>
    if less_than i 0 ≠ 0 then some out
    else out_loop digits f (sub i 1) (out ++ printInt (digits i))

/-- `void big_multiply(char *s1, char *s2, int len1, int len2)`: the globals it leaves and
the text it writes. -/
def big_multiply (F : Nat) (g : Globals) (s1 s2 : List Char) (len1 len2 : Nat) :
    Option (Globals × List Char) := do
  let n1 := len1
  let n2 := len2
  let need := sub (add n1 n2) 1
  let n ← grow_loop need F 1
  let (a, b) ← cl_loop n F 0 g.a_ntt g.b_ntt
  let a ← ld1 s1 n1 F 0 a
  let b ← ld2 s2 n2 F 0 b
  let (a, rev) ← ntt F a g.rev_bits n 0
  let (b, rev) ← ntt F b rev n 0
  let a ← pm_loop F n b F 0 a
  let (a, rev) ← ntt F a rev n 1
  let res_len := add n1 n2
  let (carry, digits) ← car_loop F res_len a F 0 0 g.digits
  let (res_len, digits) ← cc_loop F F carry res_len digits
  let res_len ← trim_loop digits F res_len
  let out ← out_loop digits F (sub res_len 1) []
  pure ({ a_ntt := a, b_ntt := b, rev_bits := rev, digits := digits }, out)

/-- The zero test of `main` on an operand `num` of length `len`:
`!(sub(len, 1)) & !(sub(num[0], '0'))`. -/
def is_zero (num : List Char) (len : Nat) : Nat :=
  lneg (sub len 1) &&& lneg (sub (charAt num 0) 48)

/-- `int main()`: the text written to standard output when `scanf("%s %s", num1, num2)`
finds the given whitespace-separated tokens on standard input, run from the globals `g`. -/
def mainFrom (F : Nat) (g : Globals) (tokens : List (List Char)) : Option (List Char) :=
  match tokens with
  | num1 :: num2 :: _ => do
    let len1 ← get_length F num1
    let len2 ← get_length F num2
    let is_zero1 := is_zero num1 len1
    let is_zero2 := is_zero num2 len2
    if is_zero1 ||| is_zero2 ≠ 0 then some ['0', '\n']
    else do
      let (_, out) ← big_multiply F g num1 num2 len1 len2
      some (out ++ ['\n'])
  | _ => some []

/-- The program, started with zero-initialised static storage. -/
def main (F : Nat) (tokens : List (List Char)) : Option (List Char) :=
  mainFrom F Globals.zero tokens

/-- The text the program writes for the operands `A` and `B`. -/
def multiply (F : Nat) (A B : List Char) : Option (List Char) := main F [A, B]

/-! ## Specification-level notions -/

/-- The integer whose `k`-bit binary representation is the reverse of that of `x`. -/
def bitrev : Nat → Nat → Nat
  | 0, _ => 0
  | k + 1, x => 2 ^ k * (x % 2) + bitrev k (x / 2)

/-- The block starting at `i2` after `j` butterflies of half-length `half`. -/
def blockPart (i2 half wlen j : Nat) (a : Mem) : Mem := fun idx =>
  if i2 ≤ idx ∧ idx < i2 + j then (a idx + a (idx + half) * wlen ^ (idx - i2)) % MOD
  else if i2 + half ≤ idx ∧ idx < i2 + half + j then
    (a (idx - half) + MOD - a idx * wlen ^ (idx - half - i2) % MOD) % MOD
  else a idx

/-- The buffer after the butterflies of one stage on all blocks below `bound`. -/
def stageFn (len wlen : Nat) (a : Mem) (bound : Nat) : Mem := fun idx =>
  if idx < bound then blockPart (idx / len * len) (len / 2) wlen (len / 2) a idx else a idx

/-- The buffer after the first `s` stages of a transform of length `n` with root `r`. -/
def stagesFn (n r : Nat) : Nat → Mem → Mem
  | 0, a => a
  | s + 1, a => stageFn (2 ^ (s + 1)) (r ^ ((MOD - 1) / 2 ^ (s + 1)) % MOD) (stagesFn n r s a) n

/-- The buffer after the bit-reversal swaps of a transform of length `n = 2 ^ k`. -/
def permFn (n k : Nat) (a : Mem) : Mem := fun j => if j < n then a (bitrev k j) else a j

/-- The table `rev_bits` after `build_rev` for length `n = 2 ^ k`. -/
def revFn (n k : Nat) (rev : Mem) : Mem := fun j => if j < n then bitrev k j else rev j

/-- The buffer after the scaling pass of the inverse transform. -/
def scaleFn (n n_inv : Nat) (a : Mem) : Mem := fun idx =>
  if idx < n then a idx * n_inv % MOD else a idx

/-- The buffer after `ntt` of length `n = 2 ^ k`, as a closed expression of its stages. -/
def nttFn (n k invert : Nat) (a : Mem) : Mem :=
  if invert ≠ 0 then
    scaleFn n (n ^ (MOD - 2) % MOD) (stagesFn n (G ^ (MOD - 2) % MOD) k (permFn n k a))
  else stagesFn n G k (permFn n k a)

/-- The field of residues modulo `MOD`. -/
abbrev Fp : Type := ZMod MOD

/-- The stage twiddle `ρ ^ ((MOD - 1) / 2 ^ s)` for a root `ρ`. -/
def twiddle (ρ : Fp) (s : Nat) : Fp := ρ ^ ((MOD - 1) / 2 ^ s)

/-- The transform of length `2 ^ s` of the entries `f (base + bitrev s t)`, evaluated at `m`. -/
def blockDft (ρ : Fp) (f : Nat → Fp) (s base m : Nat) : Fp :=
  ∑ t in Finset.range (2 ^ s), f (base + bitrev s t) * twiddle ρ s ^ (t * m)

/-- The discrete Fourier transform of `f` of length `n` with root `ω`, evaluated at `m`. -/
def dft (ω : Fp) (n : Nat) (f : Nat → Fp) (m : Nat) : Fp :=
  ∑ t in Finset.range n, f t * ω ^ (t * m)

/-- The root of the forward transform of length `2 ^ k`. -/
def omega (k : Nat) : Fp := twiddle (G : Fp) k

/-- The root of the inverse transform of length `2 ^ k`. -/
def omegaInv (k : Nat) : Fp := twiddle ((G ^ (MOD - 2) % MOD : Nat) : Fp) k

/-- The value of a decimal digit character. -/
def digitVal (c : Char) : Nat := c.toNat - 48

/-- An operand the program accepts: a non-empty string of at most `10 ^ 6` ASCII decimal
digits. -/
def ValidOperand (A : List Char) : Prop :=
  A ≠ [] ∧ A.length ≤ 1000000 ∧ ∀ c ∈ A, 48 ≤ c.toNat ∧ c.toNat ≤ 57

/-- The integer written by a string of decimal digits, most significant digit first. -/
def value (A : List Char) : Nat := A.foldl (fun acc c => 10 * acc + digitVal c) 0

/-- The digit of weight `10 ^ i` of the operand `A`, and zero beyond its length. -/
def digitLE (A : List Char) (i : Nat) : Nat :=
  if i < A.length then charAt A (A.length - 1 - i) - 48 else 0

/-- The coefficient of weight `10 ^ m` of the product before carries. -/
def conv (f g : Nat → Nat) (m : Nat) : Nat := ∑ i in Finset.range (m + 1), f i * g (m - i)

/-- The carry entering position `i` when the coefficients `c` are normalised to base ten. -/
def carrySeq (c : Nat → Nat) : Nat → Nat
  | 0 => 0
  | i + 1 => (c i + carrySeq c i) / 10

/-- The text written by `out_loop` started at index `i`. -/
def outChars (digits : Mem) : Nat → List Char
  | 0 => printInt (digits 0)
  | i + 1 => printInt (digits (i + 1)) ++ outChars digits i

/-- An operand with its leading zeros removed, and `"0"` when nothing else is left. -/
def canonical (A : List Char) : List Char :=
  if A.dropWhile (fun c => c == '0') = [] then ['0'] else A.dropWhile (fun c => c == '0')

/-- The intermediate states of a run of `big_multiply`: the planned length `n = 2 ^ k`, the
buffers after clearing (`a0`, `b0`), after loading (`a1`, `b1`), after the forward transforms
(`A2`, `B2`), after the pointwise products (`A3`) and after the inverse transform (`A4`), the
table `rev_bits` after each transform (`r1`, `r2`, `r3`), the digits `D` after the carry
stage and the trimmed length `L2`. -/
structure Run where
  n : Nat
  k : Nat
  a0 : Mem
  b0 : Mem
  a1 : Mem
  b1 : Mem
  A2 : Mem
  B2 : Mem
  A3 : Mem
  A4 : Mem
  r1 : Mem
  r2 : Mem
  r3 : Mem
  D : Mem
  L2 : Nat

/-- The statement that `big_multiply F g A B` passes through the states `r`, with what is
known about them. -/
structure RunOf (F : Nat) (g : Globals) (A B : List Char) (r : Run) : Prop where
  h_add : add A.length B.length = A.length + B.length
  h_sub : sub (A.length + B.length) 1 = A.length + B.length - 1
  h_grow : grow_loop (A.length + B.length - 1) F 1 = some r.n
  h_pow : r.n = 2 ^ r.k
  h_k : r.k ≤ 21
  h_need : A.length + B.length - 1 ≤ r.n
  h_cl : cl_loop r.n F 0 g.a_ntt g.b_ntt = some (r.a0, r.b0)
  h_ld1 : ld1 A A.length F 0 r.a0 = some r.a1
  h_ld2 : ld2 B B.length F 0 r.b0 = some r.b1
  h_ntt1 : ntt F r.a1 g.rev_bits r.n 0 = some (r.A2, r.r1)
  h_ntt2 : ntt F r.b1 r.r1 r.n 0 = some (r.B2, r.r2)
  h_pm : pm_loop F r.n r.B2 F 0 r.A2 = some r.A3
  h_ntt3 : ntt F r.A3 r.r2 r.n 1 = some (r.A4, r.r3)
  h_car : car_loop F (A.length + B.length) r.A4 F 0 0 g.digits = some (0, r.D)
  h_cc : cc_loop F F 0 (A.length + B.length) r.D = some (A.length + B.length, r.D)
  h_trim : trim_loop r.D F (A.length + B.length) = some r.L2
  h_out : out_loop r.D F (sub r.L2 1) [] = some (outChars r.D (r.L2 - 1))
  h_result : big_multiply F g A B A.length B.length =
    some (Globals.mk r.A4 r.B2 r.r3 r.D, outChars r.D (r.L2 - 1))
  h_a0 : r.a0 = fun j => if j < r.n then 0 else g.a_ntt j
  h_b0 : r.b0 = fun j => if j < r.n then 0 else g.b_ntt j
  h_a1 : r.a1 = fun j => if j < A.length then digitLE A j else r.a0 j
  h_b1 : r.b1 = fun j => if j < B.length then digitLE B j else r.b0 j
  h_loaded_a : ∀ i, i < r.n → r.a1 i = digitLE A i
  h_loaded_b : ∀ i, i < r.n → r.b1 i = digitLE B i
  h_coef : ∀ i, i < A.length + B.length → r.A4 i = conv (digitLE A) (digitLE B) i
  h_coef_n : ∀ i, i < r.n → r.A4 i = conv (digitLE A) (digitLE B) i
  h_D : r.D = fun j => if j < A.length + B.length then
    (conv (digitLE A) (digitLE B) j + carrySeq (conv (digitLE A) (digitLE B)) j) % 10
    else g.digits j
  h_carry : carrySeq (conv (digitLE A) (digitLE B)) (A.length + B.length) = 0
  h_L2_pos : 1 ≤ r.L2
  h_L2_le : r.L2 ≤ A.length + B.length
  h_digit : ∀ i, i < r.L2 → r.D i < 10
  h_top : r.L2 = 1 ∨ r.D (r.L2 - 1) ≠ 0
  h_trimmed : ∀ i, r.L2 ≤ i → i < A.length + B.length → r.D i = 0
  h_total : ∑ i in Finset.range r.L2, r.D i * 10 ^ i = value A * value B

/-! ## Array accesses with a bound check

The same loops once more, every array access going through `rd` and `wr`, which fail on an
index outside the array. An `int` index is compared as its bit pattern, so a negative index
fails too. -/

/-- The capacity of `a_ntt`, `b_ntt` and `rev_bits`. -/
def MAXN : Nat := 2097152

/-- The capacity of `digits`. -/
def digitsCap : Nat := 2200005

/-- Read `m[i]` from an array of `cap` elements. -/
def rd (cap : Nat) (m : Mem) (i : Nat) : Option Nat := if i < cap then some (m i) else none

/-- Store `m[i] = v` into an array of `cap` elements. -/
def wr (cap : Nat) (m : Mem) (i v : Nat) : Option Mem :=
  if i < cap then some (m.set i v) else none

/-- Read `s[i]` from a string of `len` characters, the terminator excluded. -/
def rdStr (s : List Char) (len i : Nat) : Option Nat :=
  if i < len then some (charAt s i) else none

/-- The loop `br_loop` of `build_rev`, bounds checked. -/
def br_loop_chk (cap F n logn : Nat) : Nat → Nat → Mem → Option Mem
  | 0, _, _ => none
  | f + 1, i, rev =>
    if less_than i n = 0 then some rev else do
      let r ← br_bit_loop logn F i 0 0
      let rev ← wr cap rev i r
      br_loop_chk cap F n logn f (add i 1) rev

/-- The function `build_rev`, bounds checked. -/
def build_rev_chk (cap F n logn : Nat) (rev : Mem) : Option Mem :=
  br_loop_chk cap F n logn F 0 rev

/-- The loop `nr_loop` of `ntt`, bounds checked. -/
def nr_loop_chk (cap n : Nat) (rev : Mem) : Nat → Nat → Mem → Option Mem
  | 0, _, _ => none
  | f + 1, i, a =>
    if less_than i n = 0 then some a else do
      let ri ← rd cap rev i
      if less_than i ri ≠ 0 then do
        let tmp ← rd cap a i
        let x ← rd cap a ri
        let a ← wr cap a i x
        let a ← wr cap a ri tmp
        nr_loop_chk cap n rev f (add i 1) a
      else nr_loop_chk cap n rev f (add i 1) a

/-- The loop `inner_loop` of `ntt`, bounds checked. -/
def inner_loop_chk (cap F i2 len wlen : Nat) : Nat → Nat → Nat → Mem → Option Mem
  | 0, _, _, _ => none
  | f + 1, j, w, a =>
    if less_than j (sar len 1) = 0 then some a else do
      let u ← rd cap a (add i2 j)
      let x ← rd cap a (add (add i2 j) (sar len 1))
      let v ← mul_mod F x w
      let a ← wr cap a (add i2 j) (addmod u v)
      let a ← wr cap a (add (add i2 j) (sar len 1)) (submod u v)
      let w ← mul_mod F w wlen
      inner_loop_chk cap F i2 len wlen f (add j 1) w a

/-- The loop `outer_loop` of `ntt`, bounds checked. -/
def outer_loop_chk (cap F n len wlen : Nat) : Nat → Nat → Mem → Option Mem
  | 0, _, _ => none
  | f + 1, i2, a =>
    if less_than i2 n = 0 then some a else do
      let a ← inner_loop_chk cap F i2 len wlen F 0 1 a
      outer_loop_chk cap F n len wlen f (add i2 len) a

/-- The loop `len_loop` of `ntt`, bounds checked. -/
def len_loop_chk (cap F n invert root root_inv : Nat) : Nat → Nat → Nat → Mem → Option Mem
  | 0, _, _, _ => none
  | f + 1, len, shift, a =>
    if less_than len (add n 1) = 0 then some a else do
      let exponent_shifted := sar (MOD - 1) shift
      let wlen ← pow_mod F (if invert ≠ 0 then root_inv else root) exponent_shifted
      let a ← outer_loop_chk cap F n len wlen F 0 a
      len_loop_chk cap F n invert root root_inv f (shl len 1) (add shift 1) a

/-- The loop `inv_loop` of `ntt`, bounds checked. -/
def inv_loop_chk (cap F n n_inv : Nat) : Nat → Nat → Mem → Option Mem
  | 0, _, _ => none
  | f + 1, k, a =>
    if less_than k n = 0 then some a else do
      let x ← rd cap a k
      let v ← mul_mod F x n_inv
      let a ← wr cap a k v
      inv_loop_chk cap F n n_inv f (add k 1) a

/-- The function `ntt`, bounds checked. -/
def ntt_chk (cap F : Nat) (a rev : Mem) (n invert : Nat) : Option (Mem × Mem) := do
  let logn ← logn_loop F 0 n
  let rev ← build_rev_chk cap F n logn rev
  let a ← nr_loop_chk cap n rev F 0 a
  let root := G
  let root_inv ← pow_mod F root (sub MOD 2)
  let a ← len_loop_chk cap F n invert root root_inv F 2 1 a
  if invert ≠ 0 then do
    let n_inv ← pow_mod F n (sub MOD 2)
    let a ← inv_loop_chk cap F n n_inv F 0 a
    pure (a, rev)
  else pure (a, rev)

/-- The loop `cl_loop` of `big_multiply`, bounds checked. -/
def cl_loop_chk (cap n : Nat) : Nat → Nat → Mem → Mem → Option (Mem × Mem)
  | 0, _, _, _ => none
  | f + 1, i, a, b =>
    if less_than i n = 0 then some (a, b) else do
      let a ← wr cap a i 0
      let b ← wr cap b i 0
      cl_loop_chk cap n f (add i 1) a b

/-- The loop `ld1` of `big_multiply`, bounds checked. -/
def ld1_chk (cap : Nat) (s1 : List Char) (n1 : Nat) : Nat → Nat → Mem → Option Mem
  | 0, _, _ => none
  | f + 1, i, a =>
    if less_than i n1 = 0 then some a else do
      let c ← rdStr s1 n1 (sub (sub n1 1) i)
      let a ← wr cap a i (sub c 48)
      ld1_chk cap s1 n1 f (add i 1) a

/-- The loop `ld2` of `big_multiply`, bounds checked. -/
def ld2_chk (cap : Nat) (s2 : List Char) (n2 : Nat) : Nat → Nat → Mem → Option Mem
  | 0, _, _ => none
  | f + 1, i, b =>
    if less_than i n2 = 0 then some b else do
      let c ← rdStr s2 n2 (sub (sub n2 1) i)
      let b ← wr cap b i (sub c 48)
      ld2_chk cap s2 n2 f (add i 1) b

/-- The loop `pm_loop` of `big_multiply`, bounds checked. -/
def pm_loop_chk (cap F n : Nat) (b : Mem) : Nat → Nat → Mem → Option Mem
  | 0, _, _ => none
  | f + 1, i, a =>
    if less_than i n = 0 then some a else do
      let x ← rd cap a i
      let y ← rd cap b i
      let v ← mul_mod F x y
      let a ← wr cap a i v
      pm_loop_chk cap F n b f (add i 1) a

/-- The loop `car_loop` of `big_multiply`, bounds checked. -/
def car_loop_chk (cap dcap F res_len : Nat) (a : Mem) :
    Nat → Nat → Nat → Mem → Option (Nat × Mem)
  | 0, _, _, _ => none
  | f + 1, i, carry, digits =>
    if less_than i res_len = 0 then some (carry, digits) else do
      let x ← rd cap a i
      let val := add x carry
      let (carry, r) ← divmod10 F val
      let digits ← wr dcap digits i r
      car_loop_chk cap dcap F res_len a f (add i 1) carry digits

/-- The loop `cc_loop` of `big_multiply` with its exit `cc_last`, bounds checked. -/
def cc_loop_chk (dcap F : Nat) : Nat → Nat → Nat → Mem → Option (Nat × Mem)
  | 0, _, _, _ => none
  | f + 1, carry, res_len, digits =>
    if less_than carry 10 ≠ 0 then
      if carry ≠ 0 then do
        let digits ← wr dcap digits res_len carry
        some (add res_len 1, digits)
      else some (res_len, digits)
    else do
      let (carry, r) ← divmod10 F carry
      let digits ← wr dcap digits res_len r
      cc_loop_chk dcap F f carry (add res_len 1) digits

/-- The loop `trim_loop` of `big_multiply`, bounds checked. -/
def trim_loop_chk (dcap : Nat) (digits : Mem) : Nat → Nat → Option Nat
  | 0, _ => none
  | f + 1, res_len =>
    if less_than 1 res_len = 0 then some res_len
    else do
      let d ← rd dcap digits (sub res_len 1)
      if d ≠ 0 then some res_len
      else trim_loop_chk dcap digits f (sub res_len 1)

/-- The loop `out_loop` of `big_multiply`, bounds checked. -/
def out_loop_chk (dcap : Nat) (digits : Mem) : Nat → Nat → List Char → Option (List Char)
  | 0, _, _ => none
  | f + 1, i, out =>
    if less_than i 0 ≠ 0 then some out
    else do
      let d ← rd dcap digits i
      out_loop_chk dcap digits f (sub i 1) (out ++ printInt d)

/-- The function `big_multiply`, every access to `a_ntt`, `b_ntt` and `rev_bits` checked
against `cap`, every access to `digits` against `dcap`, and every access to an operand
string against its length. -/
def big_multiply_chk (cap dcap F : Nat) (g : Globals) (s1 s2 : List Char) (len1 len2 : Nat) :
    Option (Globals × List Char) := do
  let n1 := len1
  let n2 := len2
  let need := sub (add n1 n2) 1
  let n ← grow_loop need F 1
  let (a, b) ← cl_loop_chk cap n F 0 g.a_ntt g.b_ntt
  let a ← ld1_chk cap s1 n1 F 0 a
  let b ← ld2_chk cap s2 n2 F 0 b
  let (a, rev) ← ntt_chk cap F a g.rev_bits n 0
  let (b, rev) ← ntt_chk cap F b rev n 0
  let a ← pm_loop_chk cap F n b F 0 a
  let (a, rev) ← ntt_chk cap F a rev n 1
  let res_len := add n1 n2
  let (carry, digits) ← car_loop_chk cap dcap F res_len a F 0 0 g.digits
  let (res_len, digits) ← cc_loop_chk dcap F F carry res_len digits
  let res_len ← trim_loop_chk dcap digits F res_len
  let out ← out_loop_chk dcap digits F (sub res_len 1) []
  pure ({ a_ntt := a, b_ntt := b, rev_bits := rev, digits := digits }, out)

/-! ## The nested calls of `add` and `sub` -/

/-- The arguments of the call of `add` nested `d` deep below the call `add(x, y)`; once a
call takes the base case `!y` the arguments stay. -/
def addArgs : Nat → Nat → Nat → Nat × Nat
  | 0, x, y => (x, y)
  | d + 1, x, y => if y = 0 then (x, y) else addArgs d (x ^^^ y) (shl (x &&& y) 1)

/-- The arguments of the call of `sub` nested `d` deep below the call `sub(x, y)`; once a
call takes the base case `!y` the arguments stay. -/
def subArgs : Nat → Nat → Nat → Nat × Nat
  | 0, x, y => (x, y)
  | d + 1, x, y => if y = 0 then (x, y) else subArgs d (x ^^^ y) (shl (lnot x &&& y) 1)

/-- The capacity of the input buffers `num1` and `num2`, the terminator included. -/
def MAXD : Nat := 1000005

/-! ## Native 32-bit arithmetic

The operations of the rewrite, stated on two's complement values, to compare with the
bitwise `add`, `sub` and `less_than`. -/

/-- Native 32-bit addition with wraparound, on bit patterns. -/
def nativeAdd (x y : Nat) : Nat := ofInt (toInt x + toInt y)

/-- Native 32-bit subtraction with wraparound, on bit patterns. -/
def nativeSub (x y : Nat) : Nat := ofInt (toInt x - toInt y)

/-- Native signed comparison `a < b`, as the C value `1` or `0`. -/
def nativeLess (a b : Nat) : Nat := if toInt a < toInt b then 1 else 0

/-- The function `main` with the zero test left out, so that `big_multiply` is called
directly for every pair of operands; the counterpart of `mainFrom` for comparing the fast
path with the pipeline. -/
def mainDirect (F : Nat) (g : Globals) (tokens : List (List Char)) : Option (List Char) :=
  match tokens with
  | num1 :: num2 :: _ => do
    let len1 ← get_length F num1
    let len2 ← get_length F num2
    let (_, out) ← big_multiply F g num1 num2 len1 len2
    some (out ++ ['\n'])
  | _ => some []

/-! ## Facts about the machine integers -/

theorem xor_add_two_mul_and (x y : Nat) : (x ^^^ y) + 2 * (x &&& y) = x + y := by
  induction x using Nat.binaryRec generalizing y with
  | z => simp
  | f a m ih =>
    induction y using Nat.binaryRec with
    | z => simp
    | f b n _ =>
      rw [Nat.xor_bit, Nat.land_bit]
      have h := ih n
      cases a <;> cases b <;> simp [Nat.bit_val] <;> omega

theorem dvd_and_of_dvd (x y t : Nat) (h : 2 ^ t ∣ y) : 2 ^ t ∣ x &&& y := by
  apply Nat.dvd_of_mod_eq_zero
  rw [← Nat.and_pow_two_sub_one_eq_mod, Nat.and_assoc, Nat.and_pow_two_sub_one_eq_mod,
    Nat.mod_eq_zero_of_dvd h]
  simp

theorem shl_one (x : Nat) : shl x 1 = (2 * x) % 4294967296 := by
  unfold shl
  rw [Nat.shiftLeft_eq]
  omega

theorem shl_lt (x k : Nat) : shl x k < 4294967296 := by
  unfold shl
  omega

theorem addRec_eq (d : Nat) : ∀ x y : Nat, d ≤ 32 → x < 4294967296 → y < 4294967296 →
    2 ^ (32 - d) ∣ y → addRec d x y = (x + y) % 4294967296 := by
  induction d with
  | zero =>
    intro x y _ hx hy hd
    have : y = 0 := by
      rcases hd with ⟨c, hc⟩
      norm_num at hc
      omega
    subst this
    simp [addRec]
    omega
  | succ d ih =>
    intro x y hd hx hy hdv
    unfold addRec
    by_cases h0 : y = 0
    · subst h0
      simp
      omega
    · rw [if_neg h0]
      have hxor : x ^^^ y < 4294967296 := Nat.xor_lt_two_pow (n := 32) hx hy
      have hdv2 : 2 ^ (32 - d) ∣ shl (x &&& y) 1 := by
        rw [shl_one]
        have h1 : 2 ^ (32 - (d + 1)) ∣ x &&& y := dvd_and_of_dvd x y _ hdv
        have h2 : 2 ^ (32 - d) ∣ 2 * (x &&& y) := by
          have : 32 - d = (32 - (d + 1)) + 1 := by omega
          rw [this, pow_succ, mul_comm]
          exact Nat.mul_dvd_mul_left 2 h1
        have h3 : 2 ^ (32 - d) ∣ 4294967296 := by
          have : (4294967296 : Nat) = 2 ^ 32 := by norm_num
          rw [this]
          exact Nat.pow_dvd_pow 2 (by omega)
        exact (Nat.dvd_mod_iff h3).mpr h2
      rw [ih _ _ (by omega) hxor (shl_lt _ _) hdv2, shl_one]
      have := xor_add_two_mul_and x y
      omega

theorem add_eq (x y : Nat) (hx : x < 4294967296) (hy : y < 4294967296) :
    add x y = (x + y) % 4294967296 :=
  addRec_eq 32 x y (le_refl _) hx hy (by simp)

theorem lnot_and_self (x : Nat) (hx : x < 4294967296) : lnot x &&& x = 0 := by
  unfold lnot
  rw [Nat.and_xor_distrib_right, Nat.and_self, Nat.and_comm]
  have := Nat.and_pow_two_sub_one_eq_mod x 32
  norm_num at this
  rw [this, Nat.mod_eq_of_lt hx, Nat.xor_self]

theorem lnot_and_add_and (x y : Nat) (hx : x < 4294967296) (hy : y < 4294967296) :
    (lnot x &&& y) + (x &&& y) = y := by
  have h := xor_add_two_mul_and (lnot x &&& y) (x &&& y)
  have h1 : (lnot x &&& y) &&& (x &&& y) = 0 := by
    have e : (lnot x &&& y) &&& (x &&& y) = (lnot x &&& x) &&& y := by
      apply Nat.eq_of_testBit_eq
      intro i
      simp only [Nat.testBit_and]
      cases (lnot x).testBit i <;> cases x.testBit i <;> cases y.testBit i <;> rfl
    rw [e, lnot_and_self x hx]
    simp
  have h2 : (lnot x &&& y) ^^^ (x &&& y) = y := by
    rw [← Nat.and_xor_distrib_right]
    have e : lnot x ^^^ x = 4294967295 := by
      unfold lnot
      rw [Nat.xor_assoc, Nat.xor_comm 4294967295 x, ← Nat.xor_assoc, Nat.xor_self]
      simp
    rw [e, Nat.and_comm]
    have := Nat.and_pow_two_sub_one_eq_mod y 32
    norm_num at this
    rw [this]
    omega
  rw [h1, h2] at h
  omega

theorem subRec_eq (d : Nat) : ∀ x y : Nat, d ≤ 32 → x < 4294967296 → y < 4294967296 →
    2 ^ (32 - d) ∣ y → subRec d x y = (x + 4294967296 - y) % 4294967296 := by
  induction d with
  | zero =>
    intro x y _ hx hy hd
    have : y = 0 := by
      rcases hd with ⟨c, hc⟩
      norm_num at hc
      omega
    subst this
    simp [subRec]
    omega
  | succ d ih =>
    intro x y hd hx hy hdv
    unfold subRec
    by_cases h0 : y = 0
    · subst h0
      simp
      omega
    · rw [if_neg h0]
      have hxor : x ^^^ y < 4294967296 := Nat.xor_lt_two_pow (n := 32) hx hy
      have hdv2 : 2 ^ (32 - d) ∣ shl (lnot x &&& y) 1 := by
        rw [shl_one]
        have h1 : 2 ^ (32 - (d + 1)) ∣ lnot x &&& y := dvd_and_of_dvd (lnot x) y _ hdv
        have h2 : 2 ^ (32 - d) ∣ 2 * (lnot x &&& y) := by
          have : 32 - d = (32 - (d + 1)) + 1 := by omega
          rw [this, pow_succ, mul_comm]
          exact Nat.mul_dvd_mul_left 2 h1
        have h3 : 2 ^ (32 - d) ∣ 4294967296 := by
          have : (4294967296 : Nat) = 2 ^ 32 := by norm_num
          rw [this]
          exact Nat.pow_dvd_pow 2 (by omega)
        exact (Nat.dvd_mod_iff h3).mpr h2
      rw [ih _ _ (by omega) hxor (shl_lt _ _) hdv2, shl_one]
      have e1 := xor_add_two_mul_and x y
      have e2 := lnot_and_add_and x y hx hy
      omega

theorem sub_eq (x y : Nat) (hx : x < 4294967296) (hy : y < 4294967296) :
    sub x y = (x + 4294967296 - y) % 4294967296 :=
  subRec_eq 32 x y (le_refl _) hx hy (by simp)

theorem add_lt (x y : Nat) (hx : x < 4294967296) (hy : y < 4294967296) :
    add x y < 4294967296 := by
  rw [add_eq x y hx hy]
  omega

theorem sub_lt (x y : Nat) (hx : x < 4294967296) (hy : y < 4294967296) :
    sub x y < 4294967296 := by
  rw [sub_eq x y hx hy]
  omega

/-- The unrolled `add` satisfies the recursion of the source on 32-bit ints. -/
theorem add_unfold (x y : Nat) (hx : x < 4294967296) (hy : y < 4294967296) :
    add x y = if y = 0 then x else add (x ^^^ y) (shl (x &&& y) 1) := by
  have hxor : x ^^^ y < 4294967296 := Nat.xor_lt_two_pow (n := 32) hx hy
  rw [add_eq x y hx hy]
  split
  · rename_i h
    subst h
    omega
  · rw [add_eq _ _ hxor (shl_lt _ _), shl_one]
    have := xor_add_two_mul_and x y
    omega

/-- The unrolled `sub` satisfies the recursion of the source on 32-bit ints. -/
theorem sub_unfold (x y : Nat) (hx : x < 4294967296) (hy : y < 4294967296) :
    sub x y = if y = 0 then x else sub (x ^^^ y) (shl (lnot x &&& y) 1) := by
  have hxor : x ^^^ y < 4294967296 := Nat.xor_lt_two_pow (n := 32) hx hy
  rw [sub_eq x y hx hy]
  split
  · rename_i h
    subst h
    omega
  · rw [sub_eq _ _ hxor (shl_lt _ _), shl_one]
    have e1 := xor_add_two_mul_and x y
    have e2 := lnot_and_add_and x y hx hy
    omega

/-- Sum of two non-negative ints that does not overflow. -/
theorem add_small (x y : Nat) (h : x + y < 4294967296) : add x y = x + y := by
  rw [add_eq x y (by omega) (by omega)]
  omega

/-- Difference of two ints with a non-negative result. -/
theorem sub_small (x y : Nat) (hx : x < 4294967296) (h : y ≤ x) : sub x y = x - y := by
  rw [sub_eq x y hx (by omega)]
  omega

theorem sar_nonneg (x k : Nat) (hx : x < 2147483648) : sar x k = x / 2 ^ k := by
  unfold sar toInt ofInt
  rw [if_pos hx, Int.shiftRight_eq_div_pow]
  have h1 : ((x : Int) / ((2 ^ k : Nat) : Int)) = ((x / 2 ^ k : Nat) : Int) := by
    push_cast
    rfl
  rw [h1]
  have h2 : x / 2 ^ k ≤ x := Nat.div_le_self _ _
  generalize x / 2 ^ k = q at h2 ⊢
  omega

theorem sar_neg_31 (x : Nat) (h1 : 2147483648 ≤ x) (h2 : x < 4294967296) :
    sar x 31 = 4294967295 := by
  unfold sar toInt ofInt
  rw [if_neg (by omega), Int.shiftRight_eq_div_pow]
  norm_num
  omega

/-- The sign test: `less_than a b` is the sign bit of the wrapped difference. -/
theorem less_than_eq (a b : Nat) (ha : a < 4294967296) (hb : b < 4294967296) :
    less_than a b = if 2147483648 ≤ (a + 4294967296 - b) % 4294967296 then 1 else 0 := by
  unfold less_than
  rw [sub_eq a b ha hb]
  split
  · rename_i h
    rw [sar_neg_31 _ h (by omega)]
    rfl
  · rename_i h
    rw [sar_nonneg _ _ (by omega)]
    have : (a + 4294967296 - b) % 4294967296 / 2 ^ 31 = 0 := by
      apply Nat.div_eq_of_lt
      norm_num
      omega
    rw [this]
    rfl

/-- On non-negative ints `less_than` is the comparison. -/
theorem less_than_nonneg (a b : Nat) (ha : a < 2147483648) (hb : b < 2147483648) :
    less_than a b = if a < b then 1 else 0 := by
  rw [less_than_eq a b (by omega) (by omega)]
  split <;> split <;> omega

theorem less_than_pos (a b : Nat) (hb : b < 2147483648) (h : a < b) :
    less_than a b = 1 := by
  rw [less_than_nonneg a b (by omega) hb, if_pos h]

theorem less_than_not (a b : Nat) (ha : a < 2147483648) (hb : b < 2147483648) (h : b ≤ a) :
    less_than a b = 0 := by
  rw [less_than_nonneg a b ha hb, if_neg (by omega)]

/-! ## Facts about the modular arithmetic -/

theorem addmod_eq (x y : Nat) (hx : x < MOD) (hy : y < MOD) :
    addmod x y = (x + y) % MOD := by
  unfold MOD at *
  unfold addmod
  simp only
  rw [add_small x y (by omega)]
  unfold MOD
  rw [less_than_nonneg _ _ (by omega) (by omega)]
  split
  · rename_i h
    rw [if_neg (by omega)]
    omega
  · rename_i h
    rw [if_pos rfl, sub_small _ _ (by omega) (by omega)]
    omega

theorem submod_eq (x y : Nat) (hx : x < MOD) (hy : y < MOD) :
    submod x y = (x + MOD - y) % MOD := by
  unfold MOD at *
  unfold submod
  simp only
  rw [sub_eq x y (by omega) (by omega), less_than_eq _ _ (by omega) (by omega)]
  unfold MOD
  split
  · rename_i h
    rw [if_pos (by decide), add_eq _ _ (by omega) (by omega)]
    omega
  · rename_i h
    rw [if_neg (by decide)]
    omega

theorem addmod_lt (x y : Nat) (hx : x < MOD) (hy : y < MOD) : addmod x y < MOD := by
  rw [addmod_eq x y hx hy]
  exact Nat.mod_lt _ (by unfold MOD; omega)

theorem submod_lt (x y : Nat) (hx : x < MOD) (hy : y < MOD) : submod x y < MOD := by
  rw [submod_eq x y hx hy]
  exact Nat.mod_lt _ (by unfold MOD; omega)

theorem mul_body_eq (s : MulSt) (hx : s.x < MOD) (hr : s.res < MOD) (hy : s.y < 2147483648) :
    mul_body s = ⟨(2 * s.x) % MOD, s.y / 2, (s.res + s.x * (s.y % 2)) % MOD⟩ := by
  unfold mul_body
  rw [addmod_eq _ _ hx hx, sar_nonneg _ _ hy, Nat.and_one_is_mod]
  have h2 : s.y % 2 = 0 ∨ s.y % 2 = 1 := by omega
  rcases h2 with h | h
  · simp [h, two_mul, Nat.mod_eq_of_lt hr]
  · simp [h, two_mul, addmod_eq _ _ hr hx]

theorem mul_loop_eq (f : Nat) : ∀ (s : MulSt) (F : Nat), s.x < MOD → s.res < MOD →
    s.y < 2 ^ f → f ≤ 31 → f < F →
    mul_loop F s = some ((s.res + s.x * s.y) % MOD) := by
  induction f with
  | zero =>
    intro s F hx hr hy _ hF
    obtain ⟨F, rfl⟩ : ∃ k, F = k + 1 := ⟨F - 1, by omega⟩
    have h0 : s.y = 0 := by omega
    simp [mul_loop, h0, Nat.mod_eq_of_lt hr]
  | succ f ih =>
    intro s F hx hr hy hf hF
    obtain ⟨F, rfl⟩ : ∃ k, F = k + 1 := ⟨F - 1, by omega⟩
    unfold mul_loop
    by_cases h0 : s.y = 0
    · simp [h0, Nat.mod_eq_of_lt hr]
    · rw [if_neg h0]
      have hy31 : s.y < 2147483648 := by
        have : (2 : Nat) ^ (f + 1) ≤ 2 ^ 31 := Nat.pow_le_pow_right (by omega) hf
        omega
      have hm : 0 < MOD := by unfold MOD; omega
      rw [mul_body_eq s hx hr hy31]
      rw [ih _ F (Nat.mod_lt _ hm) (Nat.mod_lt _ hm) (by simp only; rw [pow_succ] at hy; omega)
        (by omega) (by omega)]
      simp only
      congr 1
      have e : s.x * s.y = s.x * (s.y % 2) + 2 * s.x * (s.y / 2) := by
        have := Nat.div_add_mod s.y 2
        calc s.x * s.y = s.x * (2 * (s.y / 2) + s.y % 2) := by rw [this]
          _ = _ := by ring
      rw [e, ← Nat.add_assoc]
      apply Nat.ModEq.add (Nat.mod_modEq _ _)
      exact Nat.ModEq.mul_right _ (Nat.mod_modEq _ _)

/-- The value computed by `mul_mod` on a reduced `x` and a non-negative `y`. -/
theorem mul_mod_eq (F x y : Nat) (hF : 32 ≤ F) (hx : x < MOD) (hy : y < 2147483648) :
    mul_mod F x y = some ((x * y) % MOD) := by
  unfold mul_mod
  rw [mul_loop_eq 31 ⟨x, y, 0⟩ F hx (by simp only; unfold MOD; omega) (by simpa using hy)
    (le_refl _) (by omega)]
  simp

theorem pow_loop_eq (F : Nat) (hF : 32 ≤ F) (f : Nat) : ∀ (a e r k : Nat), a < MOD → r < MOD →
    e < 2 ^ f → f ≤ 31 → f < k →
    pow_loop F k a e r = some ((r * a ^ e) % MOD) := by
  induction f with
  | zero =>
    intro a e r k ha hr he _ hk
    obtain ⟨k, rfl⟩ : ∃ j, k = j + 1 := ⟨k - 1, by omega⟩
    have h0 : e = 0 := by omega
    simp [pow_loop, h0, Nat.mod_eq_of_lt hr]
  | succ f ih =>
    intro a e r k ha hr he hf hk
    obtain ⟨k, rfl⟩ : ∃ j, k = j + 1 := ⟨k - 1, by omega⟩
    unfold pow_loop
    by_cases h0 : e = 0
    · simp [h0, Nat.mod_eq_of_lt hr]
    · rw [if_neg h0]
      have he31 : e < 2147483648 := by
        have : (2 : Nat) ^ (f + 1) ≤ 2 ^ 31 := Nat.pow_le_pow_right (by omega) hf
        omega
      have hm : 0 < MOD := by unfold MOD; omega
      have ha31 : a < 2147483648 := by unfold MOD at ha; omega
      rw [mul_mod_eq F a a hF ha ha31, sar_nonneg _ _ he31, Nat.and_one_is_mod]
      have e2 : e % 2 = 0 ∨ e % 2 = 1 := by omega
      have hpow : a ^ e = a ^ (e % 2) * (a * a) ^ (e / 2) := by
        conv_lhs => rw [← Nat.div_add_mod e 2]
        rw [pow_add, pow_mul, mul_comm, sq]
      rcases e2 with h | h
      · simp only [h, ne_eq, not_true_eq_false, if_false, pure, Option.bind_eq_bind,
          Option.some_bind]
        rw [ih _ _ _ k (Nat.mod_lt _ hm) hr (by rw [pow_succ] at he; omega) (by omega)
          (by omega)]
        congr 1
        rw [hpow, h, pow_zero, one_mul]
        apply Nat.ModEq.mul_left
        exact Nat.ModEq.pow _ (Nat.mod_modEq _ _)
      · simp only [h, ne_eq, one_ne_zero, not_false_eq_true, if_true, Option.bind_eq_bind]
        rw [mul_mod_eq F r a hF hr ha31]
        simp only [Option.some_bind]
        rw [ih _ _ _ k (Nat.mod_lt _ hm) (Nat.mod_lt _ hm) (by rw [pow_succ] at he; omega)
          (by omega) (by omega)]
        congr 1
        rw [hpow, h, ← mul_assoc]
        simp only [pow_one]
        refine Nat.ModEq.mul (Nat.mod_modEq _ _) ?_
        exact Nat.ModEq.pow _ (Nat.mod_modEq _ _)

/-- The value computed by `pow_mod` on a reduced base and a non-negative exponent. -/
theorem pow_mod_eq (F a e : Nat) (hF : 32 ≤ F) (ha : a < MOD) (he : e < 2147483648) :
    pow_mod F a e = some ((a ^ e) % MOD) := by
  unfold pow_mod
  rw [pow_loop_eq F hF 31 a e 1 F ha (by unfold MOD; omega) (by simpa using he) (le_refl _)
    (by omega)]
  simp

/-! ## Bit reversal -/

theorem bitrev_lt (k : Nat) : ∀ x, bitrev k x < 2 ^ k := by
  induction k with
  | zero => intro x; simp [bitrev]
  | succ k ih =>
    intro x
    have h := ih (x / 2)
    have h2 : x % 2 < 2 := Nat.mod_lt _ (by omega)
    unfold bitrev
    rw [pow_succ]
    have : 2 ^ k * (x % 2) ≤ 2 ^ k * 1 := Nat.mul_le_mul_left _ (by omega)
    omega

/-- Reversal read from the other end. -/
theorem bitrev_succ_high (k : Nat) : ∀ x, bitrev (k + 1) x =
    2 * bitrev k (x % 2 ^ k) + (x / 2 ^ k) % 2 := by
  induction k with
  | zero => intro x; simp [bitrev]
  | succ k ih =>
    intro x
    rw [bitrev, ih (x / 2), bitrev]
    have e1 : x % 2 ^ (k + 1) % 2 = x % 2 := by
      rw [pow_succ, mul_comm]
      exact Nat.mod_mul_right_mod _ _ _
    have e2 : x % 2 ^ (k + 1) / 2 = x / 2 % 2 ^ k := by
      rw [pow_succ, mul_comm, Nat.mod_mul_right_div_self]
    have e3 : x / 2 / 2 ^ k = x / 2 ^ (k + 1) := by
      rw [Nat.div_div_eq_div_mul, pow_succ, mul_comm]
    rw [e1, e2, e3, pow_succ]
    ring

theorem bitrev_bitrev (k : Nat) : ∀ x, x < 2 ^ k → bitrev k (bitrev k x) = x := by
  induction k with
  | zero => intro x hx; simp [bitrev] at *; omega
  | succ k ih =>
    intro x hx
    rw [bitrev_succ_high k x, bitrev]
    have hq : x / 2 ^ k < 2 := by
      rw [Nat.div_lt_iff_lt_mul (by positivity)]
      rw [pow_succ] at hx
      omega
    have e1 : (2 * bitrev k (x % 2 ^ k) + x / 2 ^ k % 2) % 2 = x / 2 ^ k := by
      generalize x / 2 ^ k = q at hq ⊢
      omega
    have e2 : (2 * bitrev k (x % 2 ^ k) + x / 2 ^ k % 2) / 2 = bitrev k (x % 2 ^ k) := by
      generalize x / 2 ^ k = q at hq ⊢
      omega
    rw [e1, e2, ih _ (Nat.mod_lt _ (by positivity))]
    exact Nat.div_add_mod x (2 ^ k)

theorem bitrev_double (k x : Nat) : bitrev (k + 1) (2 * x) = bitrev k x := by
  rw [bitrev]
  have e1 : 2 * x % 2 = 0 := by omega
  have e2 : 2 * x / 2 = x := by omega
  rw [e1, e2]
  simp

theorem bitrev_double_add_one (k x : Nat) :
    bitrev (k + 1) (2 * x + 1) = 2 ^ k + bitrev k x := by
  rw [bitrev]
  have e1 : (2 * x + 1) % 2 = 1 := by omega
  have e2 : (2 * x + 1) / 2 = x := by omega
  rw [e1, e2]
  simp

theorem br_bit_loop_eq (logn : Nat) (hl : logn ≤ 30) (d : Nat) : ∀ (f x r k : Nat),
    k + d = logn → r < 2 ^ k → x < 2147483648 → d < f →
    br_bit_loop logn f x r k = some (r * 2 ^ d + bitrev d x) := by
  induction d with
  | zero =>
    intro f x r k hk hr hx hf
    obtain ⟨f, rfl⟩ : ∃ j, f = j + 1 := ⟨f - 1, by omega⟩
    unfold br_bit_loop
    rw [less_than_not k logn (by omega) (by omega) (by omega)]
    simp [bitrev]
  | succ d ih =>
    intro f x r k hk hr hx hf
    obtain ⟨f, rfl⟩ : ∃ j, f = j + 1 := ⟨f - 1, by omega⟩
    unfold br_bit_loop
    rw [less_than_pos k logn (by omega) (by omega)]
    simp only [one_ne_zero, if_false]
    have hk30 : k < 30 := by omega
    have hr30 : r < 2 ^ 29 := lt_of_lt_of_le hr (Nat.pow_le_pow_right (by omega) (by omega))
    have hshl : shl r 1 = 2 * r := by
      rw [shl_one]
      omega
    rw [hshl, add_small k 1 (by omega), sar_nonneg _ _ hx, Nat.and_one_is_mod]
    have hr2 : 2 * r + x % 2 < 2 ^ (k + 1) := by
      rw [pow_succ]
      omega
    have hx2 : x / 2 ^ 1 < 2147483648 := by
      have := Nat.div_le_self x (2 ^ 1)
      omega
    have e2 : x % 2 = 0 ∨ x % 2 = 1 := by omega
    rcases e2 with h | h
    · simp only [h, ne_eq, not_true_eq_false, if_false]
      rw [ih f _ _ _ (by omega) (by rw [h] at hr2; exact hr2) hx2 (by omega), bitrev, h]
      simp only [pow_one]
      rw [pow_succ]
      ring_nf
    · simp only [h, ne_eq, one_ne_zero, not_false_eq_true, if_true]
      rw [add_small _ _ (by omega)]
      rw [ih f _ _ _ (by omega) (by rw [h] at hr2; exact hr2) hx2 (by omega), bitrev, h]
      simp only [pow_one]
      rw [pow_succ]
      ring_nf

theorem br_loop_eq (F n logn : Nat) (hl : logn ≤ 30) (hF : logn < F) (hn : n < 2147483647)
    (d : Nat) : ∀ (f i : Nat) (rev : Mem), i + d = n → d < f →
    br_loop F n logn f i rev =
      some (fun j => if i ≤ j ∧ j < n then bitrev logn j else rev j) := by
  induction d with
  | zero =>
    intro f i rev hi hf
    obtain ⟨f, rfl⟩ : ∃ j, f = j + 1 := ⟨f - 1, by omega⟩
    unfold br_loop
    rw [less_than_not i n (by omega) (by omega) (by omega)]
    simp only [if_true]
    congr 1
    funext j
    rw [if_neg (by omega)]
  | succ d ih =>
    intro f i rev hi hf
    obtain ⟨f, rfl⟩ : ∃ j, f = j + 1 := ⟨f - 1, by omega⟩
    unfold br_loop
    rw [less_than_pos i n (by omega) (by omega)]
    simp only [one_ne_zero, if_false]
    rw [br_bit_loop_eq logn hl logn F i 0 0 (by omega) (by simp) (by omega) hF]
    simp only [zero_mul, zero_add, Option.bind_eq_bind, Option.some_bind]
    rw [add_small i 1 (by omega), ih f (i + 1) _ (by omega) (by omega)]
    congr 1
    funext j
    unfold Mem.set
    by_cases h1 : j = i
    · subst h1
      rw [if_neg (by omega), if_pos rfl, if_pos (by omega)]
    · by_cases h2 : i + 1 ≤ j ∧ j < n
      · rw [if_pos h2, if_pos (by omega)]
      · rw [if_neg h2, if_neg h1, if_neg (by omega)]

/-- The table left by `build_rev`. -/
theorem build_rev_eq (F n logn : Nat) (rev : Mem) (hl : logn ≤ 30) (hn : n < 2147483647)
    (hF : n < F) (hF2 : logn < F) :
    build_rev F n logn rev = some (fun j => if j < n then bitrev logn j else rev j) := by
  unfold build_rev
  rw [br_loop_eq F n logn hl hF2 hn n F 0 rev (by omega) hF]
  simp

/-! ## The loops of `ntt` before the butterflies -/

theorem toInt_nonneg (x : Nat) (hx : x < 2147483648) : toInt x = (x : Int) := by
  unfold toInt
  rw [if_pos hx]

theorem logn_loop_eq (k : Nat) : ∀ (f l : Nat), k ≤ 30 → l + k < 2147483648 → k < f →
    logn_loop f l (2 ^ k) = some (l + k) := by
  induction k with
  | zero =>
    intro f l _ _ hf
    obtain ⟨f, rfl⟩ : ∃ j, f = j + 1 := ⟨f - 1, by omega⟩
    unfold logn_loop
    rw [toInt_nonneg _ (by norm_num)]
    simp
  | succ k ih =>
    intro f l hk hl hf
    obtain ⟨f, rfl⟩ : ∃ j, f = j + 1 := ⟨f - 1, by omega⟩
    have hpk : (2 : Nat) ^ (k + 1) ≤ 2 ^ 30 := Nat.pow_le_pow_right (by omega) hk
    have hp1 : 1 ≤ 2 ^ k := Nat.one_le_two_pow
    unfold logn_loop
    rw [toInt_nonneg _ (by omega)]
    have h1 : (1 : Int) < ((2 ^ (k + 1) : Nat) : Int) := by
      rw [pow_succ]
      omega
    rw [if_pos h1, sar_nonneg _ _ (by omega), add_small l 1 (by omega)]
    have e : 2 ^ (k + 1) / 2 ^ 1 = 2 ^ k := by
      rw [pow_succ]
      omega
    rw [e, ih f (l + 1) (by omega) (by omega) (by omega)]
    congr 1
    omega

theorem nr_loop_eq (n k : Nat) (rev a0 : Mem) (hn : n = 2 ^ k) (hk : k ≤ 30)
    (hrev : ∀ j, j < n → rev j = bitrev k j) (d : Nat) :
    ∀ (f i : Nat) (cur : Mem), i + d = n → d < f →
    (∀ j, cur j = if j < n ∧ (j < i ∨ bitrev k j < i) then a0 (bitrev k j) else a0 j) →
    nr_loop n rev f i cur = some (fun j => if j < n then a0 (bitrev k j) else a0 j) := by
  have hn30 : n ≤ 2 ^ 30 := by
    rw [hn]
    exact Nat.pow_le_pow_right (by omega) hk
  have hlt : ∀ j, bitrev k j < n := by
    intro j
    rw [hn]
    exact bitrev_lt k j
  have hinv : ∀ j, j < n → bitrev k (bitrev k j) = j := by
    intro j hj
    exact bitrev_bitrev k j (by rw [← hn]; exact hj)
  induction d with
  | zero =>
    intro f i cur hi hf hI
    obtain ⟨f, rfl⟩ : ∃ j, f = j + 1 := ⟨f - 1, by omega⟩
    unfold nr_loop
    rw [less_than_not i n (by omega) (by omega) (by omega)]
    simp only [if_true]
    congr 1
    funext j
    rw [hI j]
    by_cases hj : j < n
    · rw [if_pos ⟨hj, Or.inl (by omega)⟩, if_pos hj]
    · rw [if_neg (fun h => hj h.1), if_neg hj]
  | succ d ih =>
    intro f i cur hi hf hI
    obtain ⟨f, rfl⟩ : ∃ j, f = j + 1 := ⟨f - 1, by omega⟩
    have hin : i < n := by omega
    unfold nr_loop
    rw [less_than_pos i n (by omega) hin]
    simp only [one_ne_zero, if_false]
    rw [add_small i 1 (by omega), hrev i hin]
    have hri := hlt i
    rw [less_than_nonneg i (bitrev k i) (by omega) (by omega)]
    apply ih f (i + 1) _ (by omega) (by omega)
    intro j
    by_cases hsw : i < bitrev k i
    · rw [if_pos hsw]
      simp only [one_ne_zero, ne_eq, not_false_eq_true, if_true]
      have hci : cur i = a0 i := by
        rw [hI i, if_neg (by omega)]
      have hcr : cur (bitrev k i) = a0 (bitrev k i) := by
        rw [hI (bitrev k i), if_neg]
        rw [hinv i hin]
        omega
      unfold Mem.set
      by_cases hj1 : j = bitrev k i
      · rw [if_pos hj1, hci, hj1, hinv i hin, if_pos]
        exact ⟨hri, Or.inr (by omega)⟩
      · rw [if_neg hj1]
        by_cases hj2 : j = i
        · rw [if_pos hj2, hcr, hj2, if_pos]
          exact ⟨hin, Or.inl (by omega)⟩
        · rw [if_neg hj2, hI j]
          by_cases hjn : j < n
          · have hne : bitrev k j ≠ i := by
              intro h
              apply hj1
              rw [← h, hinv j hjn]
            by_cases hc : j < i ∨ bitrev k j < i
            · rw [if_pos ⟨hjn, hc⟩, if_pos]
              exact ⟨hjn, by omega⟩
            · rw [if_neg (fun h => hc h.2), if_neg]
              intro h
              omega
          · rw [if_neg (fun h => hjn h.1), if_neg (fun h => hjn h.1)]
    · rw [if_neg hsw]
      simp only [ne_eq, not_true_eq_false, if_false]
      rw [hI j]
      by_cases hjn : j < n
      · by_cases hc : j < i ∨ bitrev k j < i
        · rw [if_pos ⟨hjn, hc⟩, if_pos]
          exact ⟨hjn, by omega⟩
        · rw [if_neg (fun h => hc h.2)]
          by_cases hc2 : j < i + 1 ∨ bitrev k j < i + 1
          · rw [if_pos ⟨hjn, hc2⟩]
            have hji : j = i ∨ bitrev k j = i := by omega
            have hjr : j = bitrev k i := by
              rcases hji with h | h
              · subst h
                omega
              · rw [← h, hinv j hjn]
            have hji2 : j = i := by omega
            have h3 : bitrev k i = i := by omega
            rw [hji2, h3]
          · rw [if_neg (fun h => hc2 h.2)]
      · rw [if_neg (fun h => hjn h.1), if_neg (fun h => hjn h.1)]

/-! ## The butterfly loops -/

theorem MOD_pos : 0 < MOD := by unfold MOD; omega

theorem MOD_lt : MOD < 2147483648 := by unfold MOD; omega

theorem blockPart_zero (i2 half wlen : Nat) (a : Mem) : blockPart i2 half wlen 0 a = a := by
  funext idx
  unfold blockPart
  rw [if_neg (by omega), if_neg (by omega)]

theorem blockPart_succ (i2 half wlen j : Nat) (a : Mem) (hj : j < half) :
    ((blockPart i2 half wlen j a).set (i2 + j)
        ((a (i2 + j) + a (i2 + j + half) * wlen ^ j) % MOD)).set (i2 + j + half)
        ((a (i2 + j) + MOD - a (i2 + j + half) * wlen ^ j % MOD) % MOD)
      = blockPart i2 half wlen (j + 1) a := by
  funext idx
  unfold Mem.set blockPart
  by_cases h1 : idx = i2 + j + half
  · subst h1
    have e1 : i2 + j + half - half = i2 + j := by omega
    have e2 : i2 + j - i2 = j := by omega
    have c1 : ¬ (i2 ≤ i2 + j + half ∧ i2 + j + half < i2 + (j + 1)) := by omega
    have c2 : i2 + half ≤ i2 + j + half ∧ i2 + j + half < i2 + half + (j + 1) := by omega
    simp only [if_true, if_neg c1, if_pos c2, e1, e2]
  · by_cases h2 : idx = i2 + j
    · subst h2
      have e2 : i2 + j - i2 = j := by omega
      have c1 : i2 ≤ i2 + j ∧ i2 + j < i2 + (j + 1) := by omega
      simp only [if_neg h1, if_true, if_pos c1, e2]
    · simp only [if_neg h1, if_neg h2]
      by_cases h3 : i2 ≤ idx ∧ idx < i2 + j
      · have c1 : i2 ≤ idx ∧ idx < i2 + (j + 1) := by omega
        simp only [if_pos h3, if_pos c1]
      · have c1 : ¬ (i2 ≤ idx ∧ idx < i2 + (j + 1)) := by omega
        simp only [if_neg h3, if_neg c1]
        by_cases h4 : i2 + half ≤ idx ∧ idx < i2 + half + j
        · have c2 : i2 + half ≤ idx ∧ idx < i2 + half + (j + 1) := by omega
          simp only [if_pos h4, if_pos c2]
        · have c2 : ¬ (i2 + half ≤ idx ∧ idx < i2 + half + (j + 1)) := by omega
          simp only [if_neg h4, if_neg c2]

theorem inner_loop_eq (F i2 len half wlen : Nat) (a : Mem) (hF : 32 ≤ F)
    (hlen : len = 2 * half) (hb : i2 + len ≤ 1073741824) (hw : wlen < MOD)
    (ha : ∀ idx, i2 ≤ idx → idx < i2 + len → a idx < MOD) (d : Nat) :
    ∀ (f j : Nat), j + d = half → d < f →
    inner_loop F i2 len wlen f j (wlen ^ j % MOD) (blockPart i2 half wlen j a) =
      some (blockPart i2 half wlen half a) := by
  have hsar : sar len 1 = half := by
    rw [sar_nonneg _ _ (by omega)]
    omega
  induction d with
  | zero =>
    intro f j hj hf
    obtain ⟨f, rfl⟩ : ∃ j, f = j + 1 := ⟨f - 1, by omega⟩
    unfold inner_loop
    rw [hsar, less_than_not j half (by omega) (by omega) (by omega)]
    simp only [if_true]
    have : j = half := by omega
    rw [this]
  | succ d ih =>
    intro f j hj hf
    obtain ⟨f, rfl⟩ : ∃ j, f = j + 1 := ⟨f - 1, by omega⟩
    unfold inner_loop
    rw [hsar, less_than_pos j half (by omega) (by omega)]
    simp only [one_ne_zero, if_false]
    rw [add_small i2 j (by omega), add_small (i2 + j) half (by omega), add_small j 1 (by omega)]
    have hu : blockPart i2 half wlen j a (i2 + j) = a (i2 + j) := by
      unfold blockPart
      rw [if_neg (by omega), if_neg (by omega)]
    have hv : blockPart i2 half wlen j a (i2 + j + half) = a (i2 + j + half) := by
      unfold blockPart
      rw [if_neg (by omega), if_neg (by omega)]
    have hwj : wlen ^ j % MOD < MOD := Nat.mod_lt _ MOD_pos
    have hwj31 : wlen ^ j % MOD < 2147483648 := lt_trans hwj MOD_lt
    have ha1 : a (i2 + j) < MOD := ha _ (by omega) (by omega)
    have ha2 : a (i2 + j + half) < MOD := ha _ (by omega) (by omega)
    rw [hu, hv, mul_mod_eq F _ _ hF ha2 hwj31,
      mul_mod_eq F _ wlen hF hwj (lt_trans hw MOD_lt)]
    simp only [Option.bind_eq_bind, Option.some_bind]
    have hv2 : a (i2 + j + half) * (wlen ^ j % MOD) % MOD =
        a (i2 + j + half) * wlen ^ j % MOD := by
      rw [Nat.mul_mod, Nat.mod_mod, ← Nat.mul_mod]
    rw [hv2, addmod_eq _ _ ha1 (Nat.mod_lt _ MOD_pos),
      submod_eq _ _ ha1 (Nat.mod_lt _ MOD_pos)]
    have hs : (a (i2 + j) + a (i2 + j + half) * wlen ^ j % MOD) % MOD =
        (a (i2 + j) + a (i2 + j + half) * wlen ^ j) % MOD := by
      rw [Nat.add_mod, Nat.mod_mod, ← Nat.add_mod]
    have hw2 : wlen ^ j % MOD * wlen % MOD = wlen ^ (j + 1) % MOD := by
      rw [pow_succ, Nat.mul_mod, Nat.mod_mod, ← Nat.mul_mod]
    rw [hs, hw2, blockPart_succ i2 half wlen j a (by omega)]
    exact ih f (j + 1) (by omega) (by omega)

theorem stageFn_zero (len wlen : Nat) (a : Mem) : stageFn len wlen a 0 = a := by
  funext idx
  unfold stageFn
  rw [if_neg (by omega)]

theorem block_index (b len idx : Nat) (h1 : b * len ≤ idx) (h2 : idx < b * len + len) :
    idx / len * len = b * len := by
  have hlen : 0 < len := by
    rcases Nat.eq_zero_or_pos len with h | h
    · subst h
      omega
    · exact h
  have : idx / len = b := by
    apply Nat.div_eq_of_lt_le
    · exact h1
    · calc idx < b * len + len := h2
        _ = (b + 1) * len := by ring
  rw [this]

theorem stageFn_step (b len half wlen : Nat) (a : Mem) (hlen : len = 2 * half) :
    blockPart (b * len) half wlen half (stageFn len wlen a (b * len)) =
      stageFn len wlen a (b * len + len) := by
  funext idx
  by_cases h1 : idx < b * len
  · have c1 : ¬ (b * len ≤ idx ∧ idx < b * len + half) := by omega
    have c2 : ¬ (b * len + half ≤ idx ∧ idx < b * len + half + half) := by omega
    have c3 : idx < b * len + len := by omega
    unfold blockPart stageFn
    simp only [if_neg c1, if_neg c2, if_pos h1, if_pos c3]
  · by_cases h2 : idx < b * len + len
    · have hb := block_index b len idx (by omega) h2
      have hh : len / 2 = half := by omega
      unfold stageFn
      simp only [if_pos h2, hb, hh]
      unfold blockPart
      by_cases h3 : idx < b * len + half
      · have c1 : b * len ≤ idx ∧ idx < b * len + half := by omega
        have c4 : ¬ (idx + half < b * len) := by omega
        simp only [if_pos c1, if_neg h1, if_neg c4]
      · have c1 : ¬ (b * len ≤ idx ∧ idx < b * len + half) := by omega
        have c2 : b * len + half ≤ idx ∧ idx < b * len + half + half := by omega
        have c4 : ¬ (idx - half < b * len) := by omega
        simp only [if_neg c1, if_pos c2, if_neg h1, if_neg c4]
    · have c1 : ¬ (b * len ≤ idx ∧ idx < b * len + half) := by omega
      have c2 : ¬ (b * len + half ≤ idx ∧ idx < b * len + half + half) := by omega
      unfold blockPart stageFn
      simp only [if_neg c1, if_neg c2, if_neg h1, if_neg h2]

theorem outer_loop_eq (F n len half wlen m : Nat) (a : Mem) (hF : 32 ≤ F) (hF2 : half < F)
    (hlen : len = 2 * half) (hhalf : 0 < half) (hn : n = m * len) (hb : n ≤ 536870912)
    (hw : wlen < MOD) (ha : ∀ idx, idx < n → a idx < MOD) (d : Nat) :
    ∀ (f b : Nat), b + d = m → d < f →
    outer_loop F n len wlen f (b * len) (stageFn len wlen a (b * len)) =
      some (stageFn len wlen a n) := by
  induction d with
  | zero =>
    intro f b hbm hf
    obtain ⟨f, rfl⟩ : ∃ j, f = j + 1 := ⟨f - 1, by omega⟩
    have e : b * len = n := by
      rw [hn]
      congr 1
    unfold outer_loop
    rw [e, less_than_not n n (by omega) (by omega) (le_refl _)]
    simp
  | succ d ih =>
    intro f b hbm hf
    obtain ⟨f, rfl⟩ : ∃ j, f = j + 1 := ⟨f - 1, by omega⟩
    have hlt : b * len + len ≤ n := by
      rw [hn]
      calc b * len + len = (b + 1) * len := by ring
        _ ≤ m * len := Nat.mul_le_mul_right _ (by omega)
    unfold outer_loop
    rw [less_than_pos (b * len) n (by omega) (by omega)]
    simp only [one_ne_zero, if_false]
    have hcur : ∀ idx, b * len ≤ idx → idx < b * len + len →
        stageFn len wlen a (b * len) idx < MOD := by
      intro idx h1 h2
      unfold stageFn
      rw [if_neg (by omega)]
      exact ha idx (by omega)
    have hin := inner_loop_eq F (b * len) len half wlen (stageFn len wlen a (b * len)) hF hlen
      (by omega) hw hcur half F 0 (by omega) hF2
    rw [blockPart_zero, pow_zero, Nat.mod_eq_of_lt (by unfold MOD; omega : 1 < MOD)] at hin
    rw [hin]
    simp only [Option.bind_eq_bind, Option.some_bind]
    rw [add_small _ _ (by omega), stageFn_step b len half wlen a hlen]
    have e : b * len + len = (b + 1) * len := by ring
    rw [e]
    exact ih f (b + 1) (by omega) (by omega)

theorem stageFn_lt (len half wlen n : Nat) (a : Mem) (hlen : len = 2 * half) (hhalf : 0 < half)
    (idx : Nat) (h : idx < n) : stageFn len wlen a n idx < MOD := by
  unfold stageFn
  rw [if_pos h]
  have hh : len / 2 = half := by omega
  have h1 : idx / len * len ≤ idx := Nat.div_mul_le_self _ _
  have h2 : idx < idx / len * len + len := by
    have := Nat.div_add_mod idx len
    have := Nat.mod_lt idx (by omega : 0 < len)
    rw [mul_comm]
    omega
  rw [hh]
  unfold blockPart
  by_cases h3 : idx < idx / len * len + half
  · rw [if_pos ⟨h1, h3⟩]
    exact Nat.mod_lt _ MOD_pos
  · rw [if_neg (fun h => h3 h.2), if_pos ⟨by omega, by omega⟩]
    exact Nat.mod_lt _ MOD_pos

theorem stagesFn_lt (n r : Nat) (a : Mem) (ha : ∀ idx, idx < n → a idx < MOD) (s : Nat) :
    ∀ idx, idx < n → stagesFn n r s a idx < MOD := by
  cases s with
  | zero => exact ha
  | succ s =>
    intro idx h
    unfold stagesFn
    exact stageFn_lt (2 ^ (s + 1)) (2 ^ s) _ n _ (by rw [pow_succ]; ring) (by positivity) idx h

theorem len_loop_eq (F n k invert root root_inv : Nat) (a : Mem) (hF : 32 ≤ F) (hF2 : n < F)
    (hn : n = 2 ^ k) (hk : k ≤ 23) (hr : root < MOD) (hri : root_inv < MOD)
    (ha : ∀ idx, idx < n → a idx < MOD) (d : Nat) :
    ∀ (f s : Nat), s + d = k → d < f →
    len_loop F n invert root root_inv f (2 ^ (s + 1)) (s + 1)
        (stagesFn n (if invert ≠ 0 then root_inv else root) s a) =
      some (stagesFn n (if invert ≠ 0 then root_inv else root) k a) := by
  have hn23 : n ≤ 2 ^ 23 := by
    rw [hn]
    exact Nat.pow_le_pow_right (by omega) hk
  have hn1 : 1 ≤ n := by
    rw [hn]
    exact Nat.one_le_two_pow
  have hrr : (if invert ≠ 0 then root_inv else root) < MOD := by
    split
    · exact hri
    · exact hr
  induction d with
  | zero =>
    intro f s hs hf
    obtain ⟨f, rfl⟩ : ∃ j, f = j + 1 := ⟨f - 1, by omega⟩
    have hs : s = k := by omega
    subst hs
    have e : 2 ^ (s + 1) = 2 * n := by
      rw [hn, pow_succ]
      ring
    unfold len_loop
    rw [e, add_small n 1 (by omega), less_than_not (2 * n) (n + 1) (by omega) (by omega) (by omega)]
    simp
  | succ d ih =>
    intro f s hs hf
    obtain ⟨f, rfl⟩ : ∃ j, f = j + 1 := ⟨f - 1, by omega⟩
    have hpl : (2 : Nat) ^ (s + 1) ≤ n := by
      rw [hn]
      exact Nat.pow_le_pow_right (by omega) (by omega)
    have hdv : n = 2 ^ (k - (s + 1)) * 2 ^ (s + 1) := by
      rw [hn, ← pow_add]
      congr 1
      omega
    have hm : 2 ^ (k - (s + 1)) ≤ n := by
      rw [hn]
      exact Nat.pow_le_pow_right (by omega) (by omega)
    unfold len_loop
    rw [add_small n 1 (by omega), less_than_pos (2 ^ (s + 1)) (n + 1) (by omega) (by omega)]
    simp only [one_ne_zero, if_false]
    have hexp : sar (MOD - 1) (s + 1) = (MOD - 1) / 2 ^ (s + 1) :=
      sar_nonneg _ _ (by unfold MOD; omega)
    have hexp2 : (MOD - 1) / 2 ^ (s + 1) < 2147483648 := by
      have := Nat.div_le_self (MOD - 1) (2 ^ (s + 1))
      unfold MOD at *
      omega
    rw [hexp, pow_mod_eq F _ _ hF hrr hexp2]
    simp only [Option.bind_eq_bind, Option.some_bind]
    have hout := outer_loop_eq F n (2 ^ (s + 1)) (2 ^ s) _ (2 ^ (k - (s + 1)))
      (stagesFn n (if invert ≠ 0 then root_inv else root) s a) hF
      (by have := Nat.pow_le_pow_right (by omega : 1 ≤ 2) (by omega : s ≤ s + 1); omega)
      (by rw [pow_succ]; ring) (by positivity) hdv (by omega)
      (Nat.mod_lt ((if invert ≠ 0 then root_inv else root) ^ ((MOD - 1) / 2 ^ (s + 1))) MOD_pos)
      (stagesFn_lt n _ a ha s) (2 ^ (k - (s + 1))) F 0 (by omega) (by omega)
    rw [zero_mul, stageFn_zero] at hout
    rw [hout]
    simp only [Option.some_bind]
    have hshl : shl (2 ^ (s + 1)) 1 = 2 ^ (s + 1 + 1) := by
      rw [shl_one, pow_succ _ (s + 1)]
      have : (2 : Nat) ^ (s + 1) ≤ 2 ^ 23 := le_trans hpl hn23
      omega
    rw [hshl, add_small (s + 1) 1 (by omega)]
    exact ih f (s + 1) (by omega) (by omega)

theorem inv_loop_eq (F n n_inv : Nat) (a : Mem) (hF : 32 ≤ F) (hn : n ≤ 1073741824)
    (hi : n_inv < MOD) (ha : ∀ idx, idx < n → a idx < MOD) (d : Nat) :
    ∀ (f k : Nat) (cur : Mem), k + d = n → d < f →
    (∀ idx, cur idx = if idx < k then a idx * n_inv % MOD else a idx) →
    inv_loop F n n_inv f k cur =
      some (fun idx => if idx < n then a idx * n_inv % MOD else a idx) := by
  induction d with
  | zero =>
    intro f k cur hk hf hc
    obtain ⟨f, rfl⟩ : ∃ j, f = j + 1 := ⟨f - 1, by omega⟩
    unfold inv_loop
    rw [less_than_not k n (by omega) (by omega) (by omega)]
    simp only [if_true]
    have : k = n := by omega
    subst this
    congr 1
    funext idx
    exact hc idx
  | succ d ih =>
    intro f k cur hk hf hc
    obtain ⟨f, rfl⟩ : ∃ j, f = j + 1 := ⟨f - 1, by omega⟩
    unfold inv_loop
    rw [less_than_pos k n (by omega) (by omega)]
    simp only [one_ne_zero, if_false]
    have hck : cur k = a k := by
      rw [hc k, if_neg (by omega)]
    rw [hck, mul_mod_eq F _ _ hF (ha k (by omega)) (lt_trans hi MOD_lt)]
    simp only [Option.bind_eq_bind, Option.some_bind]
    rw [add_small k 1 (by omega)]
    apply ih f (k + 1) _ (by omega) (by omega)
    intro idx
    unfold Mem.set
    by_cases h1 : idx = k
    · subst h1
      rw [if_pos rfl, if_pos (by omega)]
    · rw [if_neg h1, hc idx]
      by_cases h2 : idx < k
      · rw [if_pos h2, if_pos (by omega)]
      · rw [if_neg h2, if_neg (by omega)]

theorem permFn_lt (n k : Nat) (a : Mem) (hn : n = 2 ^ k) (ha : ∀ idx, idx < n → a idx < MOD) :
    ∀ idx, idx < n → permFn n k a idx < MOD := by
  intro idx h
  unfold permFn
  rw [if_pos h]
  exact ha _ (by rw [hn]; exact bitrev_lt k idx)

/-- The run of `ntt` on a buffer of reduced values: enough fuel gives the staged result. -/
theorem ntt_eq (F n k invert : Nat) (a rev : Mem) (hF : 32 ≤ F) (hF2 : n < F)
    (hn : n = 2 ^ k) (hk : k ≤ 23) (ha : ∀ idx, idx < n → a idx < MOD) :
    ntt F a rev n invert = some (nttFn n k invert a, revFn n k rev) := by
  have hn23 : n ≤ 2 ^ 23 := by
    rw [hn]
    exact Nat.pow_le_pow_right (by omega) hk
  have hn1 : 1 ≤ n := by
    rw [hn]
    exact Nat.one_le_two_pow
  have hkn : k < n := by
    rw [hn]
    exact Nat.lt_two_pow k
  have ep : (fun j => if j < n then a (bitrev k j) else a j) = permFn n k a := rfl
  have er : (fun j => if j < n then bitrev k j else rev j) = revFn n k rev := rfl
  unfold ntt
  have h1 := logn_loop_eq k F 0 (by omega) (by omega) (by omega)
  rw [← hn, zero_add] at h1
  rw [h1]
  simp only [Option.bind_eq_bind, Option.some_bind]
  rw [build_rev_eq F n k rev (by omega) (by omega) hF2 (by omega), er]
  simp only [Option.some_bind]
  have h2 := nr_loop_eq n k (revFn n k rev) a hn (by omega)
    (by intro j hj; simp only [revFn, if_pos hj]) n F 0 a (by omega) hF2
    (by intro j; rw [if_neg (by omega)])
  rw [ep] at h2
  rw [h2]
  simp only [Option.some_bind]
  have hsub : sub MOD 2 = MOD - 2 := by
    unfold MOD
    rw [sub_small _ _ (by omega) (by omega)]
  have hG : G < MOD := by unfold G MOD; omega
  rw [hsub, pow_mod_eq F G (MOD - 2) hF hG (by unfold MOD; omega)]
  simp only [Option.some_bind]
  have h3 := len_loop_eq F n k invert G (G ^ (MOD - 2) % MOD)
    (permFn n k a) hF hF2 hn hk hG (Nat.mod_lt _ MOD_pos)
    (permFn_lt n k a hn ha) k F 0 (by omega) (by omega)
  simp only [zero_add, pow_one, stagesFn] at h3
  rw [h3]
  simp only [Option.some_bind]
  by_cases hinv : invert ≠ 0
  · simp only [if_pos hinv]
    rw [pow_mod_eq F n (MOD - 2) hF (by unfold MOD; omega) (by unfold MOD; omega)]
    simp only [Option.some_bind]
    rw [inv_loop_eq F n (n ^ (MOD - 2) % MOD)
      (stagesFn n (G ^ (MOD - 2) % MOD) k (permFn n k a)) hF (by omega) (Nat.mod_lt _ MOD_pos)
      (stagesFn_lt n _ _ (permFn_lt n k a hn ha) k) n F 0 _ (by omega) hF2
      (by intro idx; rw [if_neg (by omega)])]
    simp only [Option.some_bind, pure, nttFn, if_pos hinv]
    rfl
  · simp only [if_neg hinv, pure, nttFn]

/-! ## Arithmetic in the field of residues -/

theorem MOD_pred_div (s : Nat) (hs : s ≤ 23) : (MOD - 1) / 2 ^ s = 119 * 2 ^ (23 - s) := by
  have h : MOD - 1 = 119 * 2 ^ (23 - s) * 2 ^ s := by
    rw [mul_assoc, ← pow_add]
    have : 23 - s + s = 23 := by omega
    rw [this]
    unfold MOD
    norm_num
  rw [h]
  exact Nat.mul_div_cancel _ (by positivity)

theorem sq_iterate (k : Nat) : ∀ a : Nat,
    (fun v => v * v % MOD)^[k] (a % MOD) = a ^ 2 ^ k % MOD := by
  induction k with
  | zero => intro a; simp
  | succ k ih =>
    intro a
    rw [Function.iterate_succ_apply]
    have e : a % MOD * (a % MOD) % MOD = (a * a) % MOD := by
      rw [← Nat.mul_mod]
    rw [e, ih (a * a), pow_succ, pow_mul', ← sq]

theorem G_pow_half : G ^ ((MOD - 1) / 2) % MOD = MOD - 1 := by
  have h := MOD_pred_div 1 (by omega)
  simp only [pow_one] at h
  rw [h, pow_mul, ← sq_iterate]
  unfold G MOD
  decide

theorem G_pow_seventh : G ^ (17 * 2 ^ 23) % MOD = 779057549 := by
  rw [pow_mul, ← sq_iterate]
  unfold G MOD
  decide

theorem G_pow_seventeenth : G ^ (7 * 2 ^ 23) % MOD = 337827833 := by
  rw [pow_mul, ← sq_iterate]
  unfold G MOD
  decide

theorem G_pow_full : G ^ (119 * 2 ^ 23) % MOD = 1 := by
  rw [pow_mul, ← sq_iterate]
  unfold G MOD
  decide

theorem cast_pow_ne_one (e v : Nat) (h : G ^ e % MOD = v) (hv : v ≠ 1) (hlt : v < MOD) :
    ((G : Nat) : ZMod MOD) ^ e ≠ 1 := by
  intro h1
  have h2 : ((G ^ e % MOD : Nat) : ZMod MOD) = ((1 : Nat) : ZMod MOD) := by
    rw [ZMod.natCast_mod, Nat.cast_pow, h1, Nat.cast_one]
  have h3 := congrArg ZMod.val h2
  rw [h, ZMod.val_cast_of_lt hlt, ZMod.val_cast_of_lt (by unfold MOD; omega)] at h3
  exact hv h3

/-- The modulus is prime, by the Lucas test with the generator `G`. -/
theorem MOD_prime : Nat.Prime MOD := by
  apply lucas_primality MOD ((G : Nat) : ZMod MOD)
  · have h2 : ((G ^ (119 * 2 ^ 23) % MOD : Nat) : ZMod MOD) = ((1 : Nat) : ZMod MOD) := by
      rw [G_pow_full]
    rw [ZMod.natCast_mod, Nat.cast_pow, Nat.cast_one] at h2
    have e : MOD - 1 = 119 * 2 ^ 23 := by unfold MOD; norm_num
    rw [e]
    exact h2
  · intro q hq hdvd
    have e : MOD - 1 = 2 ^ 23 * (7 * 17) := by unfold MOD; norm_num
    rw [e] at hdvd ⊢
    rcases (Nat.Prime.dvd_mul hq).mp hdvd with h | h
    · have hq2 : q = 2 := (Nat.prime_dvd_prime_iff_eq hq Nat.prime_two).mp
        (hq.dvd_of_dvd_pow h)
      subst hq2
      have e2 : 2 ^ 23 * (7 * 17) / 2 = (MOD - 1) / 2 := by unfold MOD; norm_num
      rw [e2]
      exact cast_pow_ne_one _ _ G_pow_half (by unfold MOD; decide) (by unfold MOD; decide)
    · rcases (Nat.Prime.dvd_mul hq).mp h with h7 | h17
      · have hq7 : q = 7 := (Nat.prime_dvd_prime_iff_eq hq (by norm_num)).mp h7
        subst hq7
        have e2 : 2 ^ 23 * (7 * 17) / 7 = 17 * 2 ^ 23 := by norm_num
        rw [e2]
        exact cast_pow_ne_one _ _ G_pow_seventh (by decide) (by unfold MOD; decide)
      · have hq17 : q = 17 := (Nat.prime_dvd_prime_iff_eq hq (by norm_num)).mp h17
        subst hq17
        have e2 : 2 ^ 23 * (7 * 17) / 17 = 7 * 2 ^ 23 := by norm_num
        rw [e2]
        exact cast_pow_ne_one _ _ G_pow_seventeenth (by decide) (by unfold MOD; decide)

instance MOD_fact : Fact (Nat.Prime MOD) := ⟨MOD_prime⟩

theorem cast_MOD_pred : ((MOD - 1 : Nat) : Fp) = -1 := by
  rw [Nat.cast_sub (by unfold MOD; omega)]
  simp

theorem cast_G_pow_half : ((G : Nat) : Fp) ^ ((MOD - 1) / 2) = -1 := by
  have h : ((G ^ ((MOD - 1) / 2) % MOD : Nat) : Fp) = ((MOD - 1 : Nat) : Fp) := by
    rw [G_pow_half]
  rw [ZMod.natCast_mod, Nat.cast_pow, cast_MOD_pred] at h
  exact h

theorem cast_eq_of_lt (x y : Nat) (hx : x < MOD) (hy : y < MOD)
    (h : (x : Fp) = (y : Fp)) : x = y := by
  have h1 := congrArg ZMod.val h
  rwa [ZMod.val_cast_of_lt hx, ZMod.val_cast_of_lt hy] at h1

/-! ## The stages compute transforms of doubling length -/

theorem twiddle_exp_double (s : Nat) (hs : s + 1 ≤ 23) :
    (MOD - 1) / 2 ^ (s + 1) * 2 = (MOD - 1) / 2 ^ s := by
  rw [ MOD_pred_div (s + 1) hs, MOD_pred_div s (by omega), mul_assoc, ← pow_succ]
  have : 23 - (s + 1) + 1 = 23 - s := by omega
  rw [this]

theorem twiddle_exp_half (s : Nat) (hs : s + 1 ≤ 23) :
    (MOD - 1) / 2 ^ (s + 1) * 2 ^ s = (MOD - 1) / 2 := by
  have h := MOD_pred_div 1 (by omega)
  simp only [pow_one] at h
  rw [ MOD_pred_div (s + 1) hs, h, mul_assoc, ← pow_add]
  have : 23 - (s + 1) + s = 23 - 1 := by omega
  rw [this]

theorem twiddle_sq (ρ : Fp) (s : Nat) (hs : s + 1 ≤ 23) :
    twiddle ρ (s + 1) ^ 2 = twiddle ρ s := by
  unfold twiddle
  rw [← pow_mul, twiddle_exp_double s hs]

theorem twiddle_half (ρ : Fp) (hρ : ρ ^ ((MOD - 1) / 2) = -1) (s : Nat) (hs : s + 1 ≤ 23) :
    twiddle ρ (s + 1) ^ 2 ^ s = -1 := by
  unfold twiddle
  rw [← pow_mul, twiddle_exp_half s hs, hρ]

theorem twiddle_full (ρ : Fp) (hρ : ρ ^ ((MOD - 1) / 2) = -1) (s : Nat) (hs : s ≤ 23) :
    twiddle ρ s ^ 2 ^ s = 1 := by
  cases s with
  | zero =>
    unfold twiddle
    simp only [pow_zero, pow_one, Nat.div_one]
    have h := twiddle_exp_double 0 (by omega)
    simp only [zero_add, pow_one, pow_zero, Nat.div_one] at h
    rw [← h, pow_mul, hρ]
    norm_num
  | succ s =>
    rw [pow_succ, pow_mul, twiddle_half ρ hρ s hs]
    norm_num

theorem sum_range_double (g : Nat → Fp) (N : Nat) :
    ∑ t in Finset.range (2 * N), g t = ∑ t in Finset.range N, (g (2 * t) + g (2 * t + 1)) := by
  induction N with
  | zero => simp
  | succ N ih =>
    have : 2 * (N + 1) = 2 * N + 1 + 1 := by ring
    rw [this, Finset.sum_range_succ, Finset.sum_range_succ, ih, Finset.sum_range_succ]
    ring

theorem blockDft_succ (ρ : Fp) (f : Nat → Fp) (s base m : Nat) (hs : s + 1 ≤ 23) :
    blockDft ρ f (s + 1) base m =
      blockDft ρ f s base m + twiddle ρ (s + 1) ^ m * blockDft ρ f s (base + 2 ^ s) m := by
  unfold blockDft
  rw [pow_succ, mul_comm (2 ^ s) 2, sum_range_double, Finset.sum_add_distrib, Finset.mul_sum]
  congr 1
  · apply Finset.sum_congr rfl
    intro t _
    rw [bitrev_double, ← twiddle_sq ρ s hs, ← pow_mul]
    congr 2
    ring
  · apply Finset.sum_congr rfl
    intro t _
    rw [bitrev_double_add_one, ← twiddle_sq ρ s hs, ← pow_mul, ← mul_assoc,
      mul_comm (twiddle ρ (s + 1) ^ m), mul_assoc, ← pow_add, add_assoc]
    congr 2
    ring

theorem blockDft_shift (ρ : Fp) (hρ : ρ ^ ((MOD - 1) / 2) = -1) (f : Nat → Fp)
    (s base m : Nat) (hs : s ≤ 23) :
    blockDft ρ f s base (m + 2 ^ s) = blockDft ρ f s base m := by
  unfold blockDft
  apply Finset.sum_congr rfl
  intro t _
  have : t * (m + 2 ^ s) = t * m + 2 ^ s * t := by ring
  rw [this, pow_add, pow_mul (twiddle ρ s) (2 ^ s) t, twiddle_full ρ hρ s hs]
  simp

theorem cast_sub_mod (x y : Nat) :
    (((x + MOD - y % MOD) % MOD : Nat) : Fp) = (x : Fp) - (y : Fp) := by
  have h : y % MOD ≤ x + MOD := le_trans (le_of_lt (Nat.mod_lt _ MOD_pos)) (by omega)
  rw [ZMod.natCast_mod, Nat.cast_sub h, Nat.cast_add, ZMod.natCast_self, ZMod.natCast_mod]
  ring

theorem stages_dft (n k r : Nat) (a : Mem) (hn : n = 2 ^ k) (hk : k ≤ 23)
    (hρ : (r : Fp) ^ ((MOD - 1) / 2) = -1) (s : Nat) :
    s ≤ k → ∀ b m, m < 2 ^ s → b * 2 ^ s + m < n →
    ((stagesFn n r s a (b * 2 ^ s + m) : Nat) : Fp) =
      blockDft (r : Fp) (fun i => ((a i : Nat) : Fp)) s (b * 2 ^ s) m := by
  induction s with
  | zero =>
    intro _ b m hm _
    have hm0 : m = 0 := by simpa using hm
    subst hm0
    simp [stagesFn, blockDft, bitrev]
  | succ s ih =>
    intro hs b m hm hlt
    have hw : (((r ^ ((MOD - 1) / 2 ^ (s + 1)) % MOD : Nat) : Fp)) = twiddle (r : Fp) (s + 1) := by
      rw [ZMod.natCast_mod, Nat.cast_pow]
      rfl
    have hp : (2 : Nat) ^ (s + 1) = 2 * 2 ^ s := by rw [pow_succ]; ring
    have hhalf : 2 ^ (s + 1) / 2 = 2 ^ s := by omega
    have hbi := block_index b (2 ^ (s + 1)) (b * 2 ^ (s + 1) + m) (by omega) (by omega)
    have hfull : b * 2 ^ (s + 1) + 2 ^ (s + 1) ≤ n := by
      have hdv : n = 2 ^ (k - (s + 1)) * 2 ^ (s + 1) := by
        have hke : k - (s + 1) + (s + 1) = k := by omega
        rw [hn, ← pow_add, hke]
      have hb : b < 2 ^ (k - (s + 1)) := by
        by_contra hc
        have : 2 ^ (k - (s + 1)) * 2 ^ (s + 1) ≤ b * 2 ^ (s + 1) :=
          Nat.mul_le_mul_right _ (by omega)
        omega
      calc b * 2 ^ (s + 1) + 2 ^ (s + 1) = (b + 1) * 2 ^ (s + 1) := by ring
        _ ≤ 2 ^ (k - (s + 1)) * 2 ^ (s + 1) := Nat.mul_le_mul_right _ (by omega)
        _ = n := hdv.symm
    have eb : (2 * b) * 2 ^ s = b * 2 ^ (s + 1) := by rw [hp]; ring
    have eb1 : (2 * b + 1) * 2 ^ s = b * 2 ^ (s + 1) + 2 ^ s := by rw [hp]; ring
    rw [blockDft_succ _ _ _ _ _ (by omega)]
    unfold stagesFn stageFn
    rw [if_pos hlt, hbi, hhalf]
    unfold blockPart
    generalize hbase : b * 2 ^ (s + 1) = base at *
    by_cases hlow : m < 2 ^ s
    · rw [if_pos (by omega)]
      have e1 : base + m - base = m := by omega
      have hA := ih (by omega) (2 * b) m hlow (by rw [eb]; omega)
      have hB := ih (by omega) (2 * b + 1) m hlow (by rw [eb1]; omega)
      rw [eb] at hA
      rw [eb1] at hB
      have e2 : base + m + 2 ^ s = base + 2 ^ s + m := by omega
      rw [e1, ZMod.natCast_mod, Nat.cast_add, Nat.cast_mul, Nat.cast_pow, hw, e2, hA, hB]
      ring
    · rw [if_neg (by omega), if_pos (by omega)]
      obtain ⟨m2, rfl⟩ : ∃ m2, m = m2 + 2 ^ s := ⟨m - 2 ^ s, by omega⟩
      have hm2 : m2 < 2 ^ s := by omega
      have e1 : base + (m2 + 2 ^ s) - 2 ^ s - base = m2 := by omega
      have e2 : base + (m2 + 2 ^ s) = base + 2 ^ s + m2 := by omega
      have e4 : base + (m2 + 2 ^ s) - 2 ^ s = base + m2 := by omega
      have hA := ih (by omega) (2 * b) m2 hm2 (by rw [eb]; omega)
      have hB := ih (by omega) (2 * b + 1) m2 hm2 (by rw [eb1]; omega)
      rw [eb] at hA
      rw [eb1] at hB
      rw [e1, cast_sub_mod, Nat.cast_mul, Nat.cast_pow, hw, e4, e2, hA, hB]
      rw [blockDft_shift _ hρ _ s base m2 (by omega),
        blockDft_shift _ hρ _ s (base + 2 ^ s) m2 (by omega),
        pow_add (twiddle (r : Fp) (s + 1)) m2 (2 ^ s), twiddle_half _ hρ s (by omega)]
      ring

/-! ## The transform is a discrete Fourier transform -/

theorem stages_full (n k r : Nat) (x : Mem) (hn : n = 2 ^ k) (hk : k ≤ 23)
    (hρ : (r : Fp) ^ ((MOD - 1) / 2) = -1) (m : Nat) (hm : m < n) :
    ((stagesFn n r k (permFn n k x) m : Nat) : Fp) =
      dft (twiddle (r : Fp) k) n (fun i => ((x i : Nat) : Fp)) m := by
  have h := stages_dft n k r (permFn n k x) hn hk hρ k (le_refl _) 0 m (by rw [← hn]; exact hm)
    (by omega)
  simp only [zero_mul, zero_add] at h
  rw [h]
  unfold blockDft dft
  rw [← hn]
  apply Finset.sum_congr rfl
  intro t ht
  have ht2 : t < n := Finset.mem_range.mp ht
  have hb : bitrev k t < n := by rw [hn]; exact bitrev_lt k t
  unfold permFn
  simp only [zero_add, if_pos hb, bitrev_bitrev k t (by rw [← hn]; exact ht2)]

theorem cast_G_ne_zero : ((G : Nat) : Fp) ≠ 0 := by
  intro h
  have h0 : ((G : Nat) : Fp) = ((0 : Nat) : Fp) := by rw [h]; simp
  have := cast_eq_of_lt G 0 (by unfold G MOD; omega) MOD_pos h0
  unfold G at this
  omega

theorem fermat_inv (a : Fp) (ha : a ≠ 0) : a ^ (MOD - 2) = a⁻¹ := by
  have h := ZMod.pow_card_sub_one_eq_one ha
  have e : MOD - 1 = MOD - 2 + 1 := by unfold MOD; norm_num
  rw [e, pow_succ] at h
  exact eq_inv_of_mul_eq_one_left h

theorem cast_Ginv : (((G ^ (MOD - 2) % MOD : Nat)) : Fp) = ((G : Nat) : Fp)⁻¹ := by
  rw [ZMod.natCast_mod, Nat.cast_pow, fermat_inv _ cast_G_ne_zero]

theorem cast_Ginv_pow_half : (((G ^ (MOD - 2) % MOD : Nat)) : Fp) ^ ((MOD - 1) / 2) = -1 := by
  rw [cast_Ginv, inv_pow, cast_G_pow_half]
  norm_num

theorem omega_mul_omegaInv (k : Nat) : omega k * omegaInv k = 1 := by
  unfold omega omegaInv twiddle
  rw [cast_Ginv, inv_pow]
  exact mul_inv_cancel₀ (pow_ne_zero _ cast_G_ne_zero)

theorem omega_pow_n (k : Nat) (hk : k ≤ 23) : omega k ^ 2 ^ k = 1 :=
  twiddle_full _ cast_G_pow_half k hk

theorem neg_one_ne_one : (-1 : Fp) ≠ 1 := by
  intro h
  have h2 : ((2 : Nat) : Fp) = ((0 : Nat) : Fp) := by
    have : (1 : Fp) + 1 = 0 := by
      nth_rewrite 1 [← h]
      ring
    push_cast
    rw [← this]
    ring
  have := cast_eq_of_lt 2 0 (by unfold MOD; omega) MOD_pos h2
  omega

theorem omega_order (k : Nat) (hk : k ≤ 23) : orderOf (omega k) = 2 ^ k := by
  cases k with
  | zero =>
    have h := omega_pow_n 0 hk
    simp only [pow_zero, pow_one] at h
    rw [h]
    simp
  | succ s =>
    have h1 : ¬ omega (s + 1) ^ 2 ^ s = 1 := by
      unfold omega
      rw [twiddle_half _ cast_G_pow_half s hk]
      exact neg_one_ne_one
    haveI : Fact (Nat.Prime 2) := ⟨Nat.prime_two⟩
    exact orderOf_eq_prime_pow h1 (omega_pow_n (s + 1) hk)

/-- Orthogonality of the powers of the root. -/
theorem omega_orthogonal (k : Nat) (hk : k ≤ 23) (j m : Nat) (hj : j < 2 ^ k) (hm : m < 2 ^ k) :
    ∑ t in Finset.range (2 ^ k), omega k ^ (j * t) * omegaInv k ^ (t * m) =
      if j = m then ((2 ^ k : Nat) : Fp) else 0 := by
  have hterm : ∀ t, omega k ^ (j * t) * omegaInv k ^ (t * m) =
      (omega k ^ j * omegaInv k ^ m) ^ t := by
    intro t
    rw [mul_pow, ← pow_mul, ← pow_mul, mul_comm m t]
  simp only [hterm]
  by_cases h : j = m
  · subst h
    rw [if_pos rfl, ← mul_pow, omega_mul_omegaInv]
    simp
  · rw [if_neg h]
    have hne : omega k ^ j * omegaInv k ^ m ≠ 1 := by
      intro h1
      have h2 : omega k ^ j = omega k ^ m := by
        have : omega k ^ j * (omegaInv k ^ m * omega k ^ m) = omega k ^ m := by
          rw [← mul_assoc, h1, one_mul]
        rwa [← mul_pow, mul_comm (omegaInv k), omega_mul_omegaInv, one_pow, mul_one] at this
      have h3 := pow_injOn_Iio_orderOf (x := omega k)
        (by rw [omega_order k hk]; exact hj) (by rw [omega_order k hk]; exact hm) h2
      exact h h3
    have hone : (omega k ^ j * omegaInv k ^ m) ^ 2 ^ k = 1 := by
      have hinv : omegaInv k ^ 2 ^ k = 1 := by
        have : (omega k * omegaInv k) ^ 2 ^ k = 1 := by rw [omega_mul_omegaInv, one_pow]
        rwa [mul_pow, omega_pow_n k hk, one_mul] at this
      rw [mul_pow, ← pow_mul, ← pow_mul, mul_comm j, mul_comm m, pow_mul, pow_mul,
        omega_pow_n k hk, hinv]
      simp
    have hg := mul_geom_sum (omega k ^ j * omegaInv k ^ m) (2 ^ k)
    rw [hone, sub_self] at hg
    rcases mul_eq_zero.mp hg with h0 | h0
    · exact absurd (sub_eq_zero.mp h0) hne
    · exact h0

theorem stagesFn_frame (n r : Nat) (a : Mem) (s : Nat) :
    ∀ idx, n ≤ idx → stagesFn n r s a idx = a idx := by
  induction s with
  | zero => intro idx _; rfl
  | succ s ih =>
    intro idx h
    unfold stagesFn stageFn
    rw [if_neg (by omega)]
    exact ih idx h

theorem nttFn_frame (n k invert : Nat) (x : Mem) (idx : Nat) (h : n ≤ idx) :
    nttFn n k invert x idx = x idx := by
  unfold nttFn
  split
  · unfold scaleFn
    rw [if_neg (by omega), stagesFn_frame n _ _ k idx h]
    unfold permFn
    rw [if_neg (by omega)]
  · rw [stagesFn_frame n _ _ k idx h]
    unfold permFn
    rw [if_neg (by omega)]

theorem nttFn_lt (n k invert : Nat) (x : Mem) (hn : n = 2 ^ k)
    (hx : ∀ idx, idx < n → x idx < MOD) : ∀ idx, idx < n → nttFn n k invert x idx < MOD := by
  intro idx h
  unfold nttFn
  split
  · unfold scaleFn
    rw [if_pos h]
    exact Nat.mod_lt _ MOD_pos
  · exact stagesFn_lt n _ _ (permFn_lt n k x hn hx) k idx h

/-- The forward transform is the discrete Fourier transform with root `omega k`. -/
theorem nttFn_forward (n k : Nat) (x : Mem) (hn : n = 2 ^ k) (hk : k ≤ 23) (m : Nat)
    (hm : m < n) :
    ((nttFn n k 0 x m : Nat) : Fp) = dft (omega k) n (fun i => ((x i : Nat) : Fp)) m := by
  unfold nttFn
  rw [if_neg (by simp)]
  exact stages_full n k G x hn hk cast_G_pow_half m hm

theorem cast_n_ne_zero (n k : Nat) (hn : n = 2 ^ k) (hk : k ≤ 23) : ((n : Nat) : Fp) ≠ 0 := by
  intro h
  have h0 : ((n : Nat) : Fp) = ((0 : Nat) : Fp) := by rw [h]; simp
  have hn23 : n ≤ 2 ^ 23 := by
    rw [hn]
    exact Nat.pow_le_pow_right (by omega) hk
  have hn1 : 1 ≤ n := by
    rw [hn]
    exact Nat.one_le_two_pow
  have := cast_eq_of_lt n 0 (by unfold MOD; omega) MOD_pos h0
  omega

/-- The inverse transform is `n⁻¹` times the discrete Fourier transform with the inverse
root. -/
theorem nttFn_inverse (n k invert : Nat) (x : Mem) (hn : n = 2 ^ k) (hk : k ≤ 23)
    (hinv : invert ≠ 0) (m : Nat) (hm : m < n) :
    ((nttFn n k invert x m : Nat) : Fp) =
      ((n : Nat) : Fp)⁻¹ * dft (omegaInv k) n (fun i => ((x i : Nat) : Fp)) m := by
  unfold nttFn scaleFn
  rw [if_pos hinv, if_pos hm, ZMod.natCast_mod, Nat.cast_mul, ZMod.natCast_mod, Nat.cast_pow,
    fermat_inv _ (cast_n_ne_zero n k hn hk),
    stages_full n k _ x hn hk cast_Ginv_pow_half m hm, mul_comm]
  rfl

/-- The inverse transform undoes the forward transform, in the field. -/
theorem dft_roundtrip (k : Nat) (hk : k ≤ 23) (f : Nat → Fp) (m : Nat) (hm : m < 2 ^ k) :
    (((2 ^ k : Nat) : Fp))⁻¹ * dft (omegaInv k) (2 ^ k) (fun t => dft (omega k) (2 ^ k) f t) m
      = f m := by
  unfold dft
  have h1 : ∀ t, (∑ j in Finset.range (2 ^ k), f j * omega k ^ (j * t)) * omegaInv k ^ (t * m) =
      ∑ j in Finset.range (2 ^ k), f j * (omega k ^ (j * t) * omegaInv k ^ (t * m)) := by
    intro t
    rw [Finset.sum_mul]
    apply Finset.sum_congr rfl
    intro j _
    ring
  simp only [h1]
  rw [Finset.sum_comm]
  have h2 : ∀ j ∈ Finset.range (2 ^ k),
      ∑ t in Finset.range (2 ^ k), f j * (omega k ^ (j * t) * omegaInv k ^ (t * m)) =
      if j = m then f j * ((2 ^ k : Nat) : Fp) else 0 := by
    intro j hj
    rw [← Finset.mul_sum, omega_orthogonal k hk j m (Finset.mem_range.mp hj) hm]
    split <;> simp
  rw [Finset.sum_congr rfl h2, Finset.sum_ite_eq' (Finset.range (2 ^ k)) m,
    if_pos (Finset.mem_range.mpr hm), mul_comm, mul_assoc,
    mul_inv_cancel₀ (cast_n_ne_zero (2 ^ k) k rfl hk), mul_one]

/-- Forward then inverse transform gives back the buffer. -/
theorem nttFn_roundtrip (n k invert : Nat) (x : Mem) (hn : n = 2 ^ k) (hk : k ≤ 23)
    (hinv : invert ≠ 0) (hx : ∀ idx, idx < n → x idx < MOD) :
    nttFn n k invert (nttFn n k 0 x) = x := by
  funext idx
  by_cases h : idx < n
  · apply cast_eq_of_lt _ _ (nttFn_lt n k invert _ hn (nttFn_lt n k 0 x hn hx) idx h) (hx idx h)
    rw [nttFn_inverse n k invert _ hn hk hinv idx h]
    have e : dft (omegaInv k) n (fun i => ((nttFn n k 0 x i : Nat) : Fp)) idx =
        dft (omegaInv k) n (fun t => dft (omega k) n (fun i => ((x i : Nat) : Fp)) t) idx := by
      unfold dft
      apply Finset.sum_congr rfl
      intro t ht
      have := nttFn_forward n k x hn hk t (Finset.mem_range.mp ht)
      unfold dft at this
      simp only [this]
    rw [e]
    subst hn
    exact dft_roundtrip k hk _ idx h
  · rw [nttFn_frame _ _ _ _ _ (by omega), nttFn_frame _ _ _ _ _ (by omega)]

/-! ## The loops of `big_multiply` and `main` -/

theorem gl_loop_eq (s : List Char) (hs : s.length < 2147483647)
    (hc : ∀ c ∈ s, c.toNat ≠ 0) (d : Nat) :
    ∀ (f l : Nat), l + d = s.length → d < f → gl_loop s f l = some s.length := by
  induction d with
  | zero =>
    intro f l hl hf
    obtain ⟨f, rfl⟩ : ∃ j, f = j + 1 := ⟨f - 1, by omega⟩
    unfold gl_loop
    have : charAt s l = 0 := by
      unfold charAt
      rw [List.get?_eq_none.mpr (by omega)]
    rw [if_pos this]
    congr 1
  | succ d ih =>
    intro f l hl hf
    obtain ⟨f, rfl⟩ : ∃ j, f = j + 1 := ⟨f - 1, by omega⟩
    unfold gl_loop
    have hlt : l < s.length := by omega
    have : charAt s l ≠ 0 := by
      unfold charAt
      rw [List.get?_eq_get hlt]
      exact hc _ (List.get_mem _ _ _)
    rw [if_neg this, add_small l 1 (by omega)]
    exact ih f (l + 1) (by omega) (by omega)

theorem get_length_eq (F : Nat) (s : List Char) (hs : s.length < 2147483647)
    (hc : ∀ c ∈ s, c.toNat ≠ 0) (hF : s.length < F) : get_length F s = some s.length :=
  gl_loop_eq s hs hc s.length F 0 (by omega) hF

theorem grow_loop_eq (need : Nat) (hneed : need ≤ 2097152) (d : Nat) :
    ∀ (f k : Nat), k + d = 21 → d < f → (k = 0 ∨ 2 ^ (k - 1) < need) →
    ∃ k2, grow_loop need f (2 ^ k) = some (2 ^ k2) ∧ k2 ≤ 21 ∧ need ≤ 2 ^ k2 ∧
      (k2 = 0 ∨ 2 ^ (k2 - 1) < need) := by
  induction d with
  | zero =>
    intro f k hk hf hmin
    obtain ⟨f, rfl⟩ : ∃ j, f = j + 1 := ⟨f - 1, by omega⟩
    have hk21 : k = 21 := by omega
    subst hk21
    refine ⟨21, ?_, le_refl _, by norm_num; exact hneed, hmin⟩
    unfold grow_loop
    rw [less_than_not _ _ (by norm_num) (by omega) (by norm_num; exact hneed)]
    simp
  | succ d ih =>
    intro f k hk hf hmin
    obtain ⟨f, rfl⟩ : ∃ j, f = j + 1 := ⟨f - 1, by omega⟩
    have hpk : (2 : Nat) ^ k ≤ 2 ^ 20 := Nat.pow_le_pow_right (by omega) (by omega)
    unfold grow_loop
    by_cases hlt : 2 ^ k < need
    · rw [less_than_pos _ _ (by omega) hlt]
      simp only [one_ne_zero, if_false]
      have hshl : shl (2 ^ k) 1 = 2 ^ (k + 1) := by
        rw [shl_one, pow_succ]
        omega
      rw [hshl]
      exact ih f (k + 1) (by omega) (by omega) (Or.inr (by simpa using hlt))
    · rw [less_than_not _ _ (by omega) (by omega) (by omega)]
      exact ⟨k, by simp, by omega, by omega, hmin⟩

theorem cl_loop_eq (n : Nat) (a0 b0 : Mem) (hn : n < 2147483647) (d : Nat) :
    ∀ (f i : Nat) (a b : Mem), i + d = n → d < f →
    (∀ j, a j = if j < i then 0 else a0 j) → (∀ j, b j = if j < i then 0 else b0 j) →
    cl_loop n f i a b =
      some (fun j => if j < n then 0 else a0 j, fun j => if j < n then 0 else b0 j) := by
  induction d with
  | zero =>
    intro f i a b hi hf ha hb
    obtain ⟨f, rfl⟩ : ∃ j, f = j + 1 := ⟨f - 1, by omega⟩
    unfold cl_loop
    rw [less_than_not i n (by omega) (by omega) (by omega)]
    have : i = n := by omega
    subst this
    simp only [if_true]
    congr 2
    · funext j
      exact ha j
    · funext j
      exact hb j
  | succ d ih =>
    intro f i a b hi hf ha hb
    obtain ⟨f, rfl⟩ : ∃ j, f = j + 1 := ⟨f - 1, by omega⟩
    unfold cl_loop
    rw [less_than_pos i n (by omega) (by omega)]
    simp only [one_ne_zero, if_false]
    rw [add_small i 1 (by omega)]
    apply ih f (i + 1) _ _ (by omega) (by omega)
    · intro j
      unfold Mem.set
      by_cases h1 : j = i
      · rw [if_pos h1, if_pos (by omega)]
      · rw [if_neg h1, ha j]
        by_cases h2 : j < i
        · rw [if_pos h2, if_pos (by omega)]
        · rw [if_neg h2, if_neg (by omega)]
    · intro j
      unfold Mem.set
      by_cases h1 : j = i
      · rw [if_pos h1, if_pos (by omega)]
      · rw [if_neg h1, hb j]
        by_cases h2 : j < i
        · rw [if_pos h2, if_pos (by omega)]
        · rw [if_neg h2, if_neg (by omega)]

theorem charAt_digit (s : List Char) (hc : ∀ c ∈ s, 48 ≤ c.toNat ∧ c.toNat ≤ 57) (i : Nat)
    (hi : i < s.length) : 48 ≤ charAt s i ∧ charAt s i ≤ 57 := by
  unfold charAt
  rw [List.get?_eq_get hi]
  exact hc _ (List.get_mem _ _ _)

theorem ld1_eq (s : List Char) (hs : s.length < 2147483647)
    (hc : ∀ c ∈ s, 48 ≤ c.toNat ∧ c.toNat ≤ 57) (a0 : Mem) (d : Nat) :
    ∀ (f i : Nat) (a : Mem), i + d = s.length → d < f →
    (∀ j, a j = if j < i then digitLE s j else a0 j) →
    ld1 s s.length f i a = some (fun j => if j < s.length then digitLE s j else a0 j) := by
  induction d with
  | zero =>
    intro f i a hi hf ha
    obtain ⟨f, rfl⟩ : ∃ j, f = j + 1 := ⟨f - 1, by omega⟩
    unfold ld1
    rw [less_than_not i _ (by omega) (by omega) (by omega)]
    have : i = s.length := by omega
    rw [this] at ha
    simp only [if_true]
    congr 1
    funext j
    exact ha j
  | succ d ih =>
    intro f i a hi hf ha
    obtain ⟨f, rfl⟩ : ∃ j, f = j + 1 := ⟨f - 1, by omega⟩
    unfold ld1
    rw [less_than_pos i _ (by omega) (by omega)]
    simp only [one_ne_zero, if_false]
    rw [add_small i 1 (by omega), sub_small _ 1 (by omega) (by omega),
      sub_small _ i (by omega) (by omega)]
    have hd := charAt_digit s hc (s.length - 1 - i) (by omega)
    rw [sub_small _ 48 (by omega) hd.1]
    apply ih f (i + 1) _ (by omega) (by omega)
    intro j
    unfold Mem.set
    by_cases h1 : j = i
    · subst h1
      rw [if_pos rfl, if_pos (by omega)]
      unfold digitLE
      rw [if_pos (by omega)]
    · rw [if_neg h1, ha j]
      by_cases h2 : j < i
      · rw [if_pos h2, if_pos (by omega)]
      · rw [if_neg h2, if_neg (by omega)]

theorem ld2_eq_ld1 (s : List Char) (n : Nat) : ∀ (f i : Nat) (a : Mem),
    ld2 s n f i a = ld1 s n f i a := by
  intro f
  induction f with
  | zero => intro i a; rfl
  | succ f ih =>
    intro i a
    unfold ld2 ld1
    split
    · rfl
    · exact ih _ _

theorem pm_loop_eq (F n : Nat) (a0 b : Mem) (hF : 32 ≤ F) (hn : n < 2147483647)
    (ha : ∀ j, j < n → a0 j < MOD) (hb : ∀ j, j < n → b j < MOD) (d : Nat) :
    ∀ (f i : Nat) (a : Mem), i + d = n → d < f →
    (∀ j, a j = if j < i then a0 j * b j % MOD else a0 j) →
    pm_loop F n b f i a = some (fun j => if j < n then a0 j * b j % MOD else a0 j) := by
  induction d with
  | zero =>
    intro f i a hi hf hI
    obtain ⟨f, rfl⟩ : ∃ j, f = j + 1 := ⟨f - 1, by omega⟩
    unfold pm_loop
    rw [less_than_not i n (by omega) (by omega) (by omega)]
    have : i = n := by omega
    subst this
    simp only [if_true]
    congr 1
    funext j
    exact hI j
  | succ d ih =>
    intro f i a hi hf hI
    obtain ⟨f, rfl⟩ : ∃ j, f = j + 1 := ⟨f - 1, by omega⟩
    unfold pm_loop
    rw [less_than_pos i n (by omega) (by omega)]
    simp only [one_ne_zero, if_false]
    have hai : a i = a0 i := by rw [hI i, if_neg (by omega)]
    rw [hai, mul_mod_eq F _ _ hF (ha i (by omega)) (lt_trans (hb i (by omega)) MOD_lt)]
    simp only [Option.bind_eq_bind, Option.some_bind]
    rw [add_small i 1 (by omega)]
    apply ih f (i + 1) _ (by omega) (by omega)
    intro j
    unfold Mem.set
    by_cases h1 : j = i
    · subst h1
      rw [if_pos rfl, if_pos (by omega)]
    · rw [if_neg h1, hI j]
      by_cases h2 : j < i
      · rw [if_pos h2, if_pos (by omega)]
      · rw [if_neg h2, if_neg (by omega)]

/-! ## Division by ten and the carry loop -/

/-- The comparison `x < t` of `dm_scale` is right also when `t = tmp << 1` has passed
`2 ^ 31` and reads as a negative int. -/
theorem less_than_wrap (x t : Nat) (hx : x < 2147483648) (ht : t < 4294967296)
    (hgap : x < t → t ≤ x + 2147483648) :
    less_than x t = if x < t then 1 else 0 := by
  rw [less_than_eq x t (by omega) ht]
  by_cases h : x < t
  · have := hgap h
    rw [if_pos h, if_pos (by omega)]
  · rw [if_neg h, if_neg (by omega)]

theorem dm_scale_eq (x : Nat) (hx : x < 2147483648) (d : Nat) :
    ∀ (f j : Nat), x < 20 * 2 ^ (j + d) → (j = 0 ∨ 10 * 2 ^ j ≤ x) → d < f →
    ∃ J, dm_scale x f (10 * 2 ^ j) (2 ^ j) = some (10 * 2 ^ J, 2 ^ J) ∧ x < 20 * 2 ^ J ∧
      10 * 2 ^ J < 2147483648 := by
  induction d with
  | zero =>
    intro f j hj hlow hf
    obtain ⟨f, rfl⟩ : ∃ j, f = j + 1 := ⟨f - 1, by omega⟩
    have htmp : 10 * 2 ^ j < 2147483648 := by
      rcases hlow with h | h
      · subst h
        norm_num
      · omega
    have hgap : x < 20 * 2 ^ j → 20 * 2 ^ j ≤ x + 2147483648 := by
      intro _
      rcases hlow with h | h
      · subst h
        norm_num
      · omega
    refine ⟨j, ?_, by simpa using hj, htmp⟩
    unfold dm_scale
    have hshl : shl (10 * 2 ^ j) 1 = 20 * 2 ^ j := by
      rw [shl_one]
      omega
    rw [hshl, less_than_wrap x _ hx (by omega) hgap, if_pos (by simpa using hj)]
  | succ d ih =>
    intro f j hj hlow hf
    obtain ⟨f, rfl⟩ : ∃ j, f = j + 1 := ⟨f - 1, by omega⟩
    have htmp : 10 * 2 ^ j < 2147483648 := by
      rcases hlow with h | h
      · subst h
        norm_num
      · omega
    have hgap : x < 20 * 2 ^ j → 20 * 2 ^ j ≤ x + 2147483648 := by
      intro _
      rcases hlow with h | h
      · subst h
        norm_num
      · omega
    have hshl : shl (10 * 2 ^ j) 1 = 20 * 2 ^ j := by
      rw [shl_one]
      omega
    unfold dm_scale
    rw [hshl, less_than_wrap x _ hx (by omega) hgap]
    by_cases hlt : x < 20 * 2 ^ j
    · rw [if_pos hlt]
      exact ⟨j, by simp, hlt, htmp⟩
    · rw [if_neg hlt]
      simp only [ne_eq, not_true_eq_false, if_false]
      have hp : (2 : Nat) ^ j ≤ 10 * 2 ^ j := by omega
      have hshl2 : shl (2 ^ j) 1 = 2 ^ (j + 1) := by
        rw [shl_one, pow_succ]
        omega
      have e : 20 * 2 ^ j = 10 * 2 ^ (j + 1) := by
        rw [pow_succ]
        ring
      rw [hshl2, e]
      apply ih f (j + 1) _ (Or.inr (by omega)) (by omega)
      have : j + 1 + d = j + (d + 1) := by ring
      rw [this]
      exact hj

theorem dm_red_eq (j : Nat) : ∀ (f x qq : Nat), x < 20 * 2 ^ j → 10 * 2 ^ j < 2147483648 →
    x < 2147483648 → qq + x / 10 < 2147483648 → j + 1 < f →
    dm_red f x (10 * 2 ^ j) (2 ^ j) qq = some (qq + x / 10, x % 10) := by
  induction j with
  | zero =>
    intro f x qq hx _ _ hq hf
    obtain ⟨f, rfl⟩ : ∃ j, f = j + 2 := ⟨f - 2, by omega⟩
    simp only [pow_zero, mul_one] at hx ⊢
    unfold dm_red
    rw [if_neg (by omega)]
    simp only
    have hs1 : sar 10 1 = 5 := by rw [sar_nonneg _ _ (by omega)]; rfl
    have hs2 : sar 1 1 = 0 := by rw [sar_nonneg _ _ (by omega)]; rfl
    rw [hs1, hs2]
    unfold dm_red
    rw [if_pos rfl]
    by_cases h : x < 10
    · rw [less_than_pos x 10 (by omega) h]
      simp only [one_ne_zero, if_false]
      congr 2
      · omega
      · omega
    · rw [less_than_not x 10 (by omega) (by omega) (by omega)]
      simp only [if_true]
      rw [sub_small x 10 (by omega) (by omega), add_small qq 1 (by omega)]
      congr 2
      · omega
      · omega
  | succ j ih =>
    intro f x qq hx htmp hx31 hq hf
    obtain ⟨f, rfl⟩ : ∃ j, f = j + 1 := ⟨f - 1, by omega⟩
    have hp : (2 : Nat) ^ (j + 1) = 2 * 2 ^ j := by rw [pow_succ]; ring
    have hpos : 0 < 2 ^ j := by positivity
    rw [hp] at hx htmp
    have hs1 : sar (10 * 2 ^ (j + 1)) 1 = 10 * 2 ^ j := by
      rw [sar_nonneg _ _ (by omega), hp]
      omega
    have hs2 : sar (2 ^ (j + 1)) 1 = 2 ^ j := by
      rw [sar_nonneg _ _ (by omega), hp]
      omega
    unfold dm_red
    rw [if_neg (by omega)]
    simp only
    rw [hs1, hs2]
    by_cases h : x < 10 * 2 ^ (j + 1)
    · rw [less_than_pos x _ (by omega) h]
      simp only [one_ne_zero, if_false]
      exact ih f x qq (by omega) (by omega) hx31 hq (by omega)
    · rw [less_than_not x _ (by omega) (by omega) (by omega)]
      simp only [if_true]
      rw [hp] at h
      have hq2 : x / 10 = (x - 10 * (2 * 2 ^ j)) / 10 + 2 * 2 ^ j := by omega
      rw [sub_small x _ (by omega) (by omega), add_small qq _ (by omega), hp,
        ih f _ _ (by omega) (by omega) (by omega) (by omega) (by omega)]
      congr 2
      · omega
      · omega

/-- The quotient and remainder stored by `divmod10`. -/
theorem divmod10_eq (F x : Nat) (hF : 32 ≤ F) (hx : x < 2147483648) :
    divmod10 F x = some (x / 10, x % 10) := by
  unfold divmod10
  have hx2 : x < 20 * 2 ^ (0 + 27) := by norm_num; omega
  obtain ⟨J, h1, h2, h3⟩ := dm_scale_eq x hx 27 F 0 hx2 (Or.inl rfl) (by omega)
  simp only [pow_zero, mul_one] at h1
  rw [h1]
  simp only [Option.bind_eq_bind, Option.some_bind]
  have hJ : J < 28 := by
    by_contra hc
    have : (2 : Nat) ^ 28 ≤ 2 ^ J := Nat.pow_le_pow_right (by omega) (by omega)
    omega
  rw [dm_red_eq J F x 0 h2 h3 hx (by omega) (by omega)]
  simp

theorem carrySeq_le (c : Nat → Nat) (C : Nat) (hc : ∀ i, c i ≤ C) : ∀ i, carrySeq c i ≤ C := by
  intro i
  induction i with
  | zero => simp [carrySeq]
  | succ i ih =>
    unfold carrySeq
    have := hc i
    omega

theorem car_loop_eq (F L C : Nat) (a c : Mem) (d0 : Mem) (hF : 32 ≤ F) (hL : L < 2147483647)
    (hC : 2 * C < 1073741824) (hc : ∀ i, c i ≤ C) (ha : ∀ i, i < L → a i = c i) (d : Nat) :
    ∀ (f i : Nat) (digits : Mem), i + d = L → d < f →
    (∀ j, digits j = if j < i then (c j + carrySeq c j) % 10 else d0 j) →
    car_loop F L a f i (carrySeq c i) digits =
      some (carrySeq c L, fun j => if j < L then (c j + carrySeq c j) % 10 else d0 j) := by
  induction d with
  | zero =>
    intro f i digits hi hf hI
    obtain ⟨f, rfl⟩ : ∃ j, f = j + 1 := ⟨f - 1, by omega⟩
    unfold car_loop
    rw [less_than_not i L (by omega) (by omega) (by omega)]
    have : i = L := by omega
    subst this
    simp only [if_true]
    congr 2
    funext j
    exact hI j
  | succ d ih =>
    intro f i digits hi hf hI
    obtain ⟨f, rfl⟩ : ∃ j, f = j + 1 := ⟨f - 1, by omega⟩
    unfold car_loop
    rw [less_than_pos i L (by omega) (by omega)]
    simp only [one_ne_zero, if_false]
    have h1 := hc i
    have h2 := carrySeq_le c C hc i
    rw [ha i (by omega), add_small _ _ (by omega), divmod10_eq F _ hF (by omega)]
    simp only [Option.bind_eq_bind, Option.some_bind]
    rw [add_small i 1 (by omega)]
    have e : (c i + carrySeq c i) / 10 = carrySeq c (i + 1) := rfl
    rw [e]
    apply ih f (i + 1) _ (by omega) (by omega)
    intro j
    unfold Mem.set
    by_cases h1 : j = i
    · subst h1
      rw [if_pos rfl, if_pos (by omega)]
    · rw [if_neg h1, hI j]
      by_cases h2 : j < i
      · rw [if_pos h2, if_pos (by omega)]
      · rw [if_neg h2, if_neg (by omega)]

/-! ## Trimming and printing -/

theorem cc_loop_zero (F f L : Nat) (digits : Mem) :
    cc_loop F (f + 1) 0 L digits = some (L, digits) := by
  unfold cc_loop
  rw [less_than_pos 0 10 (by omega) (by omega)]
  simp

theorem trim_loop_eq (digits : Mem) (d : Nat) : ∀ (f L : Nat), L = d + 1 → L < 2147483648 →
    d < f →
    ∃ L2, trim_loop digits f L = some L2 ∧ 1 ≤ L2 ∧ L2 ≤ L ∧
      (L2 = 1 ∨ digits (L2 - 1) ≠ 0) ∧ ∀ i, L2 ≤ i → i < L → digits i = 0 := by
  induction d with
  | zero =>
    intro f L hL _ hf
    obtain ⟨f, rfl⟩ : ∃ j, f = j + 1 := ⟨f - 1, by omega⟩
    subst hL
    refine ⟨1, ?_, le_refl _, le_refl _, Or.inl rfl, ?_⟩
    · unfold trim_loop
      rw [less_than_not 1 _ (by omega) (by omega) (by omega)]
      simp
    · intro i h1 h2
      omega
  | succ d ih =>
    intro f L hL hL31 hf
    obtain ⟨f, rfl⟩ : ∃ j, f = j + 1 := ⟨f - 1, by omega⟩
    subst hL
    unfold trim_loop
    rw [less_than_pos 1 _ (by omega) (by omega)]
    simp only [one_ne_zero, if_false]
    rw [sub_small _ 1 (by omega) (by omega)]
    have e : d + 1 + 1 - 1 = d + 1 := by omega
    rw [e]
    by_cases h0 : digits (d + 1) ≠ 0
    · rw [if_pos h0]
      refine ⟨d + 1 + 1, rfl, by omega, le_refl _, Or.inr ?_, ?_⟩
      · rw [e]
        exact h0
      · intro i h1 h2
        omega
    · rw [if_neg h0]
      obtain ⟨L2, h1, h2, h3, h4, h5⟩ := ih f (d + 1) rfl (by omega) (by omega)
      refine ⟨L2, h1, h2, by omega, h4, ?_⟩
      intro i hi1 hi2
      by_cases hi : i < d + 1
      · exact h5 i hi1 hi
      · have : i = d + 1 := by omega
        rw [this]
        simpa using h0

theorem out_loop_eq (digits : Mem) (i : Nat) : ∀ (f : Nat) (out : List Char),
    i < 2147483647 → i + 1 < f →
    out_loop digits f i out = some (out ++ outChars digits i) := by
  induction i with
  | zero =>
    intro f out _ hf
    obtain ⟨f, rfl⟩ : ∃ j, f = j + 2 := ⟨f - 2, by omega⟩
    unfold out_loop
    rw [less_than_not 0 0 (by omega) (by omega) (le_refl _)]
    simp only [ne_eq, not_true_eq_false, if_false]
    have hs : sub 0 1 = 4294967295 := by
      rw [sub_eq 0 1 (by omega) (by omega)]
    rw [hs]
    unfold out_loop
    have hl : less_than 4294967295 0 = 1 := by
      rw [less_than_eq _ _ (by omega) (by omega)]
      rfl
    rw [hl]
    simp [outChars]
  | succ i ih =>
    intro f out hi hf
    obtain ⟨f, rfl⟩ : ∃ j, f = j + 1 := ⟨f - 1, by omega⟩
    unfold out_loop
    rw [less_than_not (i + 1) 0 (by omega) (by omega) (by omega)]
    simp only [ne_eq, not_true_eq_false, if_false]
    rw [sub_small _ 1 (by omega) (by omega)]
    have e : i + 1 - 1 = i := by omega
    rw [e, ih f _ (by omega) (by omega)]
    simp [outChars]

theorem printInt_digit (v : Nat) (hv : v < 10) : printInt v = [Nat.digitChar v] := by
  unfold printInt
  rw [toInt_nonneg v (by omega)]
  interval_cases v <;> rfl

theorem outChars_shift (d : Mem) (L : Nat) :
    outChars d (L + 1) = outChars (fun i => d (i + 1)) L ++ printInt (d 0) := by
  induction L with
  | zero => simp [outChars]
  | succ L ih =>
    rw [outChars, ih]
    simp [outChars]

theorem sum_digits_shift (d : Mem) (L : Nat) :
    ∑ i in Finset.range (L + 1), d i * 10 ^ i =
      d 0 + 10 * ∑ i in Finset.range L, d (i + 1) * 10 ^ i := by
  rw [Finset.sum_range_succ', Finset.mul_sum]
  simp only [pow_zero, mul_one]
  rw [add_comm]
  congr 1
  apply Finset.sum_congr rfl
  intro i _
  rw [pow_succ]
  ring

theorem sum_digits_lt (d : Mem) (L : Nat) (hd : ∀ i, i < L → d i < 10) :
    ∑ i in Finset.range L, d i * 10 ^ i < 10 ^ L := by
  induction L with
  | zero => simp
  | succ L ih =>
    rw [Finset.sum_range_succ, pow_succ]
    have h1 := ih (fun i hi => hd i (by omega))
    have h2 := hd L (by omega)
    have h3 : d L * 10 ^ L ≤ 9 * 10 ^ L := Nat.mul_le_mul_right _ (by omega)
    omega

theorem sum_digits_ge (d : Mem) (L : Nat) (hL : 1 ≤ L) (htop : d (L - 1) ≠ 0) :
    10 ^ (L - 1) ≤ ∑ i in Finset.range L, d i * 10 ^ i := by
  obtain ⟨L, rfl⟩ : ∃ j, L = j + 1 := ⟨L - 1, by omega⟩
  rw [Finset.sum_range_succ]
  simp only [Nat.add_sub_cancel] at htop ⊢
  have : 1 * 10 ^ L ≤ d L * 10 ^ L := Nat.mul_le_mul_right _ (by omega)
  omega

theorem toDigitsCore_digits (L : Nat) : ∀ (d : Mem) (fuel : Nat) (ds : List Char),
    (∀ i, i < L + 1 → d i < 10) → (L = 0 ∨ d L ≠ 0) → L < fuel →
    Nat.toDigitsCore 10 fuel (∑ i in Finset.range (L + 1), d i * 10 ^ i) ds =
      outChars d L ++ ds := by
  induction L with
  | zero =>
    intro d fuel ds hd _ hf
    obtain ⟨fuel, rfl⟩ : ∃ j, fuel = j + 1 := ⟨fuel - 1, by omega⟩
    have h0 := hd 0 (by omega)
    simp only [zero_add, Finset.sum_range_one, pow_zero, mul_one, Nat.toDigitsCore, outChars]
    rw [printInt_digit _ h0, Nat.mod_eq_of_lt h0, Nat.div_eq_of_lt h0]
    simp
  | succ L ih =>
    intro d fuel ds hd htop hf
    obtain ⟨fuel, rfl⟩ : ∃ j, fuel = j + 1 := ⟨fuel - 1, by omega⟩
    have h0 := hd 0 (by omega)
    have htop2 : d (L + 1) ≠ 0 := by
      rcases htop with h | h
      · omega
      · exact h
    rw [sum_digits_shift, outChars_shift]
    have hpos : 0 < ∑ i in Finset.range (L + 1), d (i + 1) * 10 ^ i := by
      have := sum_digits_ge (fun i => d (i + 1)) (L + 1) (by omega) (by simpa using htop2)
      have h10 : 0 < 10 ^ (L + 1 - 1) := by positivity
      exact lt_of_lt_of_le h10 this
    obtain ⟨N2, hN2⟩ : ∃ N2, N2 = ∑ i in Finset.range (L + 1), d (i + 1) * 10 ^ i := ⟨_, rfl⟩
    rw [← hN2] at hpos ⊢
    have e1 : (d 0 + 10 * N2) % 10 = d 0 := by omega
    have e2 : (d 0 + 10 * N2) / 10 = N2 := by omega
    unfold Nat.toDigitsCore
    simp only [e1, e2]
    rw [if_neg (by omega), hN2]
    rw [ih (fun i => d (i + 1)) fuel _ (fun i hi => hd (i + 1) (by omega))
      (Or.inr htop2) (by omega), printInt_digit _ h0]
    simp

/-- The decimal representation printed by the runtime for the number with the given
digits. -/
theorem repr_digits (d : Mem) (L : Nat) (hL : 1 ≤ L) (hd : ∀ i, i < L → d i < 10)
    (htop : L = 1 ∨ d (L - 1) ≠ 0) :
    (Nat.repr (∑ i in Finset.range L, d i * 10 ^ i)).toList = outChars d (L - 1) := by
  obtain ⟨L, rfl⟩ : ∃ j, L = j + 1 := ⟨L - 1, by omega⟩
  simp only [Nat.add_sub_cancel] at htop ⊢
  have htop2 : L = 0 ∨ d L ≠ 0 := by
    rcases htop with h | h
    · left
      omega
    · right
      exact h
  have hfuel : L < (∑ i in Finset.range (L + 1), d i * 10 ^ i) + 1 := by
    rcases htop2 with h | h
    · omega
    · have h1 := sum_digits_ge d (L + 1) (by omega) (by simpa using h)
      have h2 : L < 10 ^ L := Nat.lt_pow_self (by omega) L
      simp only [Nat.add_sub_cancel] at h1
      omega
  unfold Nat.repr Nat.toDigits
  rw [toDigitsCore_digits L d _ [] hd htop2 hfuel]
  simp [List.asString]

theorem carry_sum (c : Nat → Nat) (L : Nat) :
    ∑ i in Finset.range L, ((c i + carrySeq c i) % 10) * 10 ^ i + carrySeq c L * 10 ^ L =
      ∑ i in Finset.range L, c i * 10 ^ i := by
  induction L with
  | zero => simp [carrySeq]
  | succ L ih =>
    rw [Finset.sum_range_succ, Finset.sum_range_succ, ← ih]
    have e : carrySeq c (L + 1) = (c L + carrySeq c L) / 10 := rfl
    rw [e, pow_succ]
    have := Nat.div_add_mod (c L + carrySeq c L) 10
    generalize (c L + carrySeq c L) / 10 = q at this ⊢
    generalize (c L + carrySeq c L) % 10 = r at this ⊢
    have h2 : c L * 10 ^ L + carrySeq c L * 10 ^ L = (10 * q + r) * 10 ^ L := by
      rw [this]
      ring
    have h3 : (10 * q + r) * 10 ^ L = r * 10 ^ L + q * (10 ^ L * 10) := by ring
    omega

/-! ## Convolution -/

theorem cauchy_product {R : Type} [CommSemiring R] (f g : Nat → R) (x : R) (N : Nat)
    (hfg : ∀ i j, i < N → j < N → N ≤ i + j → f i * g j = 0) :
    (∑ i in Finset.range N, f i * x ^ i) * (∑ j in Finset.range N, g j * x ^ j) =
      ∑ m in Finset.range N, (∑ i in Finset.range (m + 1), f i * g (m - i)) * x ^ m := by
  have h1 : ∀ m ∈ Finset.range N, (∑ i in Finset.range (m + 1), f i * g (m - i)) * x ^ m =
      ∑ i in Finset.range (m + 1), (fun i j => f i * g j * x ^ (i + j)) i (m - i) := by
    intro m _
    rw [Finset.sum_mul]
    apply Finset.sum_congr rfl
    intro i hi
    have : i + (m - i) = m := by
      have := Finset.mem_range.mp hi
      omega
    simp only [this]
  rw [Finset.sum_congr rfl h1,
    Finset.sum_range_diag_flip N (fun i j => f i * g j * x ^ (i + j)), Finset.sum_mul_sum]
  apply Finset.sum_congr rfl
  intro i hi
  have hi2 := Finset.mem_range.mp hi
  symm
  have hsub : Finset.range (N - i) ⊆ Finset.range N := by
    intro j hj
    rw [Finset.mem_range] at hj ⊢
    omega
  rw [Finset.sum_subset hsub]
  · apply Finset.sum_congr rfl
    intro j _
    rw [pow_add]
    ring
  · intro j hj hnj
    rw [Finset.mem_range] at hj hnj
    rw [hfg i j hi2 hj (by omega)]
    simp

theorem digitLE_le (A : List Char) (hc : ∀ c ∈ A, 48 ≤ c.toNat ∧ c.toNat ≤ 57) (i : Nat) :
    digitLE A i ≤ 9 := by
  unfold digitLE
  split
  · rename_i h
    have := charAt_digit A hc (A.length - 1 - i) (by omega)
    omega
  · omega

theorem digitLE_zero (A : List Char) (i : Nat) (h : A.length ≤ i) : digitLE A i = 0 := by
  unfold digitLE
  rw [if_neg (by omega)]

theorem sum_indicator_le (n1 M : Nat) :
    ∑ i in Finset.range M, (if i < n1 then 81 else 0) ≤ 81 * n1 := by
  have h : ∀ M, ∑ i in Finset.range M, (if i < n1 then 81 else 0) = 81 * min M n1 := by
    intro M
    induction M with
    | zero => simp
    | succ M ih =>
      rw [Finset.sum_range_succ, ih]
      by_cases h : M < n1
      · rw [if_pos h, Nat.min_eq_left (by omega), Nat.min_eq_left (by omega)]
        ring
      · rw [if_neg h, Nat.min_eq_right (by omega), Nat.min_eq_right (by omega)]
        ring
  rw [h M]
  exact Nat.mul_le_mul_left _ (Nat.min_le_right _ _)

theorem conv_le (A B : List Char) (hA : ∀ c ∈ A, 48 ≤ c.toNat ∧ c.toNat ≤ 57)
    (hB : ∀ c ∈ B, 48 ≤ c.toNat ∧ c.toNat ≤ 57) (m : Nat) :
    conv (digitLE A) (digitLE B) m ≤ 81 * A.length := by
  unfold conv
  refine le_trans (Finset.sum_le_sum ?_) (sum_indicator_le A.length (m + 1))
  intro i _
  by_cases h : i < A.length
  · rw [if_pos h]
    have h1 := digitLE_le A hA i
    have h2 := digitLE_le B hB (m - i)
    calc digitLE A i * digitLE B (m - i) ≤ 9 * 9 := Nat.mul_le_mul h1 h2
      _ = 81 := by norm_num
  · rw [if_neg h, digitLE_zero A i (by omega)]
    simp

theorem conv_zero (A B : List Char) (m : Nat) (hm : A.length + B.length - 1 ≤ m)
    (hA : A ≠ []) :
    conv (digitLE A) (digitLE B) m = 0 := by
  unfold conv
  apply Finset.sum_eq_zero
  intro i hi
  have hi2 := Finset.mem_range.mp hi
  have hlen : 0 < A.length := List.length_pos.mpr hA
  by_cases h : i < A.length
  · rw [digitLE_zero B (m - i) (by omega)]
    simp
  · rw [digitLE_zero A i (by omega)]
    simp

theorem digit_products_vanish (A B : List Char) (N : Nat) (hN : A.length + B.length - 1 ≤ N)
    (hA : A ≠ []) (i j : Nat) (h : N ≤ i + j) : digitLE A i * digitLE B j = 0 := by
  have hlen : 0 < A.length := List.length_pos.mpr hA
  by_cases hi : i < A.length
  · rw [digitLE_zero B j (by omega)]
    simp
  · rw [digitLE_zero A i (by omega)]
    simp

theorem value_append (A : List Char) (c : Char) :
    value (A ++ [c]) = 10 * value A + digitVal c := by
  unfold value
  rw [List.foldl_append]
  rfl

theorem digitLE_append_zero (A : List Char) (c : Char) : digitLE (A ++ [c]) 0 = digitVal c := by
  unfold digitLE charAt digitVal
  simp

theorem digitLE_append_succ (A : List Char) (c : Char) (i : Nat) (hi : i < A.length) :
    digitLE (A ++ [c]) (i + 1) = digitLE A i := by
  unfold digitLE charAt
  have hl : (A ++ [c]).length = A.length + 1 := by simp
  rw [if_pos (by omega), if_pos hi, hl]
  have e1 : A.length + 1 - 1 - (i + 1) = A.length - 1 - i := by omega
  rw [e1, List.get?_eq_getElem?, List.get?_eq_getElem?, List.getElem?_append_left (by omega)]

theorem value_eq_sum (A : List Char) :
    value A = ∑ i in Finset.range A.length, digitLE A i * 10 ^ i := by
  induction A using List.reverseRecOn with
  | nil => simp [value]
  | append_singleton A c ih =>
    rw [value_append, ih, List.length_append, List.length_singleton, sum_digits_shift,
      digitLE_append_zero, add_comm]
    congr 2
    apply Finset.sum_congr rfl
    intro i hi
    rw [digitLE_append_succ A c i (Finset.mem_range.mp hi)]

theorem sum_truncate {R : Type} [CommSemiring R] (f : Nat → R) (n1 N : Nat) (h : n1 ≤ N)
    (hf : ∀ i, n1 ≤ i → f i = 0) :
    ∑ i in Finset.range N, f i = ∑ i in Finset.range n1, f i := by
  symm
  apply Finset.sum_subset
  · intro j hj
    rw [Finset.mem_range] at hj ⊢
    omega
  · intro j _ hnj
    rw [Finset.mem_range] at hnj
    exact hf j (by omega)

/-- The product of the operand values is the value of the convolution of their digits. -/
theorem value_mul_eq (A B : List Char) (hA : A ≠ []) :
    value A * value B =
      ∑ m in Finset.range (A.length + B.length),
        conv (digitLE A) (digitLE B) m * 10 ^ m := by
  have h := cauchy_product (digitLE A) (digitLE B) 10 (A.length + B.length)
    (fun i j _ _ hij => digit_products_vanish A B _ (by omega) hA i j hij)
  rw [sum_truncate (fun i => digitLE A i * 10 ^ i) A.length _ (by omega)
      (fun i hi => by simp [digitLE_zero A i hi]),
    sum_truncate (fun i => digitLE B i * 10 ^ i) B.length _ (by omega)
      (fun i hi => by simp [digitLE_zero B i hi]),
    ← value_eq_sum, ← value_eq_sum] at h
  rw [h]
  rfl

theorem value_lt (A : List Char) (hA : ∀ c ∈ A, 48 ≤ c.toNat ∧ c.toNat ≤ 57) :
    value A < 10 ^ A.length := by
  rw [value_eq_sum]
  apply sum_digits_lt
  intro i _
  have := digitLE_le A hA i
  omega

/-- The transform of the loaded digits is the transform of the convolution, pointwise. -/
theorem dft_mul (A B : List Char) (hA : A ≠ []) (n k : Nat) (hN : A.length + B.length - 1 ≤ n)
    (t : Nat) :
    dft (omega k) n (fun i => ((digitLE A i : Nat) : Fp)) t *
        dft (omega k) n (fun i => ((digitLE B i : Nat) : Fp)) t =
      dft (omega k) n (fun m => ((conv (digitLE A) (digitLE B) m : Nat) : Fp)) t := by
  unfold dft
  have h := cauchy_product (fun i => ((digitLE A i : Nat) : Fp))
    (fun i => ((digitLE B i : Nat) : Fp)) (omega k ^ t) n
    (fun i j _ _ hij => by
      simp only
      rw [← Nat.cast_mul, digit_products_vanish A B n hN hA i j hij]
      simp)
  have e : ∀ (f : Nat → Fp), ∑ i in Finset.range n, f i * omega k ^ (i * t) =
      ∑ i in Finset.range n, f i * (omega k ^ t) ^ i := by
    intro f
    apply Finset.sum_congr rfl
    intro i _
    rw [← pow_mul, mul_comm t i]
  rw [e, e, e, h]
  apply Finset.sum_congr rfl
  intro m _
  unfold conv
  push_cast
  rfl

/-- The values left in the buffer by the two forward transforms, the pointwise products
and the inverse transform are the convolution coefficients. -/
theorem conv_ntt (A B : List Char) (hA : ValidOperand A) (hB : ValidOperand B)
    (n k invert : Nat) (a1 b1 : Mem) (hn : n = 2 ^ k) (hk : k ≤ 23)
    (hN : A.length + B.length - 1 ≤ n) (hinv : invert ≠ 0)
    (ha : ∀ i, i < n → a1 i = digitLE A i) (hb : ∀ i, i < n → b1 i = digitLE B i)
    (m : Nat) (hm : m < n) :
    nttFn n k invert
      (fun j => if j < n then nttFn n k 0 a1 j * nttFn n k 0 b1 j % MOD else nttFn n k 0 a1 j) m
      = conv (digitLE A) (digitLE B) m := by
  have ha9 : ∀ i, i < n → a1 i < MOD := by
    intro i hi
    rw [ha i hi]
    have := digitLE_le A hA.2.2 i
    unfold MOD
    omega
  have hp : ∀ j, j < n →
      (fun j => if j < n then nttFn n k 0 a1 j * nttFn n k 0 b1 j % MOD else nttFn n k 0 a1 j) j
        < MOD := by
    intro j hj
    simp only [if_pos hj]
    exact Nat.mod_lt _ MOD_pos
  have hc := conv_le A B hA.2.2 hB.2.2 m
  have hl := hA.2.1
  apply cast_eq_of_lt _ _ (nttFn_lt n k invert _ hn hp m hm) (by unfold MOD; omega)
  rw [nttFn_inverse n k invert _ hn hk hinv m hm]
  have e : dft (omegaInv k) n (fun i => (((fun j => if j < n then
        nttFn n k 0 a1 j * nttFn n k 0 b1 j % MOD else nttFn n k 0 a1 j) i : Nat) : Fp)) m =
      dft (omegaInv k) n (fun t => dft (omega k) n
        (fun m => ((conv (digitLE A) (digitLE B) m : Nat) : Fp)) t) m := by
    unfold dft
    apply Finset.sum_congr rfl
    intro t ht
    have ht2 := Finset.mem_range.mp ht
    have h1 := nttFn_forward n k a1 hn hk t ht2
    have h2 := nttFn_forward n k b1 hn hk t ht2
    have ea : dft (omega k) n (fun i => ((a1 i : Nat) : Fp)) t =
        dft (omega k) n (fun i => ((digitLE A i : Nat) : Fp)) t := by
      unfold dft
      apply Finset.sum_congr rfl
      intro i hi
      simp only [ha i (Finset.mem_range.mp hi)]
    have eb : dft (omega k) n (fun i => ((b1 i : Nat) : Fp)) t =
        dft (omega k) n (fun i => ((digitLE B i : Nat) : Fp)) t := by
      unfold dft
      apply Finset.sum_congr rfl
      intro i hi
      simp only [hb i (Finset.mem_range.mp hi)]
    have h3 := dft_mul A B hA.1 n k hN t
    rw [← ea, ← eb, ← h1, ← h2] at h3
    unfold dft at h3
    simp only [if_pos ht2, ZMod.natCast_mod, Nat.cast_mul, h3]
  rw [e]
  subst hn
  exact dft_roundtrip k hk _ m hm

/-! ## The whole multiplication -/

theorem sum_trimmed (d : Mem) (L2 L : Nat) (h : L2 ≤ L) (hz : ∀ i, L2 ≤ i → i < L → d i = 0) :
    ∑ i in Finset.range L, d i * 10 ^ i = ∑ i in Finset.range L2, d i * 10 ^ i := by
  symm
  apply Finset.sum_subset
  · intro j hj
    rw [Finset.mem_range] at hj ⊢
    omega
  · intro j hj hnj
    rw [Finset.mem_range] at hj hnj
    rw [hz j (by omega) hj]
    simp

/-- The run of `big_multiply` on valid operands, from globals whose `a_ntt` holds zero at
index `len1 + len2 - 1`: with enough fuel it passes through states that satisfy `RunOf`. -/
theorem big_multiply_run (F : Nat) (g : Globals) (A B : List Char) (hA : ValidOperand A)
    (hB : ValidOperand B) (hF : 2097152 < F) (hz : g.a_ntt (A.length + B.length - 1) = 0) :
    ∃ r : Run, RunOf F g A B r := by
  have hl1 : 0 < A.length := List.length_pos.mpr hA.1
  have hl2 : 0 < B.length := List.length_pos.mpr hB.1
  have hA6 := hA.2.1
  have hB6 := hB.2.1
  have h32 : 32 ≤ F := by omega
  obtain ⟨L, hL⟩ : ∃ L, L = A.length + B.length := ⟨_, rfl⟩
  have hadd : add A.length B.length = L := by rw [add_small _ _ (by omega), hL]
  have hsub : sub L 1 = L - 1 := sub_small _ 1 (by omega) (by omega)
  obtain ⟨k, hk1, hk21, hneed, -⟩ := grow_loop_eq (L - 1) (by omega) 21 F 0
    (by omega) (by omega) (Or.inl rfl)
  simp only [pow_zero] at hk1
  obtain ⟨n, hn⟩ : ∃ n, n = 2 ^ k := ⟨_, rfl⟩
  rw [← hn] at hneed hk1
  have hn21 : n ≤ 2097152 := by
    rw [hn]
    exact Nat.pow_le_pow_right (by omega) hk21
  -- clearing and loading
  obtain ⟨a0, ha0⟩ : ∃ a0 : Mem, a0 = fun j => if j < n then 0 else g.a_ntt j := ⟨_, rfl⟩
  obtain ⟨b0, hb0⟩ : ∃ b0 : Mem, b0 = fun j => if j < n then 0 else g.b_ntt j := ⟨_, rfl⟩
  have h_cl : cl_loop n F 0 g.a_ntt g.b_ntt = some (a0, b0) := by
    rw [ha0, hb0]
    exact cl_loop_eq n g.a_ntt g.b_ntt (by omega) n F 0 _ _ (by omega) (by omega)
      (by intro j; rw [if_neg (by omega)]) (by intro j; rw [if_neg (by omega)])
  obtain ⟨a1, ha1⟩ : ∃ a1 : Mem, a1 = fun j => if j < A.length then digitLE A j else a0 j :=
    ⟨_, rfl⟩
  obtain ⟨b1, hb1⟩ : ∃ b1 : Mem, b1 = fun j => if j < B.length then digitLE B j else b0 j :=
    ⟨_, rfl⟩
  have h_ld1 : ld1 A A.length F 0 a0 = some a1 := by
    rw [ha1]
    exact ld1_eq A (by omega) hA.2.2 a0 A.length F 0 a0 (by omega) (by omega)
      (by intro j; rw [if_neg (by omega)])
  have h_ld2 : ld2 B B.length F 0 b0 = some b1 := by
    rw [hb1, ld2_eq_ld1]
    exact ld1_eq B (by omega) hB.2.2 b0 B.length F 0 b0 (by omega) (by omega)
      (by intro j; rw [if_neg (by omega)])
  have ha1d : ∀ i, i < n → a1 i = digitLE A i := by
    intro i hi
    rw [ha1]
    simp only
    split
    · rfl
    · rw [ha0]
      simp only [if_pos hi]
      rw [digitLE_zero A i (by omega)]
  have hb1d : ∀ i, i < n → b1 i = digitLE B i := by
    intro i hi
    rw [hb1]
    simp only
    split
    · rfl
    · rw [hb0]
      simp only [if_pos hi]
      rw [digitLE_zero B i (by omega)]
  have ha1m : ∀ i, i < n → a1 i < MOD := by
    intro i hi
    rw [ha1d i hi]
    have := digitLE_le A hA.2.2 i
    unfold MOD
    omega
  have hb1m : ∀ i, i < n → b1 i < MOD := by
    intro i hi
    rw [hb1d i hi]
    have := digitLE_le B hB.2.2 i
    unfold MOD
    omega
  -- the transforms
  have h_ntt1 := ntt_eq F n k 0 a1 g.rev_bits h32 (by omega) hn (by omega) ha1m
  have h_ntt2 := ntt_eq F n k 0 b1 (revFn n k g.rev_bits) h32 (by omega) hn (by omega) hb1m
  obtain ⟨A3, hA3⟩ : ∃ A3 : Mem, A3 = fun j => if j < n then
      nttFn n k 0 a1 j * nttFn n k 0 b1 j % MOD else nttFn n k 0 a1 j := ⟨_, rfl⟩
  have h_pm : pm_loop F n (nttFn n k 0 b1) F 0 (nttFn n k 0 a1) = some A3 := by
    rw [hA3]
    exact pm_loop_eq F n _ _ h32 (by omega) (nttFn_lt n k 0 a1 hn ha1m)
      (nttFn_lt n k 0 b1 hn hb1m) n F 0 _ (by omega) (by omega)
      (by intro j; rw [if_neg (by omega)])
  have hA3m : ∀ i, i < n → A3 i < MOD := by
    intro i hi
    rw [hA3]
    simp only [if_pos hi]
    exact Nat.mod_lt _ MOD_pos
  have h_ntt3 := ntt_eq F n k 1 A3 (revFn n k (revFn n k g.rev_bits)) h32 (by omega) hn
    (by omega) hA3m
  -- the coefficients
  have hcoef : ∀ i, i < L → nttFn n k 1 A3 i = conv (digitLE A) (digitLE B) i := by
    intro i hi
    by_cases hin : i < n
    · rw [hA3]
      exact conv_ntt A B hA hB n k 1 a1 b1 hn (by omega) (by omega) (by omega) ha1d hb1d i hin
    · have hi2 : i = A.length + B.length - 1 := by omega
      rw [nttFn_frame n k 1 A3 i (by omega), hA3]
      simp only [if_neg hin]
      rw [nttFn_frame n k 0 a1 i (by omega), ha1]
      simp only [if_neg (by omega : ¬ i < A.length)]
      rw [ha0]
      simp only [if_neg hin]
      rw [conv_zero A B i (by omega) hA.1, hi2, hz]
  have hcle : ∀ i, conv (digitLE A) (digitLE B) i ≤ 81000000 := by
    intro i
    have := conv_le A B hA.2.2 hB.2.2 i
    omega
  obtain ⟨D, hD⟩ : ∃ D : Mem, D = fun j => if j < L then
      (conv (digitLE A) (digitLE B) j + carrySeq (conv (digitLE A) (digitLE B)) j) % 10
      else g.digits j := ⟨_, rfl⟩
  have h_car : car_loop F L (nttFn n k 1 A3) F 0 0 g.digits =
      some (carrySeq (conv (digitLE A) (digitLE B)) L, D) := by
    rw [hD]
    exact car_loop_eq F L 81000000 (nttFn n k 1 A3) (conv (digitLE A) (digitLE B)) g.digits h32
      (by omega) (by omega) hcle hcoef L F 0 g.digits (by omega) (by omega)
      (by intro j; rw [if_neg (by omega)])
  have hDsum : ∑ i in Finset.range L, D i * 10 ^ i +
      carrySeq (conv (digitLE A) (digitLE B)) L * 10 ^ L = value A * value B := by
    rw [value_mul_eq A B hA.1, ← hL, ← carry_sum (conv (digitLE A) (digitLE B)) L]
    congr 1
    apply Finset.sum_congr rfl
    intro i hi
    rw [hD]
    simp only [if_pos (Finset.mem_range.mp hi)]
  have hprod : value A * value B < 10 ^ L := by
    rw [hL, pow_add]
    exact Nat.mul_lt_mul'' (value_lt A hA.2.2) (value_lt B hB.2.2)
  have hcarry0 : carrySeq (conv (digitLE A) (digitLE B)) L = 0 := by
    by_contra hne
    have h1 : 1 * 10 ^ L ≤ carrySeq (conv (digitLE A) (digitLE B)) L * 10 ^ L :=
      Nat.mul_le_mul_right _ (by omega)
    omega
  rw [hcarry0] at h_car hDsum
  simp only [zero_mul, add_zero] at hDsum
  have hF1 : ∃ f, F = f + 1 := ⟨F - 1, by omega⟩
  obtain ⟨f, hf⟩ := hF1
  have h_cc : cc_loop F F 0 L D = some (L, D) := by
    rw [hf]
    exact cc_loop_zero _ f L D
  obtain ⟨L2, h_trim, hL21, hL2L, htop, hzero⟩ := trim_loop_eq D (L - 1) F L (by omega)
    (by omega) (by omega)
  have h_out : out_loop D F (sub L2 1) [] = some (outChars D (L2 - 1)) := by
    rw [sub_small _ 1 (by omega) hL21, out_loop_eq D (L2 - 1) F [] (by omega) (by omega)]
    simp
  have hD10 : ∀ i, i < L2 → D i < 10 := by
    intro i hi
    rw [hD]
    simp only [if_pos (by omega : i < L)]
    exact Nat.mod_lt _ (by omega)
  have hcoef_n : ∀ i, i < n → nttFn n k 1 A3 i = conv (digitLE A) (digitLE B) i := by
    intro i hin
    rw [hA3]
    exact conv_ntt A B hA hB n k 1 a1 b1 hn (by omega) (by omega) (by omega) ha1d hb1d i hin
  have h_res : big_multiply F g A B A.length B.length =
      some (Globals.mk (nttFn n k 1 A3) (nttFn n k 0 b1)
        (revFn n k (revFn n k (revFn n k g.rev_bits))) D, outChars D (L2 - 1)) := by
    unfold big_multiply
    simp only [hadd, hsub, hk1, h_cl, h_ld1, h_ld2, h_ntt1, h_ntt2, h_pm, h_ntt3, h_car, h_cc,
      h_trim, h_out, Option.bind_eq_bind, Option.some_bind, pure]
  have h_tot : ∑ i in Finset.range L2, D i * 10 ^ i = value A * value B := by
    rw [← hDsum, sum_trimmed D L2 L hL2L hzero]
  subst hL
  exact ⟨⟨n, k, a0, b0, a1, b1, nttFn n k 0 a1, nttFn n k 0 b1, A3, nttFn n k 1 A3,
      revFn n k g.rev_bits, revFn n k (revFn n k g.rev_bits),
      revFn n k (revFn n k (revFn n k g.rev_bits)), D, L2⟩,
    ⟨hadd, hsub, hk1, hn, hk21, hneed, h_cl, h_ld1, h_ld2, h_ntt1, h_ntt2, h_pm, h_ntt3, h_car,
      h_cc, h_trim, h_out, h_res, ha0, hb0, ha1, hb1, ha1d, hb1d, hcoef, hcoef_n, hD, hcarry0,
      hL21, hL2L, hD10, htop, hzero, h_tot⟩⟩

/-- The run of `big_multiply` on valid operands, from globals whose `a_ntt` holds zero at
index `len1 + len2 - 1`: enough fuel gives the trimmed digits of the product, printed from
the most significant one. -/
theorem big_multiply_digits (F : Nat) (g : Globals) (A B : List Char) (hA : ValidOperand A)
    (hB : ValidOperand B) (hF : 2097152 < F) (hz : g.a_ntt (A.length + B.length - 1) = 0) :
    ∃ (g2 : Globals) (D : Mem) (L2 : Nat),
      big_multiply F g A B A.length B.length = some (g2, outChars D (L2 - 1)) ∧
      1 ≤ L2 ∧ (∀ i, i < L2 → D i < 10) ∧ (L2 = 1 ∨ D (L2 - 1) ≠ 0) ∧
      ∑ i in Finset.range L2, D i * 10 ^ i = value A * value B := by
  obtain ⟨r, hr⟩ := big_multiply_run F g A B hA hB hF hz
  exact ⟨_, r.D, r.L2, hr.h_result, hr.h_L2_pos, hr.h_digit, hr.h_top, hr.h_total⟩

/-- The run of `big_multiply` on valid operands: enough fuel gives the decimal
representation of the product. -/
theorem big_multiply_eq (F : Nat) (g : Globals) (A B : List Char) (hA : ValidOperand A)
    (hB : ValidOperand B) (hF : 2097152 < F) (hz : g.a_ntt (A.length + B.length - 1) = 0) :
    ∃ g2, big_multiply F g A B A.length B.length =
      some (g2, (Nat.repr (value A * value B)).toList) := by
  obtain ⟨g2, D, L2, h1, h2, h3, h4, h5⟩ := big_multiply_digits F g A B hA hB hF hz
  refine ⟨g2, ?_⟩
  rw [h1, ← h5, repr_digits D L2 h2 h3 h4]

/-! ## The program -/

theorem valid_length_pos (A : List Char) (hA : ValidOperand A) : 0 < A.length :=
  List.length_pos.mpr hA.1

theorem get_length_valid (F : Nat) (A : List Char) (hA : ValidOperand A) (hF : A.length < F) :
    get_length F A = some A.length := by
  apply get_length_eq F A (by have := hA.2.1; omega) _ hF
  intro c hc
  have := hA.2.2 c hc
  omega

theorem single_zero_iff (A : List Char) :
    A = ['0'] ↔ A.length = 1 ∧ charAt A 0 = 48 := by
  constructor
  · intro h
    subst h
    exact ⟨rfl, rfl⟩
  · intro h
    match A, h with
    | [c], ⟨_, h2⟩ =>
      have hc : c.toNat = 48 := h2
      have : c = '0' := by
        apply Char.ext
        apply UInt32.ext
        exact hc
      rw [this]

/-- The zero test of `main` holds exactly for the operand `"0"`. -/
theorem is_zero_eq (A : List Char) (hA : ValidOperand A) :
    is_zero A A.length = if A = ['0'] then 1 else 0 := by
  have hl := valid_length_pos A hA
  have hl6 := hA.2.1
  have hc := charAt_digit A hA.2.2 0 hl
  unfold is_zero
  rw [sub_small _ 1 (by omega) (by omega), sub_small _ 48 (by omega) hc.1]
  unfold lneg
  by_cases h : A = ['0']
  · have h2 := (single_zero_iff A).mp h
    rw [if_pos h, if_pos (by omega), if_pos (by omega)]
    rfl
  · rw [if_neg h]
    have h2 : ¬ (A.length = 1 ∧ charAt A 0 = 48) := fun hh => h ((single_zero_iff A).mpr hh)
    by_cases h3 : A.length = 1
    · rw [if_pos (by omega), if_neg (by omega)]
      rfl
    · rw [if_neg (by omega)]
      split <;> rfl

theorem value_single_zero : value ['0'] = 0 := by
  rfl

/-- The run of `main` when an operand is `"0"`: the fast path writes `0` and a newline. -/
theorem mainFrom_zero (F : Nat) (g : Globals) (A B : List Char) (hA : ValidOperand A)
    (hB : ValidOperand B) (hFA : A.length < F) (hFB : B.length < F)
    (h0 : A = ['0'] ∨ B = ['0']) (rest : List (List Char)) :
    mainFrom F g (A :: B :: rest) = some ['0', '\n'] := by
  unfold mainFrom
  simp only
  rw [get_length_valid F A hA hFA, get_length_valid F B hB hFB]
  simp only [Option.bind_eq_bind, Option.some_bind]
  rw [is_zero_eq A hA, is_zero_eq B hB]
  rcases h0 with h | h
  · rw [if_pos h]
    split <;> simp
  · rw [if_pos h]
    split <;> simp

/-- The run of `main` on two valid operands from zero-initialised storage: the decimal
representation of the product and a newline. -/
theorem multiply_eq (F : Nat) (A B : List Char) (hA : ValidOperand A) (hB : ValidOperand B)
    (hF : 2097152 < F) :
    multiply F A B = some ((Nat.repr (value A * value B)).toList ++ ['\n']) := by
  have hA6 := hA.2.1
  have hB6 := hB.2.1
  by_cases h0 : A = ['0'] ∨ B = ['0']
  · unfold multiply main
    rw [mainFrom_zero F _ A B hA hB (by omega) (by omega) h0 []]
    have hv : value A * value B = 0 := by
      rcases h0 with h | h
      · rw [h, value_single_zero, zero_mul]
      · rw [h, value_single_zero, mul_zero]
    rw [hv]
    rfl
  · unfold multiply main mainFrom
    simp only
    rw [get_length_valid F A hA (by omega), get_length_valid F B hB (by omega)]
    simp only [Option.bind_eq_bind, Option.some_bind]
    rw [is_zero_eq A hA, is_zero_eq B hB, if_neg (fun h => h0 (Or.inl h)),
      if_neg (fun h => h0 (Or.inr h))]
    obtain ⟨g2, hg⟩ := big_multiply_eq F Globals.zero A B hA hB hF rfl
    rw [hg]
    simp

/-- The run of `main` on two valid operands, digit by digit. -/
theorem multiply_digits (F : Nat) (A B : List Char) (hA : ValidOperand A)
    (hB : ValidOperand B) (hF : 2097152 < F) :
    ∃ (D : Mem) (L2 : Nat), multiply F A B = some (outChars D (L2 - 1) ++ ['\n']) ∧
      1 ≤ L2 ∧ (∀ i, i < L2 → D i < 10) ∧ (L2 = 1 ∨ D (L2 - 1) ≠ 0) := by
  have hA6 := hA.2.1
  have hB6 := hB.2.1
  by_cases h0 : A = ['0'] ∨ B = ['0']
  · refine ⟨fun _ => 0, 1, ?_, le_refl _, fun i _ => by simp, Or.inl rfl⟩
    unfold multiply main
    rw [mainFrom_zero F _ A B hA hB (by omega) (by omega) h0 []]
    rfl
  · obtain ⟨g2, D, L2, h1, h2, h3, h4, _⟩ :=
      big_multiply_digits F Globals.zero A B hA hB hF rfl
    refine ⟨D, L2, ?_, h2, h3, h4⟩
    unfold multiply main mainFrom
    simp only
    rw [get_length_valid F A hA (by omega), get_length_valid F B hB (by omega)]
    simp only [Option.bind_eq_bind, Option.some_bind]
    rw [is_zero_eq A hA, is_zero_eq B hB, if_neg (fun h => h0 (Or.inl h)),
      if_neg (fun h => h0 (Or.inr h))]
    rw [h1]
    simp

/-! ## Canonical decimal strings -/

theorem digitChar_digitVal (c : Char) (h1 : 48 ≤ c.toNat) (h2 : c.toNat ≤ 57) :
    Nat.digitChar (c.toNat - 48) = c := by
  have hc : c = Char.ofNat c.toNat := (Char.ofNat_toNat c).symm
  generalize c.toNat = n at hc h1 h2
  subst hc
  interval_cases n <;> rfl

theorem outChars_congr (d1 d2 : Mem) (i : Nat) (h : ∀ j, j ≤ i → d1 j = d2 j) :
    outChars d1 i = outChars d2 i := by
  induction i with
  | zero =>
    unfold outChars
    rw [h 0 (le_refl _)]
  | succ i ih =>
    unfold outChars
    rw [h (i + 1) (le_refl _), ih (fun j hj => h j (by omega))]

theorem digitLE_cons (c : Char) (t : List Char) (i : Nat) (hi : i < t.length) :
    digitLE (c :: t) i = digitLE t i := by
  unfold digitLE charAt
  have hl : (c :: t).length = t.length + 1 := rfl
  rw [if_pos (by omega), if_pos hi, hl]
  have e : t.length + 1 - 1 - i = (t.length - 1 - i) + 1 := by omega
  rw [e]
  rfl

theorem digitLE_cons_top (c : Char) (t : List Char) :
    digitLE (c :: t) t.length = c.toNat - 48 := by
  unfold digitLE charAt
  have hl : (c :: t).length = t.length + 1 := rfl
  rw [if_pos (by omega), hl]
  have e : t.length + 1 - 1 - t.length = 0 := by omega
  rw [e]
  rfl

theorem outChars_digitLE (t : List Char) :
    (∀ c ∈ t, 48 ≤ c.toNat ∧ c.toNat ≤ 57) → t ≠ [] →
    outChars (digitLE t) (t.length - 1) = t := by
  induction t with
  | nil => intro _ h; exact absurd rfl h
  | cons c t ih =>
    intro hc _
    have hcc := hc c (List.mem_cons_self _ _)
    have hd : digitLE (c :: t) t.length < 10 := by
      rw [digitLE_cons_top]
      omega
    by_cases ht : t = []
    · subst ht
      simp only [List.length_singleton, Nat.sub_self, outChars]
      have hd0 : digitLE [c] 0 < 10 := hd
      rw [printInt_digit _ hd0]
      have := digitLE_cons_top c []
      simp only [List.length_nil] at this
      rw [this, digitChar_digitVal c hcc.1 hcc.2]
    · have hl : 0 < t.length := List.length_pos.mpr ht
      obtain ⟨m, hm⟩ : ∃ m, t.length = m + 1 := ⟨t.length - 1, by omega⟩
      have e1 : (c :: t).length - 1 = m + 1 := by
        simp only [List.length_cons]
        omega
      rw [e1, outChars]
      rw [← hm, printInt_digit _ hd, digitLE_cons_top, digitChar_digitVal c hcc.1 hcc.2]
      have e2 : outChars (digitLE (c :: t)) m = outChars (digitLE t) m :=
        outChars_congr _ _ m (fun j hj => digitLE_cons c t j (by omega))
      have e3 := ih (fun c' hc' => hc c' (List.mem_cons_of_mem _ hc')) ht
      rw [hm] at e3
      simp only [Nat.add_sub_cancel] at e3
      rw [e2, e3]
      rfl

theorem value_cons (c : Char) (t : List Char) :
    value (c :: t) = digitVal c * 10 ^ t.length + value t := by
  rw [value_eq_sum, value_eq_sum]
  have hl : (c :: t).length = t.length + 1 := rfl
  rw [hl, Finset.sum_range_succ, digitLE_cons_top, add_comm]
  congr 1
  apply Finset.sum_congr rfl
  intro i hi
  rw [digitLE_cons c t i (Finset.mem_range.mp hi)]

theorem value_dropWhile (A : List Char) :
    value (A.dropWhile (fun c => c == '0')) = value A := by
  induction A with
  | nil => rfl
  | cons c t ih =>
    by_cases h : c = '0'
    · subst h
      rw [List.dropWhile_cons_of_pos (by rfl), ih, value_cons]
      have : digitVal '0' = 0 := rfl
      rw [this]
      simp
    · rw [List.dropWhile_cons_of_neg (by simpa using h)]

/-- The decimal representation of the value of an operand is the operand without its
leading zeros. -/
theorem repr_value (A : List Char) (hA : ∀ c ∈ A, 48 ≤ c.toNat ∧ c.toNat ≤ 57) :
    (Nat.repr (value A)).toList = canonical A := by
  unfold canonical
  rw [← value_dropWhile A]
  have hsub : ∀ c ∈ A.dropWhile (fun c => c == '0'), 48 ≤ c.toNat ∧ c.toNat ≤ 57 :=
    fun c hc => hA c ((List.dropWhile_sublist _).subset hc)
  have hhead : ∀ c t, A.dropWhile (fun c => c == '0') = c :: t → c ≠ '0' := by
    intro c t h hc0
    have := List.head_dropWhile_not (fun c => c == '0') A (by rw [h]; simp)
    simp only [h, List.head_cons] at this
    rw [hc0] at this
    simp at this
  generalize A.dropWhile (fun c => c == '0') = T at hsub hhead ⊢
  match T, hsub, hhead with
  | [], _, _ => rfl
  | c :: t, hsub, hhead =>
    rw [if_neg (by simp)]
    have hc := hsub c (List.mem_cons_self _ _)
    have hne : c.toNat - 48 ≠ 0 := by
      intro h0
      apply hhead c t rfl
      apply Char.ext
      apply UInt32.ext
      have : c.toNat = 48 := by omega
      exact this
    rw [value_eq_sum]
    have hl : (c :: t).length = t.length + 1 := rfl
    rw [repr_digits (digitLE (c :: t)) (c :: t).length (by rw [hl]; omega)
      (fun i _ => by have := digitLE_le (c :: t) hsub i; omega)
      (Or.inr (by rw [hl, Nat.add_sub_cancel, digitLE_cons_top]; exact hne))]
    exact outChars_digitLE (c :: t) hsub (by simp)

theorem digitChar_toNat (d : Nat) (hd : d < 10) :
    48 ≤ (Nat.digitChar d).toNat ∧ (Nat.digitChar d).toNat ≤ 57 := by
  interval_cases d <;> decide

theorem digitChar_eq_zero (d : Nat) (hd : d < 10) (h : Nat.digitChar d = '0') : d = 0 := by
  interval_cases d <;> first | rfl | (exfalso; revert h; decide)

theorem outChars_mem (D : Mem) (i : Nat) (hD : ∀ j, j ≤ i → D j < 10) :
    ∀ c ∈ outChars D i, 48 ≤ c.toNat ∧ c.toNat ≤ 57 := by
  induction i with
  | zero =>
    intro c hc
    unfold outChars at hc
    rw [printInt_digit _ (hD 0 (le_refl _))] at hc
    rw [List.mem_singleton.mp hc]
    exact digitChar_toNat _ (hD 0 (le_refl _))
  | succ i ih =>
    intro c hc
    unfold outChars at hc
    rw [printInt_digit _ (hD (i + 1) (le_refl _))] at hc
    rcases List.mem_append.mp hc with h | h
    · rw [List.mem_singleton.mp h]
      exact digitChar_toNat _ (hD (i + 1) (le_refl _))
    · exact ih (fun j hj => hD j (by omega)) c h

theorem outChars_head (D : Mem) (i : Nat) (hD : D i < 10) :
    ∃ t, outChars D i = Nat.digitChar (D i) :: t := by
  cases i with
  | zero =>
    refine ⟨[], ?_⟩
    unfold outChars
    rw [printInt_digit _ hD]
  | succ i =>
    refine ⟨outChars D i, ?_⟩
    have e : outChars D (i + 1) = printInt (D (i + 1)) ++ outChars D i := rfl
    rw [e, printInt_digit _ hD]
    rfl

theorem mul_body_iterate (x y : Nat) (hx : x < MOD) (hy : y < 2147483648) (j : Nat) :
    (mul_body^[j] ⟨x, y, 0⟩).x < MOD ∧ (mul_body^[j] ⟨x, y, 0⟩).res < MOD ∧
      (mul_body^[j] ⟨x, y, 0⟩).y < 2147483648 := by
  induction j with
  | zero => exact ⟨hx, MOD_pos, hy⟩
  | succ j ih =>
    rw [Function.iterate_succ_apply', mul_body_eq _ ih.1 ih.2.1 ih.2.2]
    refine ⟨Nat.mod_lt _ MOD_pos, Nat.mod_lt _ MOD_pos, ?_⟩
    have := ih.2.2
    simp only
    omega

theorem canonical_all_zero (A : List Char) (h : ∀ c ∈ A, c = '0') : canonical A = ['0'] := by
  unfold canonical
  rw [if_pos]
  rw [List.dropWhile_eq_nil_iff]
  intro c hc
  rw [h c hc]
  rfl

/-! ## Inverses, bit sums and the planned length -/

theorem nat_fermat (x : Nat) (h1 : 1 ≤ x) (hx : x < MOD) : x ^ (MOD - 1) % MOD = 1 := by
  have hne : ((x : Nat) : Fp) ≠ 0 := by
    intro h
    have h0 : ((x : Nat) : Fp) = ((0 : Nat) : Fp) := by rw [h]; simp
    have := cast_eq_of_lt x 0 hx MOD_pos h0
    omega
  apply cast_eq_of_lt _ _ (Nat.mod_lt _ MOD_pos) (by unfold MOD; omega)
  rw [ZMod.natCast_mod, Nat.cast_pow, Nat.cast_one]
  exact ZMod.pow_card_sub_one_eq_one hne

theorem sub_MOD_two : sub MOD 2 = MOD - 2 := by
  unfold MOD
  rw [sub_small _ _ (by omega) (by omega)]

/-- The run of `pow_mod(x, sub(MOD, 2))` gives the inverse of a non-zero residue. -/
theorem inverse_run (F x : Nat) (hF : 32 ≤ F) (h1 : 1 ≤ x) (hx : x < MOD) :
    pow_mod F x (sub MOD 2) = some (x ^ (MOD - 2) % MOD) ∧
      mul_mod F x (x ^ (MOD - 2) % MOD) = some 1 := by
  rw [sub_MOD_two]
  refine ⟨pow_mod_eq F x (MOD - 2) hF hx (by unfold MOD; omega), ?_⟩
  rw [mul_mod_eq F x _ hF hx (lt_trans (Nat.mod_lt _ MOD_pos) MOD_lt)]
  congr 1
  have e : x * (x ^ (MOD - 2) % MOD) % MOD = x ^ (MOD - 1) % MOD := by
    have e1 : MOD - 1 = MOD - 2 + 1 := by unfold MOD; norm_num
    rw [e1, pow_succ, mul_comm (x ^ (MOD - 2)) x, Nat.mul_mod, Nat.mod_mod, ← Nat.mul_mod]
  rw [e, nat_fermat x h1 hx]

theorem bitrev_eq_sum (k : Nat) : ∀ x,
    bitrev k x = ∑ b in Finset.range k, (x / 2 ^ b % 2) * 2 ^ (k - 1 - b) := by
  induction k with
  | zero => intro x; simp [bitrev]
  | succ k ih =>
    intro x
    rw [bitrev, ih (x / 2), Finset.sum_range_succ']
    simp only [pow_zero, Nat.div_one, Nat.add_sub_cancel, Nat.sub_zero]
    rw [add_comm, mul_comm]
    congr 1
    apply Finset.sum_congr rfl
    intro b hb
    have hb2 := Finset.mem_range.mp hb
    have e1 : x / 2 / 2 ^ b = x / 2 ^ (b + 1) := by
      rw [Nat.div_div_eq_div_mul, pow_succ, mul_comm]
    have e2 : k - 1 - b = k - (b + 1) := by omega
    rw [e1, e2]

/-! ## The carry stage on arbitrary coefficients -/

theorem car_loop_gen (F L : Nat) (a : Mem) (d0 : Mem) (hF : 32 ≤ F) (hL : L < 2147483647)
    (hval : ∀ i, i < L → a i + carrySeq a i < 2147483648) (d : Nat) :
    ∀ (f i : Nat) (digits : Mem), i + d = L → d < f →
    (∀ j, digits j = if j < i then (a j + carrySeq a j) % 10 else d0 j) →
    car_loop F L a f i (carrySeq a i) digits =
      some (carrySeq a L, fun j => if j < L then (a j + carrySeq a j) % 10 else d0 j) := by
  induction d with
  | zero =>
    intro f i digits hi hf hI
    obtain ⟨f, rfl⟩ : ∃ j, f = j + 1 := ⟨f - 1, by omega⟩
    unfold car_loop
    rw [less_than_not i L (by omega) (by omega) (by omega)]
    have : i = L := by omega
    subst this
    simp only [if_true]
    congr 2
    funext j
    exact hI j
  | succ d ih =>
    intro f i digits hi hf hI
    obtain ⟨f, rfl⟩ : ∃ j, f = j + 1 := ⟨f - 1, by omega⟩
    unfold car_loop
    rw [less_than_pos i L (by omega) (by omega)]
    simp only [one_ne_zero, if_false]
    have h1 := hval i (by omega)
    rw [add_small _ _ (by omega), divmod10_eq F _ hF h1]
    simp only [Option.bind_eq_bind, Option.some_bind]
    rw [add_small i 1 (by omega)]
    have e : (a i + carrySeq a i) / 10 = carrySeq a (i + 1) := rfl
    rw [e]
    apply ih f (i + 1) _ (by omega) (by omega)
    intro j
    unfold Mem.set
    by_cases h1 : j = i
    · subst h1
      rw [if_pos rfl, if_pos (by omega)]
    · rw [if_neg h1, hI j]
      by_cases h2 : j < i
      · rw [if_pos h2, if_pos (by omega)]
      · rw [if_neg h2, if_neg (by omega)]

theorem sum_set_above (D : Mem) (L v : Nat) :
    ∑ i in Finset.range L, (D.set L v) i * 10 ^ i = ∑ i in Finset.range L, D i * 10 ^ i := by
  apply Finset.sum_congr rfl
  intro i hi
  have := Finset.mem_range.mp hi
  unfold Mem.set
  rw [if_neg (by omega)]

/-- The loop `cc_loop` writes the decimal digits of the remaining carry above the digits
already stored. -/
theorem cc_loop_gen (F : Nat) (hF : 32 ≤ F) (d : Nat) : ∀ (f carry L : Nat) (D : Mem),
    carry < 10 * 10 ^ d → carry < 2147483648 → L + d + 1 < 2147483648 → d < f →
    ∃ L2 D2, cc_loop F f carry L D = some (L2, D2) ∧ L ≤ L2 ∧ L2 ≤ L + d + 1 ∧
      (∀ i, i < L → D2 i = D i) ∧ (∀ i, L ≤ i → i < L2 → D2 i ≤ 9) ∧
      (∀ i, L2 ≤ i → D2 i = D i) ∧
      ∑ i in Finset.range L2, D2 i * 10 ^ i =
        ∑ i in Finset.range L, D i * 10 ^ i + carry * 10 ^ L := by
  have hexit : ∀ (f carry L : Nat) (D : Mem) (dd : Nat), carry < 10 → L + dd + 1 < 2147483648 →
      ∃ L2 D2, cc_loop F (f + 1) carry L D = some (L2, D2) ∧ L ≤ L2 ∧ L2 ≤ L + dd + 1 ∧
      (∀ i, i < L → D2 i = D i) ∧ (∀ i, L ≤ i → i < L2 → D2 i ≤ 9) ∧
      (∀ i, L2 ≤ i → D2 i = D i) ∧
      ∑ i in Finset.range L2, D2 i * 10 ^ i =
        ∑ i in Finset.range L, D i * 10 ^ i + carry * 10 ^ L := by
    intro f carry L D dd hc hL
    unfold cc_loop
    rw [less_than_pos carry 10 (by omega) hc]
    simp only [ne_eq, one_ne_zero, not_false_eq_true, if_true]
    by_cases h0 : carry = 0
    · subst h0
      refine ⟨L, D, by simp, le_refl _, by omega, fun _ _ => rfl, ?_, fun _ _ => rfl, by simp⟩
      intro i h1 h2
      omega
    · rw [if_pos h0, add_small L 1 (by omega)]
      refine ⟨L + 1, D.set L carry, rfl, by omega, by omega, ?_, ?_, ?_, ?_⟩
      · intro i hi
        unfold Mem.set
        rw [if_neg (by omega)]
      · intro i h1 h2
        have : i = L := by omega
        subst this
        unfold Mem.set
        rw [if_pos rfl]
        omega
      · intro i hi
        unfold Mem.set
        rw [if_neg (by omega)]
      · rw [Finset.sum_range_succ, sum_set_above]
        unfold Mem.set
        rw [if_pos rfl]
  induction d with
  | zero =>
    intro f carry L D hc _ hL hf
    obtain ⟨f, rfl⟩ : ∃ j, f = j + 1 := ⟨f - 1, by omega⟩
    exact hexit f carry L D 0 (by simpa using hc) hL
  | succ d ih =>
    intro f carry L D hc hc31 hL hf
    obtain ⟨f, rfl⟩ : ∃ j, f = j + 1 := ⟨f - 1, by omega⟩
    by_cases h10 : carry < 10
    · exact hexit f carry L D (d + 1) h10 hL
    · unfold cc_loop
      rw [less_than_not carry 10 (by omega) (by omega) (by omega)]
      simp only [ne_eq, not_true_eq_false, if_false]
      rw [divmod10_eq F carry hF hc31]
      simp only [Option.bind_eq_bind, Option.some_bind]
      rw [add_small L 1 (by omega)]
      have hq : carry / 10 < 10 * 10 ^ d := by
        rw [pow_succ] at hc
        omega
      obtain ⟨L2, D2, h1, h2, h3, h4, h5, h6, h7⟩ :=
        ih f (carry / 10) (L + 1) (D.set L (carry % 10)) hq (by omega) (by omega) (by omega)
      refine ⟨L2, D2, h1, by omega, by omega, ?_, ?_, ?_, ?_⟩
      · intro i hi
        rw [h4 i (by omega)]
        unfold Mem.set
        rw [if_neg (by omega)]
      · intro i hi1 hi2
        by_cases hiL : i = L
        · subst hiL
          rw [h4 i (by omega)]
          unfold Mem.set
          rw [if_pos rfl]
          omega
        · exact h5 i (by omega) hi2
      · intro i hi
        rw [h6 i hi]
        unfold Mem.set
        rw [if_neg (by omega)]
      · rw [h7, Finset.sum_range_succ, sum_set_above]
        have e : (D.set L (carry % 10)) L = carry % 10 := by
          unfold Mem.set
          rw [if_pos rfl]
        rw [e, pow_succ]
        have := Nat.div_add_mod carry 10
        generalize carry / 10 = q at this ⊢
        generalize carry % 10 = r at this ⊢
        subst this
        ring

theorem carrySeq_lt (a : Mem) (L : Nat) (hval : ∀ i, i < L → a i + carrySeq a i < 2147483648) :
    carrySeq a L < 2147483648 := by
  cases L with
  | zero => simp [carrySeq]
  | succ L =>
    have := hval L (by omega)
    unfold carrySeq
    omega

/-! ## Bounds on the coefficients -/

theorem conv_comm (f g : Nat → Nat) (m : Nat) : conv f g m = conv g f m := by
  unfold conv
  rw [← Finset.sum_range_reflect]
  apply Finset.sum_congr rfl
  intro i hi
  have := Finset.mem_range.mp hi
  have e1 : m + 1 - 1 - i = m - i := by omega
  have e2 : m - (m - i) = i := by omega
  rw [e1, e2, mul_comm]

theorem conv_le_min (A B : List Char) (hA : ∀ c ∈ A, 48 ≤ c.toNat ∧ c.toNat ≤ 57)
    (hB : ∀ c ∈ B, 48 ≤ c.toNat ∧ c.toNat ≤ 57) (m : Nat) :
    conv (digitLE A) (digitLE B) m ≤ 81 * min A.length B.length := by
  have h1 := conv_le A B hA hB m
  have h2 := conv_le B A hB hA m
  rw [conv_comm] at h2
  rcases Nat.le_total A.length B.length with h | h
  · rw [Nat.min_eq_left h]
    exact h1
  · rw [Nat.min_eq_right h]
    exact h2

/-! ## Every array access is in bounds -/

theorem rd_lt (cap : Nat) (m : Mem) (i : Nat) (h : i < cap) : rd cap m i = some (m i) :=
  if_pos h

theorem wr_lt (cap : Nat) (m : Mem) (i v : Nat) (h : i < cap) :
    wr cap m i v = some (m.set i v) :=
  if_pos h

theorem rdStr_lt (s : List Char) (len i : Nat) (h : i < len) :
    rdStr s len i = some (charAt s i) :=
  if_pos h

theorem lt_of_less_than (a b : Nat) (ha : a < 2147483648) (hb : b < 2147483648)
    (h : less_than a b ≠ 0) : a < b := by
  rw [less_than_nonneg a b ha hb] at h
  by_contra hc
  rw [if_neg hc] at h
  exact h rfl

theorem cl_loop_chk_eq (cap n : Nat) (hn : n ≤ cap) (hn31 : n < 2147483648) :
    ∀ (f i : Nat) (a b : Mem), i < 2147483648 →
    cl_loop_chk cap n f i a b = cl_loop n f i a b := by
  intro f
  induction f with
  | zero => intros; rfl
  | succ f ih =>
    intro i a b hi
    unfold cl_loop_chk cl_loop
    by_cases h : less_than i n = 0
    · rw [if_pos h, if_pos h]
    · have hin := lt_of_less_than i n hi hn31 h
      rw [if_neg h, if_neg h, wr_lt cap a i 0 (by omega), wr_lt cap b i 0 (by omega)]
      exact ih _ _ _ (by rw [add_small i 1 (by omega)]; omega)

theorem ld1_chk_eq (cap : Nat) (s : List Char) (n1 : Nat) (hn : n1 ≤ cap)
    (hn31 : n1 < 2147483648) :
    ∀ (f i : Nat) (a : Mem), i < 2147483648 → ld1_chk cap s n1 f i a = ld1 s n1 f i a := by
  intro f
  induction f with
  | zero => intros; rfl
  | succ f ih =>
    intro i a hi
    unfold ld1_chk ld1
    by_cases h : less_than i n1 = 0
    · rw [if_pos h, if_pos h]
    · have hin := lt_of_less_than i n1 hi hn31 h
      have e1 : sub n1 1 = n1 - 1 := sub_small n1 1 (by omega) (by omega)
      have e2 : sub (n1 - 1) i = n1 - 1 - i := sub_small (n1 - 1) i (by omega) (by omega)
      rw [if_neg h, if_neg h, e1, e2, rdStr_lt s n1 _ (by omega)]
      show (wr cap a i _).bind _ = _
      rw [wr_lt cap a i _ (by omega)]
      exact ih _ _ (by rw [add_small i 1 (by omega)]; omega)

theorem ld2_chk_eq (cap : Nat) (s : List Char) (n2 : Nat) (hn : n2 ≤ cap)
    (hn31 : n2 < 2147483648) :
    ∀ (f i : Nat) (b : Mem), i < 2147483648 → ld2_chk cap s n2 f i b = ld2 s n2 f i b := by
  intro f
  induction f with
  | zero => intros; rfl
  | succ f ih =>
    intro i b hi
    unfold ld2_chk ld2
    by_cases h : less_than i n2 = 0
    · rw [if_pos h, if_pos h]
    · have hin := lt_of_less_than i n2 hi hn31 h
      have e1 : sub n2 1 = n2 - 1 := sub_small n2 1 (by omega) (by omega)
      have e2 : sub (n2 - 1) i = n2 - 1 - i := sub_small (n2 - 1) i (by omega) (by omega)
      rw [if_neg h, if_neg h, e1, e2, rdStr_lt s n2 _ (by omega)]
      show (wr cap b i _).bind _ = _
      rw [wr_lt cap b i _ (by omega)]
      exact ih _ _ (by rw [add_small i 1 (by omega)]; omega)

theorem pm_loop_chk_eq (cap F n : Nat) (b : Mem) (hn : n ≤ cap) (hn31 : n < 2147483648) :
    ∀ (f i : Nat) (a : Mem), i < 2147483648 →
    pm_loop_chk cap F n b f i a = pm_loop F n b f i a := by
  intro f
  induction f with
  | zero => intros; rfl
  | succ f ih =>
    intro i a hi
    unfold pm_loop_chk pm_loop
    by_cases h : less_than i n = 0
    · rw [if_pos h, if_pos h]
    · have hin := lt_of_less_than i n hi hn31 h
      rw [if_neg h, if_neg h, rd_lt cap a i (by omega), rd_lt cap b i (by omega)]
      show (mul_mod F (a i) (b i)).bind _ = (mul_mod F (a i) (b i)).bind _
      cases mul_mod F (a i) (b i) with
      | none => rfl
      | some v =>
        show (wr cap a i v).bind _ = _
        rw [wr_lt cap a i v (by omega)]
        exact ih _ _ (by rw [add_small i 1 (by omega)]; omega)

theorem inv_loop_chk_eq (cap F n n_inv : Nat) (hn : n ≤ cap) (hn31 : n < 2147483648) :
    ∀ (f k : Nat) (a : Mem), k < 2147483648 →
    inv_loop_chk cap F n n_inv f k a = inv_loop F n n_inv f k a := by
  intro f
  induction f with
  | zero => intros; rfl
  | succ f ih =>
    intro i a hi
    unfold inv_loop_chk inv_loop
    by_cases h : less_than i n = 0
    · rw [if_pos h, if_pos h]
    · have hin := lt_of_less_than i n hi hn31 h
      rw [if_neg h, if_neg h, rd_lt cap a i (by omega)]
      show (mul_mod F (a i) n_inv).bind _ = (mul_mod F (a i) n_inv).bind _
      cases mul_mod F (a i) n_inv with
      | none => rfl
      | some v =>
        show (wr cap a i v).bind _ = _
        rw [wr_lt cap a i v (by omega)]
        exact ih _ _ (by rw [add_small i 1 (by omega)]; omega)

theorem br_loop_chk_eq (cap F n logn : Nat) (hn : n ≤ cap) (hn31 : n < 2147483648) :
    ∀ (f i : Nat) (rev : Mem), i < 2147483648 →
    br_loop_chk cap F n logn f i rev = br_loop F n logn f i rev := by
  intro f
  induction f with
  | zero => intros; rfl
  | succ f ih =>
    intro i rev hi
    unfold br_loop_chk br_loop
    by_cases h : less_than i n = 0
    · rw [if_pos h, if_pos h]
    · have hin := lt_of_less_than i n hi hn31 h
      rw [if_neg h, if_neg h]
      show (br_bit_loop logn F i 0 0).bind _ = (br_bit_loop logn F i 0 0).bind _
      cases br_bit_loop logn F i 0 0 with
      | none => rfl
      | some r =>
        show (wr cap rev i r).bind _ = _
        rw [wr_lt cap rev i r (by omega)]
        exact ih _ _ (by rw [add_small i 1 (by omega)]; omega)

theorem nr_loop_chk_eq (cap n : Nat) (rev : Mem) (hn : n ≤ cap) (hn31 : n < 2147483648)
    (hrev : ∀ i, i < n → rev i < cap) :
    ∀ (f i : Nat) (a : Mem), i < 2147483648 →
    nr_loop_chk cap n rev f i a = nr_loop n rev f i a := by
  intro f
  induction f with
  | zero => intros; rfl
  | succ f ih =>
    intro i a hi
    unfold nr_loop_chk nr_loop
    by_cases h : less_than i n = 0
    · rw [if_pos h, if_pos h]
    · have hin := lt_of_less_than i n hi hn31 h
      have hi1 : add i 1 < 2147483648 := by rw [add_small i 1 (by omega)]; omega
      rw [if_neg h, if_neg h, rd_lt cap rev i (by omega)]
      show (if less_than i (rev i) ≠ 0 then _ else _) = _
      by_cases h2 : less_than i (rev i) ≠ 0
      · rw [if_pos h2, rd_lt cap a i (by omega), rd_lt cap a (rev i) (hrev i hin)]
        show (wr cap a i (a (rev i))).bind _ = _
        rw [wr_lt cap a i _ (by omega)]
        show (wr cap (a.set i (a (rev i))) (rev i) (a i)).bind _ = _
        rw [wr_lt cap _ (rev i) _ (hrev i hin)]
        show nr_loop_chk cap n rev f (add i 1) _ = _
        rw [ih _ _ hi1]
        simp only [if_pos h2]
      · rw [if_neg h2, ih _ _ hi1]
        simp only [if_neg h2]

theorem inner_loop_chk_eq (cap F i2 len half wlen : Nat) (hlen : len = 2 * half)
    (hb : i2 + len ≤ 1073741824) (hcap : i2 + len ≤ cap) :
    ∀ (f j w : Nat) (a : Mem), j ≤ half →
    inner_loop_chk cap F i2 len wlen f j w a = inner_loop F i2 len wlen f j w a := by
  have hsar : sar len 1 = half := by
    rw [sar_nonneg len 1 (by omega), hlen]
    omega
  intro f
  induction f with
  | zero => intros; rfl
  | succ f ih =>
    intro j w a hj
    unfold inner_loop_chk inner_loop
    rw [hsar]
    by_cases h : less_than j half = 0
    · rw [if_pos h, if_pos h]
    · have hjh := lt_of_less_than j half (by omega) (by omega) h
      have e1 : add i2 j = i2 + j := add_small i2 j (by omega)
      have e2 : add (i2 + j) half = i2 + j + half := add_small _ _ (by omega)
      rw [if_neg h, if_neg h, e1, e2, rd_lt cap a _ (by omega), rd_lt cap a _ (by omega)]
      show (mul_mod F (a (i2 + j + half)) w).bind _ = (mul_mod F (a (i2 + j + half)) w).bind _
      cases mul_mod F (a (i2 + j + half)) w with
      | none => rfl
      | some v =>
        show (wr cap a (i2 + j) _).bind _ = _
        rw [wr_lt cap a _ _ (by omega)]
        show (wr cap _ (i2 + j + half) _).bind _ = _
        rw [wr_lt cap _ _ _ (by omega)]
        show (mul_mod F w wlen).bind _ = (mul_mod F w wlen).bind _
        cases mul_mod F w wlen with
        | none => rfl
        | some w2 => exact ih _ _ _ (by rw [add_small j 1 (by omega)]; omega)

theorem outer_loop_chk_eq (cap F n len half wlen m : Nat) (hlen : len = 2 * half)
    (hn : n = m * len) (hb : n ≤ 536870912) (hcap : n ≤ cap) :
    ∀ (f i2 : Nat) (a : Mem), (∃ b, i2 = b * len ∧ b ≤ m) →
    outer_loop_chk cap F n len wlen f i2 a = outer_loop F n len wlen f i2 a := by
  intro f
  induction f with
  | zero => intros; rfl
  | succ f ih =>
    intro i2 a hi2
    obtain ⟨b, rfl, hbm⟩ := hi2
    have hle : b * len ≤ n := by
      rw [hn]
      exact Nat.mul_le_mul_right _ hbm
    unfold outer_loop_chk outer_loop
    by_cases h : less_than (b * len) n = 0
    · rw [if_pos h, if_pos h]
    · have hlt := lt_of_less_than (b * len) n (by omega) (by omega) h
      have hb1 : b + 1 ≤ m := by
        by_contra hc
        have : b = m := by omega
        rw [this, ← hn] at hlt
        omega
      have hle2 : (b + 1) * len ≤ n := by
        rw [hn]
        exact Nat.mul_le_mul_right _ hb1
      have hsum : b * len + len = (b + 1) * len := by ring
      rw [if_neg h, if_neg h,
        inner_loop_chk_eq cap F (b * len) len half wlen hlen (by omega) (by omega) F 0 1 a
          (by omega)]
      show (inner_loop F (b * len) len wlen F 0 1 a).bind _ =
        (inner_loop F (b * len) len wlen F 0 1 a).bind _
      cases inner_loop F (b * len) len wlen F 0 1 a with
      | none => rfl
      | some a2 =>
        show outer_loop_chk cap F n len wlen f (add (b * len) len) a2 = _
        rw [add_small _ _ (by omega), hsum]
        exact ih _ _ ⟨b + 1, rfl, hb1⟩

theorem len_loop_chk_eq (cap F n k invert root root_inv : Nat) (hn : n = 2 ^ k) (hk : k ≤ 23)
    (hcap : n ≤ cap) :
    ∀ (f len shift : Nat) (a : Mem), (∃ s, len = 2 ^ (s + 1) ∧ s ≤ k) →
    len_loop_chk cap F n invert root root_inv f len shift a =
      len_loop F n invert root root_inv f len shift a := by
  have hn23 : n ≤ 2 ^ 23 := by
    rw [hn]
    exact Nat.pow_le_pow_right (by omega) hk
  have hn23 : n ≤ 8388608 := by simpa using hn23
  intro f
  induction f with
  | zero => intros; rfl
  | succ f ih =>
    intro len shift a hl
    obtain ⟨s, rfl, hs⟩ := hl
    have hlen24 : 2 ^ (s + 1) ≤ 2 ^ 24 := Nat.pow_le_pow_right (by omega) (by omega)
    have hlen24 : 2 ^ (s + 1) ≤ 16777216 := by simpa using hlen24
    unfold len_loop_chk len_loop
    rw [add_small n 1 (by omega)]
    by_cases h : less_than (2 ^ (s + 1)) (n + 1) = 0
    · rw [if_pos h, if_pos h]
    · have hlt := lt_of_less_than _ _ (by omega) (by omega) h
      have hsk : s + 1 ≤ k := by
        by_contra hc
        have : 2 ^ (k + 1) ≤ 2 ^ (s + 1) := Nat.pow_le_pow_right (by omega) (by omega)
        rw [pow_succ, ← hn] at this
        have := Nat.two_pow_pos s
        omega
      have hm : n = 2 ^ (k - (s + 1)) * 2 ^ (s + 1) := by
        rw [hn, ← pow_add]
        congr 1
        omega
      have hhalf : 2 ^ (s + 1) = 2 * 2 ^ s := by rw [pow_succ]; ring
      rw [if_neg h, if_neg h]
      show (pow_mod F _ _).bind _ = (pow_mod F _ _).bind _
      cases pow_mod F (if invert ≠ 0 then root_inv else root) (sar (MOD - 1) shift) with
      | none => rfl
      | some wlen =>
        show (outer_loop_chk cap F n (2 ^ (s + 1)) wlen F 0 a).bind _ =
          (outer_loop F n (2 ^ (s + 1)) wlen F 0 a).bind _
        rw [outer_loop_chk_eq cap F n (2 ^ (s + 1)) (2 ^ s) wlen (2 ^ (k - (s + 1))) hhalf hm
          (by omega) hcap F 0 a ⟨0, by simp, Nat.zero_le _⟩]
        cases outer_loop F n (2 ^ (s + 1)) wlen F 0 a with
        | none => rfl
        | some a2 =>
          show len_loop_chk cap F n invert root root_inv f (shl (2 ^ (s + 1)) 1) _ a2 = _
          have hshl : shl (2 ^ (s + 1)) 1 = 2 ^ (s + 1 + 1) := by
            unfold shl
            rw [Nat.shiftLeft_eq, pow_succ 2 (s + 1)]
            omega
          rw [hshl]
          exact ih _ _ _ ⟨s + 1, rfl, hsk⟩

theorem ntt_chk_eq (cap F n k invert : Nat) (a rev : Mem) (hn : n = 2 ^ k) (hk : k ≤ 23)
    (hcap : n ≤ cap) (hF : n < F) :
    ntt_chk cap F a rev n invert = ntt F a rev n invert := by
  have hn23 : n ≤ 2 ^ 23 := by
    rw [hn]
    exact Nat.pow_le_pow_right (by omega) hk
  have hn23 : n ≤ 8388608 := by simpa using hn23
  have hkn : k < n := by
    rw [hn]
    exact Nat.lt_two_pow k
  unfold ntt_chk ntt
  rw [hn, logn_loop_eq k F 0 (by omega) (by omega) (by omega), ← hn]
  simp only [Option.bind_eq_bind, Option.some_bind, zero_add]
  have hbr : build_rev_chk cap F n k rev = build_rev F n k rev :=
    br_loop_chk_eq cap F n k hcap (by omega) F 0 rev (by omega)
  rw [hbr, build_rev_eq F n k rev (by omega) (by omega) hF (by omega)]
  simp only [Option.some_bind]
  rw [nr_loop_chk_eq cap n _ hcap (by omega) (by
    intro i hi
    show (if i < n then bitrev k i else rev i) < cap
    rw [if_pos hi]
    have := bitrev_lt k i
    rw [← hn] at this
    omega) F 0 a (by omega)]
  cases nr_loop n (fun j => if j < n then bitrev k j else rev j) F 0 a with
  | none => rfl
  | some a1 =>
    simp only [Option.some_bind]
    cases pow_mod F G (sub MOD 2) with
    | none => rfl
    | some root_inv =>
      simp only [Option.some_bind]
      rw [len_loop_chk_eq cap F n k invert G root_inv hn hk hcap F 2 1 a1
        ⟨0, by simp, Nat.zero_le _⟩]
      cases len_loop F n invert G root_inv F 2 1 a1 with
      | none => rfl
      | some a2 =>
        simp only [Option.some_bind]
        by_cases hinv : invert ≠ 0
        · rw [if_pos hinv, if_pos hinv]
          cases pow_mod F n (sub MOD 2) with
          | none => rfl
          | some n_inv =>
            simp only [Option.some_bind]
            rw [inv_loop_chk_eq cap F n n_inv hcap (by omega) F 0 a2 (by omega)]
        · rw [if_neg hinv, if_neg hinv]

theorem car_loop_chk_eq (cap dcap F L : Nat) (a : Mem) (hcap : L ≤ cap) (hdcap : L ≤ dcap)
    (hL : L < 2147483648) :
    ∀ (f i carry : Nat) (digits : Mem), i < 2147483648 →
    car_loop_chk cap dcap F L a f i carry digits = car_loop F L a f i carry digits := by
  intro f
  induction f with
  | zero => intros; rfl
  | succ f ih =>
    intro i carry digits hi
    unfold car_loop_chk car_loop
    by_cases h : less_than i L = 0
    · rw [if_pos h, if_pos h]
    · have hin := lt_of_less_than i L hi hL h
      rw [if_neg h, if_neg h, rd_lt cap a i (by omega)]
      show (divmod10 F (add (a i) carry)).bind _ = (divmod10 F (add (a i) carry)).bind _
      cases divmod10 F (add (a i) carry) with
      | none => rfl
      | some p =>
        obtain ⟨c, r⟩ := p
        show (wr dcap digits i r).bind _ = _
        rw [wr_lt dcap digits i r (by omega)]
        exact ih _ _ _ (by rw [add_small i 1 (by omega)]; omega)

theorem cc_loop_chk_zero (dcap F f L : Nat) (D : Mem) :
    cc_loop_chk dcap F f 0 L D = cc_loop F f 0 L D := by
  cases f with
  | zero => rfl
  | succ f =>
    unfold cc_loop_chk cc_loop
    rw [less_than_pos 0 10 (by omega) (by omega)]
    simp

theorem trim_loop_chk_eq (dcap : Nat) (digits : Mem) :
    ∀ (f L : Nat), L ≤ dcap → L < 2147483648 →
    trim_loop_chk dcap digits f L = trim_loop digits f L := by
  intro f
  induction f with
  | zero => intros; rfl
  | succ f ih =>
    intro L hL hL31
    unfold trim_loop_chk trim_loop
    by_cases h : less_than 1 L = 0
    · rw [if_pos h, if_pos h]
    · have h1 := lt_of_less_than 1 L (by omega) hL31 h
      rw [if_neg h, if_neg h, sub_small L 1 (by omega) (by omega),
        rd_lt dcap digits (L - 1) (by omega)]
      show (if digits (L - 1) ≠ 0 then _ else _) = _
      by_cases h2 : digits (L - 1) ≠ 0
      · rw [if_pos h2, if_pos h2]
      · rw [if_neg h2, if_neg h2]
        exact ih _ (by omega) (by omega)

theorem out_loop_chk_eq (dcap : Nat) (digits : Mem) :
    ∀ (f i : Nat) (out : List Char), (i < dcap ∧ i < 2147483648) ∨ i = 4294967295 →
    out_loop_chk dcap digits f i out = out_loop digits f i out := by
  intro f
  induction f with
  | zero => intros; rfl
  | succ f ih =>
    intro i out hi
    unfold out_loop_chk out_loop
    rcases hi with ⟨h1, h2⟩ | rfl
    · by_cases h : less_than i 0 ≠ 0
      · rw [if_pos h, if_pos h]
      · rw [if_neg h, if_neg h, rd_lt dcap digits i h1]
        show out_loop_chk dcap digits f (sub i 1) _ = _
        apply ih
        rw [sub_eq i 1 (by omega) (by omega)]
        omega
    · have h : less_than 4294967295 0 ≠ 0 := by
        rw [less_than_eq _ _ (by omega) (by omega)]
        simp
      rw [if_pos h, if_pos h]

theorem big_multiply_chk_run (F : Nat) (g : Globals) (A B : List Char) (r : Run)
    (hr : RunOf F g A B r) (hA1 : 1 ≤ A.length) (hA : A.length ≤ 1000000)
    (hB1 : 1 ≤ B.length) (hB : B.length ≤ 1000000) (hF : 2097152 < F) :
    r.n ≤ MAXN ∧
    big_multiply_chk MAXN digitsCap F g A B A.length B.length =
      some (Globals.mk r.A4 r.B2 r.r3 r.D, outChars r.D (r.L2 - 1)) := by
  have hn : r.n ≤ 2097152 := by
    have : (2 : Nat) ^ r.k ≤ 2 ^ 21 := Nat.pow_le_pow_right (by omega) hr.h_k
    rw [hr.h_pow]
    simpa using this
  refine ⟨hn, ?_⟩
  have hk23 : r.k ≤ 23 := le_trans hr.h_k (by omega)
  have hL1 := hr.h_L2_pos
  have hL2 := hr.h_L2_le
  have e_cl : cl_loop_chk MAXN r.n F 0 g.a_ntt g.b_ntt = some (r.a0, r.b0) := by
    rw [cl_loop_chk_eq MAXN r.n hn (by omega) F 0 _ _ (by omega), hr.h_cl]
  have e_ld1 : ld1_chk MAXN A A.length F 0 r.a0 = some r.a1 := by
    rw [ld1_chk_eq MAXN A A.length (by unfold MAXN; omega) (by omega) F 0 _ (by omega),
      hr.h_ld1]
  have e_ld2 : ld2_chk MAXN B B.length F 0 r.b0 = some r.b1 := by
    rw [ld2_chk_eq MAXN B B.length (by unfold MAXN; omega) (by omega) F 0 _ (by omega),
      hr.h_ld2]
  have e_ntt1 : ntt_chk MAXN F r.a1 g.rev_bits r.n 0 = some (r.A2, r.r1) := by
    rw [ntt_chk_eq MAXN F r.n r.k 0 _ _ hr.h_pow hk23 hn (by omega), hr.h_ntt1]
  have e_ntt2 : ntt_chk MAXN F r.b1 r.r1 r.n 0 = some (r.B2, r.r2) := by
    rw [ntt_chk_eq MAXN F r.n r.k 0 _ _ hr.h_pow hk23 hn (by omega), hr.h_ntt2]
  have e_pm : pm_loop_chk MAXN F r.n r.B2 F 0 r.A2 = some r.A3 := by
    rw [pm_loop_chk_eq MAXN F r.n _ hn (by omega) F 0 _ (by omega), hr.h_pm]
  have e_ntt3 : ntt_chk MAXN F r.A3 r.r2 r.n 1 = some (r.A4, r.r3) := by
    rw [ntt_chk_eq MAXN F r.n r.k 1 _ _ hr.h_pow hk23 hn (by omega), hr.h_ntt3]
  have e_car : car_loop_chk MAXN digitsCap F (A.length + B.length) r.A4 F 0 0 g.digits =
      some (0, r.D) := by
    rw [car_loop_chk_eq MAXN digitsCap F (A.length + B.length) _ (by unfold MAXN; omega)
      (by unfold digitsCap; omega) (by omega) F 0 0 _ (by omega), hr.h_car]
  have e_cc : cc_loop_chk digitsCap F F 0 (A.length + B.length) r.D =
      some (A.length + B.length, r.D) := by
    rw [cc_loop_chk_zero, hr.h_cc]
  have e_trim : trim_loop_chk digitsCap r.D F (A.length + B.length) = some r.L2 := by
    rw [trim_loop_chk_eq digitsCap _ F _ (by unfold digitsCap; omega) (by omega), hr.h_trim]
  have e_out : out_loop_chk digitsCap r.D F (sub r.L2 1) [] =
      some (outChars r.D (r.L2 - 1)) := by
    rw [out_loop_chk_eq digitsCap _ F _ [] (Or.inl (by
      rw [sub_small r.L2 1 (by omega) (by omega)]
      unfold digitsCap
      omega)), hr.h_out]
  unfold big_multiply_chk
  simp only [hr.h_add, hr.h_sub, hr.h_grow, e_cl, e_ld1, e_ld2, e_ntt1, e_ntt2, e_pm, e_ntt3,
    e_car, e_cc, e_trim, e_out, Option.bind_eq_bind, Option.some_bind, pure]

/-! ## Depth of the recursions of `add` and `sub` -/

theorem dvd_shl_one (z t : Nat) (ht : t + 1 ≤ 32) (h : 2 ^ t ∣ z) : 2 ^ (t + 1) ∣ shl z 1 := by
  rw [shl_one]
  have h2 : 2 ^ (t + 1) ∣ 2 * z := by
    rw [pow_succ, mul_comm]
    exact Nat.mul_dvd_mul_left 2 h
  have h3 : 2 ^ (t + 1) ∣ 4294967296 := by
    have : (4294967296 : Nat) = 2 ^ 32 := by norm_num
    rw [this]
    exact Nat.pow_dvd_pow 2 ht
  exact (Nat.dvd_mod_iff h3).mpr h2

theorem addArgs_fst (d : Nat) : ∀ x y : Nat, (addArgs d x y).1 = addRec d x y := by
  induction d with
  | zero => intro x y; rfl
  | succ d ih =>
    intro x y
    unfold addArgs addRec
    by_cases h : y = 0
    · rw [if_pos h, if_pos h]
    · rw [if_neg h, if_neg h]
      exact ih _ _

theorem subArgs_fst (d : Nat) : ∀ x y : Nat, (subArgs d x y).1 = subRec d x y := by
  induction d with
  | zero => intro x y; rfl
  | succ d ih =>
    intro x y
    unfold subArgs subRec
    by_cases h : y = 0
    · rw [if_pos h, if_pos h]
    · rw [if_neg h, if_neg h]
      exact ih _ _

theorem addArgs_snd (d : Nat) : ∀ x y t : Nat, y < 4294967296 → t + d ≤ 32 → 2 ^ t ∣ y →
    2 ^ (t + d) ∣ (addArgs d x y).2 ∧ (addArgs d x y).2 < 4294967296 := by
  induction d with
  | zero => intro x y t hy _ h; exact ⟨h, hy⟩
  | succ d ih =>
    intro x y t hy ht h
    unfold addArgs
    by_cases h0 : y = 0
    · rw [if_pos h0, h0]
      exact ⟨dvd_zero _, by omega⟩
    · rw [if_neg h0]
      have e : t + (d + 1) = t + 1 + d := by omega
      rw [e]
      exact ih _ _ (t + 1) (shl_lt _ _) (by omega)
        (dvd_shl_one _ t (by omega) (dvd_and_of_dvd x y t h))

theorem subArgs_snd (d : Nat) : ∀ x y t : Nat, y < 4294967296 → t + d ≤ 32 → 2 ^ t ∣ y →
    2 ^ (t + d) ∣ (subArgs d x y).2 ∧ (subArgs d x y).2 < 4294967296 := by
  induction d with
  | zero => intro x y t hy _ h; exact ⟨h, hy⟩
  | succ d ih =>
    intro x y t hy ht h
    unfold subArgs
    by_cases h0 : y = 0
    · rw [if_pos h0, h0]
      exact ⟨dvd_zero _, by omega⟩
    · rw [if_neg h0]
      have e : t + (d + 1) = t + 1 + d := by omega
      rw [e]
      exact ih _ _ (t + 1) (shl_lt _ _) (by omega)
        (dvd_shl_one _ t (by omega) (dvd_and_of_dvd (lnot x) y t h))

theorem eq_zero_of_dvd_lt (v : Nat) (h : 2 ^ (0 + 32) ∣ v) (hv : v < 4294967296) : v = 0 := by
  rcases h with ⟨c, hc⟩
  norm_num at hc
  omega

/-! ## The fast path of `main` for operands of any length -/

theorem is_zero_single : is_zero ['0'] 1 = 1 := by
  unfold is_zero
  have e : charAt ['0'] 0 = 48 := rfl
  rw [e, sub_small 1 1 (by omega) (by omega), sub_small 48 48 (by omega) (by omega)]
  rfl

theorem is_zero_le (A : List Char) (len : Nat) : is_zero A len = 0 ∨ is_zero A len = 1 := by
  unfold is_zero lneg
  split <;> split <;> simp

theorem mainFrom_other_zero (F : Nat) (g : Globals) (A : List Char)
    (hc : ∀ c ∈ A, c.toNat ≠ 0) (hl : A.length < 2147483647) (hF : A.length < F)
    (hF1 : 1 < F) :
    mainFrom F g [A, ['0']] = some ['0', '\n'] ∧ mainFrom F g [['0'], A] = some ['0', '\n'] := by
  have h0 : get_length F ['0'] = some 1 :=
    get_length_eq F ['0'] (by decide) (by decide) (by simpa using hF1)
  have hA := get_length_eq F A hl hc hF
  unfold mainFrom
  simp only
  rw [h0, hA]
  simp only [Option.bind_eq_bind, Option.some_bind]
  rw [is_zero_single]
  rcases is_zero_le A A.length with h | h <;> rw [h] <;> simp

theorem pow_dvd_MOD_pred (k : Nat) (hk : k ≤ 23) : 2 ^ k ∣ MOD - 1 := by
  have h1 : (2 : Nat) ^ k ∣ 2 ^ 23 := Nat.pow_dvd_pow 2 hk
  have h2 : (2 : Nat) ^ 23 ∣ MOD - 1 := ⟨119, by unfold MOD; norm_num⟩
  exact Nat.dvd_trans h1 h2

theorem planned_length (len1 len2 : Nat) (h1 : 1 ≤ len1) (h2 : len1 < 1000005)
    (h3 : 1 ≤ len2) (h4 : len2 < 1000005) (F : Nat) (hF : 21 < F) :
    ∃ n k, grow_loop (sub (add len1 len2) 1) F 1 = some n ∧ n = 2 ^ k ∧ k ≤ 21 ∧
      n ≤ MAXN ∧ n ∣ MOD - 1 := by
  rw [add_small _ _ (by omega), sub_small _ 1 (by omega) (by omega)]
  obtain ⟨k, hk1, hk, _, _⟩ := grow_loop_eq (len1 + len2 - 1) (by omega) 21 F 0
    (by omega) (by omega) (Or.inl rfl)
  simp only [pow_zero] at hk1
  refine ⟨2 ^ k, k, hk1, rfl, hk, ?_, pow_dvd_MOD_pred k (by omega)⟩
  have : (2 : Nat) ^ k ≤ 2 ^ 21 := Nat.pow_le_pow_right (by omega) hk
  unfold MAXN
  simpa using this

/-! ## The bitwise primitives against native arithmetic -/

theorem nativeAdd_eq (x y : Nat) :
    nativeAdd x y = (x + y) % 4294967296 := by
  unfold nativeAdd ofInt toInt
  split <;> split <;> omega

theorem nativeSub_eq (x y : Nat) (hy : y < 4294967296) :
    nativeSub x y = (x + 4294967296 - y) % 4294967296 := by
  unfold nativeSub ofInt toInt
  split <;> split <;> omega

theorem less_than_signed (a b : Nat) (ha : a < 4294967296) (hb : b < 4294967296)
    (h1 : -2147483648 ≤ toInt a - toInt b) (h2 : toInt a - toInt b < 2147483648) :
    less_than a b = nativeLess a b := by
  rw [less_than_eq a b ha hb]
  unfold nativeLess
  unfold toInt at h1 h2 ⊢
  split at h1 <;> split at h1 <;> simp only [*, if_true, if_false] at h2 ⊢ <;>
    split <;> split <;> omega

theorem cc_loop_step (F f x res_len : Nat) (digits : Mem) (hF : 32 ≤ F) (hx : x < 2147483648)
    (h10 : 10 ≤ x) :
    cc_loop F (f + 1) x res_len digits =
      cc_loop F f (x / 10) (add res_len 1) (digits.set res_len (x % 10)) := by
  rw [cc_loop, less_than_not x 10 hx (by omega) h10, divmod10_eq F x hF hx]
  simp

/-! ## The stage twiddles and the transform as sums of residues -/

theorem twiddle_order (ρ : Fp) (hρ : ρ ^ ((MOD - 1) / 2) = -1) (s : Nat) (hs : s ≤ 23) :
    orderOf (twiddle ρ s) = 2 ^ s := by
  cases s with
  | zero =>
    have h := twiddle_full ρ hρ 0 hs
    simp only [pow_zero, pow_one] at h
    rw [h]
    simp
  | succ t =>
    have h1 : ¬ twiddle ρ (t + 1) ^ 2 ^ t = 1 := by
      rw [twiddle_half ρ hρ t hs]
      exact neg_one_ne_one
    haveI : Fact (Nat.Prime 2) := ⟨Nat.prime_two⟩
    exact orderOf_eq_prime_pow h1 (twiddle_full ρ hρ (t + 1) hs)

theorem cast_pow_mod (r e : Nat) : (((r ^ e % MOD : Nat)) : Fp) = ((r : Nat) : Fp) ^ e := by
  rw [ZMod.natCast_mod, Nat.cast_pow]

theorem sar_MOD_pred (s : Nat) : sar (MOD - 1) s = (MOD - 1) / 2 ^ s :=
  sar_nonneg (MOD - 1) s (by unfold MOD; omega)

/-- The stage generator computed by `ntt` for the stage of length `2 ^ s`. -/
theorem stage_twiddle (F r s : Nat) (hF : 32 ≤ F) (hr : r < MOD)
    (hρ : ((r : Nat) : Fp) ^ ((MOD - 1) / 2) = -1) (hs1 : 1 ≤ s) (hs : s ≤ 23) :
    ∃ wlen, pow_mod F r (sar (MOD - 1) s) = some wlen ∧ wlen < MOD ∧
      wlen ^ 2 ^ s % MOD = 1 ∧ wlen ^ (2 ^ s / 2) % MOD = MOD - 1 ∧
      ∀ j, 0 < j → j < 2 ^ s → wlen ^ j % MOD ≠ 1 := by
  have he : (MOD - 1) / 2 ^ s < 2147483648 :=
    lt_of_le_of_lt (Nat.div_le_self _ _) (by unfold MOD; omega)
  have hc : (((r ^ ((MOD - 1) / 2 ^ s) % MOD : Nat)) : Fp) = twiddle ((r : Nat) : Fp) s :=
    cast_pow_mod r _
  refine ⟨r ^ ((MOD - 1) / 2 ^ s) % MOD, ?_, Nat.mod_lt _ MOD_pos, ?_, ?_, ?_⟩
  · rw [sar_MOD_pred]
    exact pow_mod_eq F r _ hF hr he
  · apply cast_eq_of_lt _ _ (Nat.mod_lt _ MOD_pos) (by unfold MOD; omega)
    rw [ZMod.natCast_mod, Nat.cast_pow, hc, twiddle_full _ hρ s hs, Nat.cast_one]
  · obtain ⟨t, rfl⟩ : ∃ t, s = t + 1 := ⟨s - 1, by omega⟩
    have e : 2 ^ (t + 1) / 2 = 2 ^ t := by
      rw [pow_succ]
      omega
    rw [e]
    apply cast_eq_of_lt _ _ (Nat.mod_lt _ MOD_pos) (by unfold MOD; omega)
    rw [ZMod.natCast_mod, Nat.cast_pow, hc, twiddle_half _ hρ t hs, cast_MOD_pred]
  · intro j hj0 hj h
    have h2 : (((r ^ ((MOD - 1) / 2 ^ s) % MOD) ^ j % MOD : Nat) : Fp) = ((1 : Nat) : Fp) := by
      rw [h]
    rw [ZMod.natCast_mod, Nat.cast_pow, hc, Nat.cast_one] at h2
    have h3 := orderOf_dvd_of_pow_eq_one h2
    rw [twiddle_order _ hρ s hs] at h3
    have := Nat.le_of_dvd hj0 h3
    omega

theorem ntt_forward_sum (k : Nat) (hk : k ≤ 23) (a : Mem) (ha : ∀ i, i < 2 ^ k → a i < MOD)
    (m : Nat) (hm : m < 2 ^ k) :
    nttFn (2 ^ k) k 0 a m =
      (∑ j in Finset.range (2 ^ k), a j * (G ^ ((MOD - 1) / 2 ^ k) % MOD) ^ (j * m)) % MOD := by
  apply cast_eq_of_lt _ _ (nttFn_lt (2 ^ k) k 0 a rfl ha m hm) (Nat.mod_lt _ MOD_pos)
  rw [nttFn_forward (2 ^ k) k a rfl hk m hm, ZMod.natCast_mod, Nat.cast_sum]
  unfold dft omega twiddle
  apply Finset.sum_congr rfl
  intro j _
  rw [Nat.cast_mul, Nat.cast_pow, cast_pow_mod]

theorem ntt_inverse_sum (k : Nat) (hk : k ≤ 23) (a : Mem) (ha : ∀ i, i < 2 ^ k → a i < MOD)
    (m : Nat) (hm : m < 2 ^ k) :
    nttFn (2 ^ k) k 1 a m =
      ((2 ^ k) ^ (MOD - 2) % MOD * ∑ j in Finset.range (2 ^ k),
        a j * ((G ^ (MOD - 2) % MOD) ^ ((MOD - 1) / 2 ^ k) % MOD) ^ (j * m)) % MOD := by
  apply cast_eq_of_lt _ _ (nttFn_lt (2 ^ k) k 1 a rfl ha m hm) (Nat.mod_lt _ MOD_pos)
  rw [nttFn_inverse (2 ^ k) k 1 a rfl hk (by omega) m hm, ZMod.natCast_mod, Nat.cast_mul,
    cast_pow_mod, fermat_inv _ (cast_n_ne_zero (2 ^ k) k rfl hk), Nat.cast_sum]
  congr 1
  unfold dft omegaInv twiddle
  apply Finset.sum_congr rfl
  intro j _
  rw [Nat.cast_mul, Nat.cast_pow, cast_pow_mod (G ^ (MOD - 2) % MOD)]

theorem root_mul_inverse (k : Nat) :
    G ^ ((MOD - 1) / 2 ^ k) % MOD * ((G ^ (MOD - 2) % MOD) ^ ((MOD - 1) / 2 ^ k) % MOD) % MOD
      = 1 := by
  apply cast_eq_of_lt _ _ (Nat.mod_lt _ MOD_pos) (by unfold MOD; omega)
  rw [ZMod.natCast_mod, Nat.cast_mul, cast_pow_mod G, cast_pow_mod (G ^ (MOD - 2) % MOD),
    Nat.cast_one]
  exact omega_mul_omegaInv k

theorem length_mul_inverse (k : Nat) (hk : k ≤ 23) :
    2 ^ k * ((2 ^ k) ^ (MOD - 2) % MOD) % MOD = 1 := by
  apply cast_eq_of_lt _ _ (Nat.mod_lt _ MOD_pos) (by unfold MOD; omega)
  rw [ZMod.natCast_mod, Nat.cast_mul, cast_pow_mod, Nat.cast_one,
    fermat_inv _ (cast_n_ne_zero (2 ^ k) k rfl hk)]
  exact mul_inv_cancel₀ (cast_n_ne_zero (2 ^ k) k rfl hk)

/-! ## The swap loop after any number of iterations -/

/-- The loop `nr_loop` run with the bound `m ≤ n` in the place of `n` performs the first `m`
iterations: exactly the pairs whose smaller index is below `m` have been exchanged. -/
theorem nr_loop_prefix (n k m : Nat) (rev a0 : Mem) (hn : n = 2 ^ k) (hk : k ≤ 30)
    (hm : m ≤ n) (hrev : ∀ j, j < n → rev j = bitrev k j) (d : Nat) :
    ∀ (f i : Nat) (cur : Mem), i + d = m → d < f →
    (∀ j, cur j = if j < n ∧ (j < i ∨ bitrev k j < i) then a0 (bitrev k j) else a0 j) →
    nr_loop m rev f i cur =
      some (fun j => if j < n ∧ (j < m ∨ bitrev k j < m) then a0 (bitrev k j) else a0 j) := by
  have hn30 : n ≤ 2 ^ 30 := by
    rw [hn]
    exact Nat.pow_le_pow_right (by omega) hk
  have hlt : ∀ j, bitrev k j < n := by
    intro j
    rw [hn]
    exact bitrev_lt k j
  have hinv : ∀ j, j < n → bitrev k (bitrev k j) = j := by
    intro j hj
    exact bitrev_bitrev k j (by rw [← hn]; exact hj)
  induction d with
  | zero =>
    intro f i cur hi hf hI
    obtain ⟨f, rfl⟩ : ∃ j, f = j + 1 := ⟨f - 1, by omega⟩
    unfold nr_loop
    rw [less_than_not i m (by omega) (by omega) (by omega)]
    simp only [if_true]
    congr 1
    funext j
    rw [hI j]
    have : i = m := by omega
    rw [this]
  | succ d ih =>
    intro f i cur hi hf hI
    obtain ⟨f, rfl⟩ : ∃ j, f = j + 1 := ⟨f - 1, by omega⟩
    have him : i < m := by omega
    have hin : i < n := by omega
    unfold nr_loop
    rw [less_than_pos i m (by omega) him]
    simp only [one_ne_zero, if_false]
    rw [add_small i 1 (by omega), hrev i hin]
    have hri := hlt i
    rw [less_than_nonneg i (bitrev k i) (by omega) (by omega)]
    apply ih f (i + 1) _ (by omega) (by omega)
    intro j
    by_cases hsw : i < bitrev k i
    · rw [if_pos hsw]
      simp only [one_ne_zero, ne_eq, not_false_eq_true, if_true]
      have hci : cur i = a0 i := by
        rw [hI i, if_neg (by omega)]
      have hcr : cur (bitrev k i) = a0 (bitrev k i) := by
        rw [hI (bitrev k i), if_neg]
        rw [hinv i hin]
        omega
      unfold Mem.set
      by_cases hj1 : j = bitrev k i
      · rw [if_pos hj1, hci, hj1, hinv i hin, if_pos]
        exact ⟨hri, Or.inr (by omega)⟩
      · rw [if_neg hj1]
        by_cases hj2 : j = i
        · rw [if_pos hj2, hcr, hj2, if_pos]
          exact ⟨hin, Or.inl (by omega)⟩
        · rw [if_neg hj2, hI j]
          by_cases hjn : j < n
          · have hne : bitrev k j ≠ i := by
              intro h
              apply hj1
              rw [← h, hinv j hjn]
            by_cases hc : j < i ∨ bitrev k j < i
            · rw [if_pos ⟨hjn, hc⟩, if_pos]
              exact ⟨hjn, by omega⟩
            · rw [if_neg (fun h => hc h.2), if_neg]
              intro h
              omega
          · rw [if_neg (fun h => hjn h.1), if_neg (fun h => hjn h.1)]
    · rw [if_neg hsw]
      simp only [ne_eq, not_true_eq_false, if_false]
      rw [hI j]
      by_cases hjn : j < n
      · by_cases hc : j < i ∨ bitrev k j < i
        · rw [if_pos ⟨hjn, hc⟩, if_pos]
          exact ⟨hjn, by omega⟩
        · rw [if_neg (fun h => hc h.2)]
          by_cases hc2 : j < i + 1 ∨ bitrev k j < i + 1
          · rw [if_pos ⟨hjn, hc2⟩]
            have hji : j = i ∨ bitrev k j = i := by omega
            have hjr : j = bitrev k i := by
              rcases hji with h | h
              · subst h
                omega
              · rw [← h, hinv j hjn]
            have hji2 : j = i := by omega
            have h3 : bitrev k i = i := by omega
            rw [hji2, h3]
          · rw [if_neg (fun h => hc2 h.2)]
      · rw [if_neg (fun h => hjn h.1), if_neg (fun h => hjn h.1)]

/-! ## One butterfly and one stage keep the residues reduced -/

theorem inner_loop_step (F i2 len half wlen n : Nat) (hF : 32 ≤ F) (hlen : len = 2 * half)
    (hb : i2 + len ≤ n) (hn : n ≤ 1073741824) (hw : wlen < MOD) (j w : Nat) (a : Mem)
    (hj : j < half) (hwr : w < MOD) (ha : ∀ idx, idx < n → a idx < MOD) :
    ∃ w2 a2, (∀ f, inner_loop F i2 len wlen (f + 1) j w a =
        inner_loop F i2 len wlen f (add j 1) w2 a2) ∧
      w2 < MOD ∧ (∀ idx, idx < n → a2 idx < MOD) ∧ w2 = w * wlen % MOD ∧
      a2 = (a.set (i2 + j) (addmod (a (i2 + j)) (a (i2 + j + half) * w % MOD))).set
        (i2 + j + half) (submod (a (i2 + j)) (a (i2 + j + half) * w % MOD)) := by
  have hsar : sar len 1 = half := by
    rw [sar_nonneg _ _ (by omega)]
    omega
  have ha1 : a (i2 + j) < MOD := ha _ (by omega)
  have ha2 : a (i2 + j + half) < MOD := ha _ (by omega)
  have hv : a (i2 + j + half) * w % MOD < MOD := Nat.mod_lt _ MOD_pos
  refine ⟨w * wlen % MOD, _, ?_, Nat.mod_lt _ MOD_pos, ?_, rfl, rfl⟩
  · intro f
    rw [inner_loop, hsar, less_than_pos j half (by omega) hj]
    simp only [one_ne_zero, if_false]
    rw [add_small i2 j (by omega), add_small (i2 + j) half (by omega),
      mul_mod_eq F _ _ hF ha2 (lt_trans hwr MOD_lt),
      mul_mod_eq F _ wlen hF hwr (lt_trans hw MOD_lt)]
    simp only [Option.bind_eq_bind, Option.some_bind]
  · intro idx hidx
    unfold Mem.set
    split
    · exact submod_lt _ _ ha1 hv
    · split
      · exact addmod_lt _ _ ha1 hv
      · exact ha idx hidx

theorem stage_step (F n k s root : Nat) (hF : 32 ≤ F) (hF2 : n < F) (hn : n = 2 ^ k)
    (hk : k ≤ 23) (hs : s < k) (hr : root < MOD) (a : Mem)
    (ha : ∀ idx, idx < n → a idx < MOD) :
    ∃ wlen a2, pow_mod F root (sar (MOD - 1) (s + 1)) = some wlen ∧ wlen < MOD ∧
      outer_loop F n (2 ^ (s + 1)) wlen F 0 a = some a2 ∧ ∀ idx, idx < n → a2 idx < MOD := by
  have hn23 : n ≤ 2 ^ 23 := by
    rw [hn]
    exact Nat.pow_le_pow_right (by omega) hk
  have hn23 : n ≤ 8388608 := by simpa using hn23
  have he : (MOD - 1) / 2 ^ (s + 1) < 2147483648 :=
    lt_of_le_of_lt (Nat.div_le_self _ _) (by unfold MOD; omega)
  have hhalf : 2 ^ (s + 1) = 2 * 2 ^ s := by rw [pow_succ]; ring
  have hpos : 0 < 2 ^ s := Nat.two_pow_pos s
  have hm : n = 2 ^ (k - (s + 1)) * 2 ^ (s + 1) := by
    rw [hn, ← pow_add]
    congr 1
    omega
  have hle : 2 ^ (s + 1) ≤ n := by
    rw [hn]
    exact Nat.pow_le_pow_right (by omega) hs
  have hwl : root ^ ((MOD - 1) / 2 ^ (s + 1)) % MOD < MOD := Nat.mod_lt _ MOD_pos
  refine ⟨root ^ ((MOD - 1) / 2 ^ (s + 1)) % MOD,
    stageFn (2 ^ (s + 1)) (root ^ ((MOD - 1) / 2 ^ (s + 1)) % MOD) a n, ?_, hwl, ?_, ?_⟩
  · rw [sar_MOD_pred]
    exact pow_mod_eq F root _ hF hr he
  · have h := outer_loop_eq F n (2 ^ (s + 1)) (2 ^ s) _ (2 ^ (k - (s + 1))) a hF (by omega)
      hhalf hpos hm (by omega) hwl ha (2 ^ (k - (s + 1))) F 0 (by omega)
      (lt_of_le_of_lt (Nat.le_mul_of_pos_right _ (Nat.two_pow_pos (s + 1)))
        (by rw [← hm]; exact hF2))
    rw [zero_mul, stageFn_zero] at h
    exact h
  · intro idx hidx
    exact stageFn_lt (2 ^ (s + 1)) (2 ^ s) _ n a hhalf hpos idx hidx

/-! ## The run of `big_multiply` from arbitrary globals -/

/-- The run of `big_multiply` up to the inverse transform, from any globals: the planned
length, the cleared and loaded buffers, and the coefficients below `n`; from `n` on
`a_ntt` still holds what it held on entry. -/
theorem transform_run (F : Nat) (g : Globals) (A B : List Char) (hA : ValidOperand A)
    (hB : ValidOperand B) (hF : 2097152 < F) :
    ∃ (n k : Nat) (a0 b0 a1 b1 A3 : Mem),
      grow_loop (sub (add A.length B.length) 1) F 1 = some n ∧ n = 2 ^ k ∧ k ≤ 21 ∧
      A.length + B.length - 1 ≤ n ∧
      (n = 1 ∨ n / 2 < A.length + B.length - 1) ∧
      cl_loop n F 0 g.a_ntt g.b_ntt = some (a0, b0) ∧
      ld1 A A.length F 0 a0 = some a1 ∧ ld2 B B.length F 0 b0 = some b1 ∧
      ntt F a1 g.rev_bits n 0 = some (nttFn n k 0 a1, revFn n k g.rev_bits) ∧
      ntt F b1 (revFn n k g.rev_bits) n 0 =
        some (nttFn n k 0 b1, revFn n k (revFn n k g.rev_bits)) ∧
      pm_loop F n (nttFn n k 0 b1) F 0 (nttFn n k 0 a1) = some A3 ∧
      ntt F A3 (revFn n k (revFn n k g.rev_bits)) n 1 =
        some (nttFn n k 1 A3, revFn n k (revFn n k (revFn n k g.rev_bits))) ∧
      (a0 = fun j => if j < n then 0 else g.a_ntt j) ∧
      (b0 = fun j => if j < n then 0 else g.b_ntt j) ∧
      (a1 = fun j => if j < A.length then digitLE A j else a0 j) ∧
      (b1 = fun j => if j < B.length then digitLE B j else b0 j) ∧
      (∀ i, i < n → nttFn n k 1 A3 i = conv (digitLE A) (digitLE B) i) ∧
      (∀ i, n ≤ i → nttFn n k 1 A3 i = g.a_ntt i) := by
  have hl1 : 0 < A.length := List.length_pos.mpr hA.1
  have hl2 : 0 < B.length := List.length_pos.mpr hB.1
  have hA6 := hA.2.1
  have hB6 := hB.2.1
  have h32 : 32 ≤ F := by omega
  obtain ⟨L, hL⟩ : ∃ L, L = A.length + B.length := ⟨_, rfl⟩
  have hadd : add A.length B.length = L := by rw [add_small _ _ (by omega), hL]
  have hsub : sub L 1 = L - 1 := sub_small _ 1 (by omega) (by omega)
  obtain ⟨k, hk1, hk21, hneed, hmin⟩ := grow_loop_eq (L - 1) (by omega) 21 F 0
    (by omega) (by omega) (Or.inl rfl)
  simp only [pow_zero] at hk1
  have hmin2 : 2 ^ k = 1 ∨ 2 ^ k / 2 < L - 1 := by
    rcases hmin with h | h
    · left
      rw [h]
      rfl
    · right
      by_cases hk0 : k = 0
      · subst hk0
        simp at h ⊢
        omega
      · obtain ⟨m, rfl⟩ : ∃ m, k = m + 1 := ⟨k - 1, by omega⟩
        simp only [Nat.add_sub_cancel] at h
        have e : 2 ^ (m + 1) / 2 = 2 ^ m := by
          rw [pow_succ]
          omega
        rw [e]
        exact h
  obtain ⟨n, hn⟩ : ∃ n, n = 2 ^ k := ⟨_, rfl⟩
  rw [← hn] at hneed hk1 hmin2
  have hn21 : n ≤ 2097152 := by
    rw [hn]
    exact Nat.pow_le_pow_right (by omega) hk21
  obtain ⟨a0, ha0⟩ : ∃ a0 : Mem, a0 = fun j => if j < n then 0 else g.a_ntt j := ⟨_, rfl⟩
  obtain ⟨b0, hb0⟩ : ∃ b0 : Mem, b0 = fun j => if j < n then 0 else g.b_ntt j := ⟨_, rfl⟩
  have h_cl : cl_loop n F 0 g.a_ntt g.b_ntt = some (a0, b0) := by
    rw [ha0, hb0]
    exact cl_loop_eq n g.a_ntt g.b_ntt (by omega) n F 0 _ _ (by omega) (by omega)
      (by intro j; rw [if_neg (by omega)]) (by intro j; rw [if_neg (by omega)])
  obtain ⟨a1, ha1⟩ : ∃ a1 : Mem, a1 = fun j => if j < A.length then digitLE A j else a0 j :=
    ⟨_, rfl⟩
  obtain ⟨b1, hb1⟩ : ∃ b1 : Mem, b1 = fun j => if j < B.length then digitLE B j else b0 j :=
    ⟨_, rfl⟩
  have h_ld1 : ld1 A A.length F 0 a0 = some a1 := by
    rw [ha1]
    exact ld1_eq A (by omega) hA.2.2 a0 A.length F 0 a0 (by omega) (by omega)
      (by intro j; rw [if_neg (by omega)])
  have h_ld2 : ld2 B B.length F 0 b0 = some b1 := by
    rw [hb1, ld2_eq_ld1]
    exact ld1_eq B (by omega) hB.2.2 b0 B.length F 0 b0 (by omega) (by omega)
      (by intro j; rw [if_neg (by omega)])
  have ha1d : ∀ i, i < n → a1 i = digitLE A i := by
    intro i hi
    rw [ha1]
    simp only
    split
    · rfl
    · rw [ha0]
      simp only [if_pos hi]
      rw [digitLE_zero A i (by omega)]
  have hb1d : ∀ i, i < n → b1 i = digitLE B i := by
    intro i hi
    rw [hb1]
    simp only
    split
    · rfl
    · rw [hb0]
      simp only [if_pos hi]
      rw [digitLE_zero B i (by omega)]
  have ha1m : ∀ i, i < n → a1 i < MOD := by
    intro i hi
    rw [ha1d i hi]
    have := digitLE_le A hA.2.2 i
    unfold MOD
    omega
  have hb1m : ∀ i, i < n → b1 i < MOD := by
    intro i hi
    rw [hb1d i hi]
    have := digitLE_le B hB.2.2 i
    unfold MOD
    omega
  have h_ntt1 := ntt_eq F n k 0 a1 g.rev_bits h32 (by omega) hn (by omega) ha1m
  have h_ntt2 := ntt_eq F n k 0 b1 (revFn n k g.rev_bits) h32 (by omega) hn (by omega) hb1m
  obtain ⟨A3, hA3⟩ : ∃ A3 : Mem, A3 = fun j => if j < n then
      nttFn n k 0 a1 j * nttFn n k 0 b1 j % MOD else nttFn n k 0 a1 j := ⟨_, rfl⟩
  have h_pm : pm_loop F n (nttFn n k 0 b1) F 0 (nttFn n k 0 a1) = some A3 := by
    rw [hA3]
    exact pm_loop_eq F n _ _ h32 (by omega) (nttFn_lt n k 0 a1 hn ha1m)
      (nttFn_lt n k 0 b1 hn hb1m) n F 0 _ (by omega) (by omega)
      (by intro j; rw [if_neg (by omega)])
  have hA3m : ∀ i, i < n → A3 i < MOD := by
    intro i hi
    rw [hA3]
    simp only [if_pos hi]
    exact Nat.mod_lt _ MOD_pos
  have h_ntt3 := ntt_eq F n k 1 A3 (revFn n k (revFn n k g.rev_bits)) h32 (by omega) hn
    (by omega) hA3m
  have hcoef_n : ∀ i, i < n → nttFn n k 1 A3 i = conv (digitLE A) (digitLE B) i := by
    intro i hin
    rw [hA3]
    exact conv_ntt A B hA hB n k 1 a1 b1 hn (by omega) (by omega) (by omega) ha1d hb1d i hin
  have hframe : ∀ i, n ≤ i → nttFn n k 1 A3 i = g.a_ntt i := by
    intro i hin
    rw [nttFn_frame n k 1 A3 i hin, hA3]
    simp only [if_neg (by omega : ¬ i < n)]
    rw [nttFn_frame n k 0 a1 i hin, ha1]
    simp only [if_neg (by omega : ¬ i < A.length)]
    rw [ha0]
    simp only [if_neg (by omega : ¬ i < n)]
  subst hL
  rw [hadd, hsub]
  exact ⟨n, k, a0, b0, a1, b1, A3, hk1, hn, hk21, hneed, hmin2, h_cl, h_ld1, h_ld2, h_ntt1,
    h_ntt2, h_pm, h_ntt3, ha0, hb0, ha1, hb1, hcoef_n, hframe⟩

/-- The carry stage, the trim and the print loops on arbitrary coefficients: the text is
the decimal representation of the value of the coefficients. -/
theorem carry_stage_print (F : Nat) (c digits : Mem) (L : Nat) (hL1 : 1 ≤ L)
    (hL : L < 2147483000) (hFL : L + 32 < F)
    (hval : ∀ i, i < L → c i + carrySeq c i < 2147483648) :
    ∃ carry D1 L2 D2 L3, car_loop F L c F 0 0 digits = some (carry, D1) ∧
      cc_loop F F carry L D1 = some (L2, D2) ∧ trim_loop D2 F L2 = some L3 ∧
      out_loop D2 F (sub L3 1) [] =
        some (Nat.repr (∑ i in Finset.range L, c i * 10 ^ i)).toList := by
  have hF : 32 ≤ F := by omega
  have h1 := car_loop_gen F L c digits hF (by omega) hval L F 0 digits (by omega)
    (by omega) (by intro j; rw [if_neg (by omega)])
  have hc31 := carrySeq_lt c L hval
  obtain ⟨L2, D2, h2, h3, h4, h5, h6, _, h7⟩ := cc_loop_gen F hF 9 F (carrySeq c L) L
    (fun j => if j < L then (c j + carrySeq c j) % 10 else digits j)
    (by norm_num; omega) hc31 (by omega) (by omega)
  have hD9 : ∀ i, i < L2 → D2 i < 10 := by
    intro i hi
    by_cases hlt : i < L
    · rw [h5 i hlt]
      simp only [if_pos hlt]
      exact Nat.mod_lt _ (by omega)
    · have := h6 i (by omega) hi
      omega
  have hsum : ∑ i in Finset.range L2, D2 i * 10 ^ i = ∑ i in Finset.range L, c i * 10 ^ i := by
    rw [h7, ← carry_sum c L]
    congr 1
    apply Finset.sum_congr rfl
    intro i hi
    simp only [if_pos (Finset.mem_range.mp hi)]
  obtain ⟨L3, h_trim, hL31, hL3L, htop, hzero⟩ := trim_loop_eq D2 (L2 - 1) F L2 (by omega)
    (by omega) (by omega)
  refine ⟨_, _, L2, D2, L3, h1, h2, h_trim, ?_⟩
  rw [sub_small _ 1 (by omega) hL31, out_loop_eq D2 (L3 - 1) F [] (by omega) (by omega),
    ← hsum, sum_trimmed D2 L3 L2 hL3L hzero,
    repr_digits D2 L3 hL31 (fun i hi => hD9 i (by omega)) htop]
  simp
theorem carrySeq_congr (c d : Nat → Nat) : ∀ i, (∀ j, j < i → c j = d j) →
    carrySeq c i = carrySeq d i := by
  intro i
  induction i with
  | zero => intro _; rfl
  | succ i ih =>
    intro h
    unfold carrySeq
    rw [h i (by omega), ih (fun j hj => h j (by omega))]

/-- The text written by `big_multiply` from any globals: the product, plus the entry of
`a_ntt` at index `len1 + len2 - 1` as a digit of that weight whenever the planned length
`n` is `len1 + len2 - 1`, the one case in which the carry loop reads an entry that the
clear loop left as it was. -/
theorem big_multiply_any (F : Nat) (g : Globals) (A B : List Char) (hA : ValidOperand A)
    (hB : ValidOperand B) (hF : 2097152 < F)
    (hs : g.a_ntt (A.length + B.length - 1) < 1073741824) :
    ∃ g2 n, grow_loop (sub (add A.length B.length) 1) F 1 = some n ∧
      big_multiply F g A B A.length B.length = some (g2, (Nat.repr (value A * value B +
        (if n = A.length + B.length - 1 then
          g.a_ntt (A.length + B.length - 1) * 10 ^ (A.length + B.length - 1) else 0))).toList)
    := by
  have hl1 : 0 < A.length := List.length_pos.mpr hA.1
  have hl2 : 0 < B.length := List.length_pos.mpr hB.1
  have hA6 := hA.2.1
  have hB6 := hB.2.1
  obtain ⟨n, k, a0, b0, a1, b1, A3, h_grow, hn, hk21, hneed, -, h_cl, h_ld1, h_ld2, h_ntt1,
    h_ntt2, h_pm, h_ntt3, -, -, -, -, hcoef, hframe⟩ := transform_run F g A B hA hB hF
  obtain ⟨L, hL⟩ : ∃ L, L = A.length + B.length := ⟨_, rfl⟩
  rw [← hL] at hs hneed ⊢
  have hadd : add A.length B.length = L := by rw [add_small _ _ (by omega), hL]
  have hcle : ∀ i, conv (digitLE A) (digitLE B) i ≤ 81000000 := by
    intro i
    have := conv_le A B hA.2.2 hB.2.2 i
    omega
  obtain ⟨c, hc⟩ : ∃ c : Mem, c = nttFn n k 1 A3 := ⟨_, rfl⟩
  rw [← hc] at h_ntt3 hcoef hframe
  have hlow : ∀ i, i < L - 1 → c i = conv (digitLE A) (digitLE B) i :=
    fun i hi => hcoef i (by omega)
  have htop : c (L - 1) = if n = L - 1 then g.a_ntt (L - 1) else 0 := by
    by_cases hnl : n = L - 1
    · rw [if_pos hnl, hframe (L - 1) (by omega)]
    · rw [if_neg hnl, hcoef (L - 1) (by omega), hL, conv_zero A B _ (le_refl _) hA.1]
  have hcar : ∀ i, i ≤ L - 1 → carrySeq c i = carrySeq (conv (digitLE A) (digitLE B)) i :=
    fun i hi => carrySeq_congr c _ i (fun j hj => hlow j (by omega))
  have hval : ∀ i, i < L → c i + carrySeq c i < 2147483648 := by
    intro i hi
    rw [hcar i (by omega)]
    have h2 := carrySeq_le (conv (digitLE A) (digitLE B)) 81000000 hcle i
    by_cases hi2 : i < L - 1
    · rw [hlow i hi2]
      have := hcle i
      omega
    · have h3 := carrySeq_le (conv (digitLE A) (digitLE B)) 81000000 hcle (L - 1)
      have : i = L - 1 := by omega
      rw [this, htop]
      split <;> omega
  obtain ⟨carry, D1, L2, D2, L3, h_car, h_cc, h_trim, h_out⟩ :=
    carry_stage_print F c g.digits L (by omega) (by omega) (by omega) hval
  have hsum : ∑ i in Finset.range L, c i * 10 ^ i = value A * value B +
      (if n = L - 1 then g.a_ntt (L - 1) * 10 ^ (L - 1) else 0) := by
    have hv := value_mul_eq A B hA.1
    rw [← hL] at hv
    obtain ⟨M, hM⟩ : ∃ M, L = M + 1 := ⟨L - 1, by omega⟩
    have hLM : L - 1 = M := by omega
    have hz : conv (digitLE A) (digitLE B) M = 0 := conv_zero A B M (by omega) hA.1
    have e1 : ∑ i in Finset.range (M + 1), c i * 10 ^ i =
        ∑ i in Finset.range M, conv (digitLE A) (digitLE B) i * 10 ^ i + c M * 10 ^ M := by
      rw [Finset.sum_range_succ]
      congr 1
      apply Finset.sum_congr rfl
      intro i hi
      rw [hlow i (by have := Finset.mem_range.mp hi; omega)]
    have e2 : value A * value B =
        ∑ i in Finset.range M, conv (digitLE A) (digitLE B) i * 10 ^ i := by
      rw [hv, hM, Finset.sum_range_succ, hz]
      simp
    rw [hLM] at htop ⊢
    rw [hM, e1, e2, htop]
    split <;> simp
  rw [hsum] at h_out
  refine ⟨Globals.mk c (nttFn n k 0 b1) (revFn n k (revFn n k (revFn n k g.rev_bits))) D2,
    n, h_grow, ?_⟩
  have h_grow2 := h_grow
  rw [hadd] at h_grow2
  unfold big_multiply
  simp only [hadd, h_grow2, h_cl, h_ld1, h_ld2, h_ntt1, h_ntt2, h_pm, h_ntt3, h_car, h_cc,
    h_trim, h_out, Option.bind_eq_bind, Option.some_bind, pure]

theorem valid_single_zero : ValidOperand ['0'] := ⟨by decide, by decide, by decide⟩

theorem mainDirect_eq (F : Nat) (A B : List Char) (hA : ValidOperand A) (hB : ValidOperand B)
    (hF : 2097152 < F) :
    mainDirect F Globals.zero [A, B] =
      some ((Nat.repr (value A * value B)).toList ++ ['\n']) := by
  have hA6 := hA.2.1
  have hB6 := hB.2.1
  obtain ⟨g2, h⟩ := big_multiply_eq F Globals.zero A B hA hB hF rfl
  unfold mainDirect
  simp only
  rw [get_length_valid F A hA (by omega), get_length_valid F B hB (by omega)]
  simp only [Option.bind_eq_bind, Option.some_bind]
  rw [h]
  rfl

/-- The run of `big_multiply` on `1` and `1` when `a_ntt[1]` holds `2` on entry. -/
theorem stale_run (F : Nat) (hF : 2097152 < F) (g : Globals) (hg : g.a_ntt 1 = 2) :
    ∃ g2, big_multiply F g ['1'] ['1'] 1 1 = some (g2, ['2', '1']) := by
  have hv : ValidOperand ['1'] := ⟨by decide, by decide, by decide⟩
  obtain ⟨g2, n, h1, h2⟩ := big_multiply_any F g ['1'] ['1'] hv hv hF
    (by show g.a_ntt 1 < 1073741824; rw [hg]; omega)
  have hn : n = 1 := by
    obtain ⟨f, rfl⟩ : ∃ f, F = f + 1 := ⟨F - 1, by omega⟩
    have e : sub (add ['1'].length ['1'].length) 1 = 1 := by
      show sub (add 1 1) 1 = 1
      rw [add_small 1 1 (by omega), sub_small 2 1 (by omega) (by omega)]
    rw [e, grow_loop, less_than_not 1 1 (by omega) (by omega) (le_refl _)] at h1
    simp only [if_true] at h1
    exact (Option.some.inj h1).symm
  refine ⟨g2, ?_⟩
  have e2 : (Nat.repr (value ['1'] * value ['1'] +
      (if n = ['1'].length + ['1'].length - 1 then
        g.a_ntt (['1'].length + ['1'].length - 1) * 10 ^ (['1'].length + ['1'].length - 1)
      else 0))).toList = ['2', '1'] := by
    have e3 : ['1'].length + ['1'].length - 1 = 1 := rfl
    rw [e3, if_pos hn, hg]
    decide
  rw [e2] at h2
  exact h2

/-! ## The claims -/

/-- C1: for every pair of non-empty decimal digit strings `A` and `B` of at most `10 ^ 6`
digits each (leading zeros allowed), the program run from zero-initialised global buffers
with fuel above `2 ^ 21` terminates and prints exactly the canonical decimal representation
of `value A * value B` followed by a newline; operand lengths with
`lenA + lenB - 1` a power of two or one less are included. -/
theorem C1_prints_product (A B : List Char) (hA : ValidOperand A) (hB : ValidOperand B)
    (F : Nat) (hF : 2097152 < F) :
    main F [A, B] = some ((Nat.repr (value A * value B)).toList ++ ['\n']) :=
  multiply_eq F A B hA hB hF

theorem C1_prints_product_witness :
    ValidOperand ['9'] ∧ ValidOperand ['9'] ∧ 2097152 < 2097153 ∧
      main 2097153 [['9'], ['9']] =
        some ((Nat.repr (value ['9'] * value ['9'])).toList ++ ['\n']) :=
  ⟨⟨by decide, by decide, by decide⟩, ⟨by decide, by decide, by decide⟩, by decide,
    C1_prints_product ['9'] ['9'] ⟨by decide, by decide, by decide⟩
      ⟨by decide, by decide, by decide⟩ 2097153 (by decide)⟩

/-- C2: the program prints `56088` for the operands `123` and `456`, and
`999999999998000000000001` for `999999999999` and `999999999999` (each followed by the
newline that ends the output line). -/
theorem C2_known_values (F : Nat) (hF : 2097152 < F) :
    main F ["123".toList, "456".toList] = some ("56088".toList ++ ['\n']) ∧
    main F ["999999999999".toList, "999999999999".toList] =
      some ("999999999998000000000001".toList ++ ['\n']) := by
  constructor
  · have h := multiply_eq F "123".toList "456".toList ⟨by decide, by decide, by decide⟩
      ⟨by decide, by decide, by decide⟩ hF
    unfold multiply at h
    rw [h]
    decide
  · have h := multiply_eq F "999999999999".toList "999999999999".toList
      ⟨by decide, by decide, by decide⟩ ⟨by decide, by decide, by decide⟩ hF
    unfold multiply at h
    rw [h]
    decide

theorem C2_known_values_witness :
    2097152 < 2097153 ∧
    main 2097153 ["123".toList, "456".toList] = some ("56088".toList ++ ['\n']) ∧
    main 2097153 ["999999999999".toList, "999999999999".toList] =
      some ("999999999998000000000001".toList ++ ['\n']) :=
  ⟨by decide, C2_known_values 2097153 (by decide)⟩

/-- C3: for all valid operands `A` and `B` the program terminates on `(A, B)` and on
`(B, A)` and writes the same text, character for character. -/
theorem C3_commutative (A B : List Char) (hA : ValidOperand A) (hB : ValidOperand B)
    (F : Nat) (hF : 2097152 < F) :
    ∃ out, main F [A, B] = some out ∧ main F [B, A] = some out := by
  refine ⟨(Nat.repr (value A * value B)).toList ++ ['\n'], multiply_eq F A B hA hB hF, ?_⟩
  have h := multiply_eq F B A hB hA hF
  rw [Nat.mul_comm] at h
  exact h

theorem C3_commutative_witness :
    ValidOperand "12".toList ∧ ValidOperand "345".toList ∧ 2097152 < 2097153 ∧
      ∃ out, main 2097153 ["12".toList, "345".toList] = some out ∧
        main 2097153 ["345".toList, "12".toList] = some out :=
  ⟨⟨by decide, by decide, by decide⟩, ⟨by decide, by decide, by decide⟩, by decide,
    C3_commutative "12".toList "345".toList ⟨by decide, by decide, by decide⟩
      ⟨by decide, by decide, by decide⟩ 2097153 (by decide)⟩

/-- C4: for every valid operand `A` the program writes `0` (and the newline) on `(A, "0")`
and on `("0", A)`; the zero test of `main` is non-zero exactly for the operand of length 1
whose only character is `'0'`, and when it is non-zero for either operand `main` writes
`0` whatever the globals hold and with fuel that only has to cover `get_length`, that is
without running `big_multiply`. -/
theorem C4_zero_absorbs (A : List Char) (hA : ValidOperand A) (F : Nat) (hF : A.length < F) :
    main F [A, ['0']] = some ['0', '\n'] ∧ main F [['0'], A] = some ['0', '\n'] ∧
    (is_zero A A.length ≠ 0 ↔ A.length = 1 ∧ charAt A 0 = 48) ∧
    (∀ (B : List Char) (g : Globals), ValidOperand B → B.length < F →
      (is_zero A A.length ≠ 0 ∨ is_zero B B.length ≠ 0) →
      mainFrom F g [A, B] = some ['0', '\n']) := by
  have hl := valid_length_pos A hA
  have hz : ValidOperand ['0'] := ⟨by decide, by decide, by decide⟩
  have hiff : ∀ (C : List Char), ValidOperand C → (is_zero C C.length ≠ 0 ↔ C = ['0']) := by
    intro C hC
    rw [is_zero_eq C hC]
    split <;> simp [*]
  refine ⟨?_, ?_, ?_, ?_⟩
  · exact mainFrom_zero F _ A ['0'] hA hz hF (by show 1 < F; omega) (Or.inr rfl) []
  · exact mainFrom_zero F _ ['0'] A hz hA (by show 1 < F; omega) hF (Or.inl rfl) []
  · rw [hiff A hA, single_zero_iff]
  · intro B g hB hFB h
    apply mainFrom_zero F g A B hA hB hF hFB _ []
    rcases h with h | h
    · exact Or.inl ((hiff A hA).mp h)
    · exact Or.inr ((hiff B hB).mp h)

theorem C4_zero_absorbs_witness :
    ValidOperand "007".toList ∧ "007".toList.length < 4 ∧
    main 4 ["007".toList, ['0']] = some ['0', '\n'] ∧
    main 4 [['0'], "007".toList] = some ['0', '\n'] ∧
    (is_zero "007".toList "007".toList.length ≠ 0 ↔
      "007".toList.length = 1 ∧ charAt "007".toList 0 = 48) ∧
    (∀ (B : List Char) (g : Globals), ValidOperand B → B.length < 4 →
      (is_zero "007".toList "007".toList.length ≠ 0 ∨ is_zero B B.length ≠ 0) →
      mainFrom 4 g ["007".toList, B] = some ['0', '\n']) :=
  ⟨⟨by decide, by decide, by decide⟩, by decide,
    C4_zero_absorbs "007".toList ⟨by decide, by decide, by decide⟩ 4 (by decide)⟩

/-- C5: for every valid operand `A` the program writes, on `(A, "1")`, the operand `A` with
its leading zeros removed (and the newline), which is `0` when `A` consists only of zeros. -/
theorem C5_identity (A : List Char) (hA : ValidOperand A) (F : Nat) (hF : 2097152 < F) :
    main F [A, ['1']] = some (canonical A ++ ['\n']) ∧
    ((∀ c ∈ A, c = '0') → main F [A, ['1']] = some ['0', '\n']) := by
  have h := multiply_eq F A ['1'] hA ⟨by decide, by decide, by decide⟩ hF
  have hv : value ['1'] = 1 := rfl
  rw [hv, mul_one, repr_value A hA.2.2] at h
  refine ⟨h, ?_⟩
  intro hall
  unfold multiply at h
  rw [h, canonical_all_zero A hall]
  rfl

theorem C5_identity_witness :
    ValidOperand "0042".toList ∧ 2097152 < 2097153 ∧
    main 2097153 ["0042".toList, ['1']] = some (canonical "0042".toList ++ ['\n']) ∧
    ((∀ c ∈ "0042".toList, c = '0') → main 2097153 ["0042".toList, ['1']] = some ['0', '\n']) :=
  ⟨⟨by decide, by decide, by decide⟩, by decide,
    C5_identity "0042".toList ⟨by decide, by decide, by decide⟩ 2097153 (by decide)⟩

/-- C6: for all valid operands, also with leading zeros or made only of zeros, the text
printed before the newline is a non-empty string of decimal digits whose first character
is `'0'` only if the whole string is `"0"`. -/
theorem C6_no_leading_zero (A B : List Char) (hA : ValidOperand A) (hB : ValidOperand B)
    (F : Nat) (hF : 2097152 < F) :
    ∃ s, main F [A, B] = some (s ++ ['\n']) ∧ s ≠ [] ∧
      (∀ c ∈ s, 48 ≤ c.toNat ∧ c.toNat ≤ 57) ∧ (s.head? = some '0' → s = ['0']) := by
  obtain ⟨D, L2, h1, h2, h3, h4⟩ := multiply_digits F A B hA hB hF
  obtain ⟨t, ht⟩ := outChars_head D (L2 - 1) (h3 _ (by omega))
  refine ⟨outChars D (L2 - 1), h1, ?_, ?_, ?_⟩
  · rw [ht]
    simp
  · exact outChars_mem D (L2 - 1) (fun j hj => h3 j (by omega))
  · intro hh
    rw [ht] at hh
    simp only [List.head?_cons, Option.some.injEq] at hh
    have hd0 := digitChar_eq_zero _ (h3 _ (by omega)) hh
    have hL : L2 = 1 := by
      rcases h4 with h | h
      · exact h
      · exact absurd hd0 h
    subst hL
    simp only [Nat.sub_self] at hd0 ⊢
    unfold outChars
    rw [printInt_digit _ (h3 0 (by omega)), hd0]
    rfl

theorem C6_no_leading_zero_witness :
    ValidOperand "000".toList ∧ ValidOperand "000".toList ∧ 2097152 < 2097153 ∧
    ∃ s, main 2097153 ["000".toList, "000".toList] = some (s ++ ['\n']) ∧ s ≠ [] ∧
      (∀ c ∈ s, 48 ≤ c.toNat ∧ c.toNat ≤ 57) ∧ (s.head? = some '0' → s = ['0']) :=
  ⟨⟨by decide, by decide, by decide⟩, ⟨by decide, by decide, by decide⟩, by decide,
    C6_no_leading_zero "000".toList "000".toList ⟨by decide, by decide, by decide⟩
      ⟨by decide, by decide, by decide⟩ 2097153 (by decide)⟩

/-- C7: for every `n = 2 ^ k` with `k ≤ 23` and every buffer `x` whose first `n` values lie
in `[0, MOD - 1]`, `ntt(x, n, 0)` followed by `ntt(x, n, 1)` terminates (fuel above `n` and
at least 32) and leaves the buffer equal to the original `x` at every index. -/
theorem C7_round_trip (k : Nat) (hk : k ≤ 23) (x rev : Mem) (hx : ∀ i, i < 2 ^ k → x i < MOD)
    (F : Nat) (hF : 2 ^ k < F) (hF32 : 32 ≤ F) :
    ∃ y rev1 rev2, ntt F x rev (2 ^ k) 0 = some (y, rev1) ∧
      ntt F y rev1 (2 ^ k) 1 = some (x, rev2) := by
  refine ⟨nttFn (2 ^ k) k 0 x, revFn (2 ^ k) k rev, revFn (2 ^ k) k (revFn (2 ^ k) k rev),
    ntt_eq F (2 ^ k) k 0 x rev hF32 hF rfl hk hx, ?_⟩
  rw [ntt_eq F (2 ^ k) k 1 _ _ hF32 hF rfl hk (nttFn_lt (2 ^ k) k 0 x rfl hx),
    nttFn_roundtrip (2 ^ k) k 1 x rfl hk (by decide) hx]

theorem C7_round_trip_witness :
    2 ≤ 23 ∧ (∀ i, i < 2 ^ 2 → (fun j => 7 * j + 3) i < MOD) ∧ 2 ^ 2 < 32 ∧ 32 ≤ 32 ∧
    ∃ y rev1 rev2, ntt 32 (fun j => 7 * j + 3) (fun _ => 0) (2 ^ 2) 0 = some (y, rev1) ∧
      ntt 32 y rev1 (2 ^ 2) 1 = some ((fun j => 7 * j + 3), rev2) :=
  ⟨by decide, fun i hi => by unfold MOD; simp only; omega, by decide, by decide,
    C7_round_trip 2 (by decide) (fun j => 7 * j + 3) (fun _ => 0)
      (fun i hi => by unfold MOD; simp only; omega) 32 (by decide) (by decide)⟩

/-- C8: for all `x`, `y` in `[0, MOD - 1]`, `addmod x y = (x + y) mod MOD` and `submod x y`
is the non-negative residue of `x - y` modulo `MOD`; both results lie in `[0, MOD - 1]`. -/
theorem C8_addmod_submod (x y : Nat) (hx : x < MOD) (hy : y < MOD) :
    addmod x y = (x + y) % MOD ∧
    ((submod x y : Nat) : Int) = ((x : Int) - (y : Int)) % (MOD : Int) ∧
    addmod x y < MOD ∧ submod x y < MOD := by
  refine ⟨addmod_eq x y hx hy, ?_, addmod_lt x y hx hy, submod_lt x y hx hy⟩
  rw [submod_eq x y hx hy]
  unfold MOD at *
  omega

theorem C8_addmod_submod_witness :
    5 < MOD ∧ 998244352 < MOD ∧
    addmod 5 998244352 = (5 + 998244352) % MOD ∧
    ((submod 5 998244352 : Nat) : Int) =
      (((5 : Nat) : Int) - ((998244352 : Nat) : Int)) % (MOD : Int) ∧
    addmod 5 998244352 < MOD ∧ submod 5 998244352 < MOD :=
  ⟨by decide, by decide, C8_addmod_submod 5 998244352 (by decide) (by decide)⟩

/-- C9: for every `x` in `[0, MOD - 1]` and every `y` in `[0, 2 ^ 31)` the double-and-add
loop of `mul_mod` terminates within 32 passes and returns `(x * y) mod MOD`, which lies in
`[0, MOD - 1]`; at every pass the sums `res + x` and `x + x` are at most `2 * MOD - 2`, which
is below `2 ^ 31`, so the 32-bit additions do not wrap. -/
theorem C9_mul_mod (x y : Nat) (hx : x < MOD) (hy : y < 2147483648) (F : Nat) (hF : 32 ≤ F) :
    mul_mod F x y = some ((x * y) % MOD) ∧ (x * y) % MOD < MOD ∧
    2 * MOD - 2 < 2147483648 ∧
    ∀ j, (mul_body^[j] ⟨x, y, 0⟩).res + (mul_body^[j] ⟨x, y, 0⟩).x ≤ 2 * MOD - 2 ∧
      (mul_body^[j] ⟨x, y, 0⟩).x + (mul_body^[j] ⟨x, y, 0⟩).x ≤ 2 * MOD - 2 ∧
      add (mul_body^[j] ⟨x, y, 0⟩).res (mul_body^[j] ⟨x, y, 0⟩).x =
        (mul_body^[j] ⟨x, y, 0⟩).res + (mul_body^[j] ⟨x, y, 0⟩).x ∧
      add (mul_body^[j] ⟨x, y, 0⟩).x (mul_body^[j] ⟨x, y, 0⟩).x =
        (mul_body^[j] ⟨x, y, 0⟩).x + (mul_body^[j] ⟨x, y, 0⟩).x := by
  refine ⟨mul_mod_eq F x y hF hx hy, Nat.mod_lt _ MOD_pos, by unfold MOD; omega, ?_⟩
  intro j
  obtain ⟨h1, h2, _⟩ := mul_body_iterate x y hx hy j
  generalize mul_body^[j] ⟨x, y, 0⟩ = s at h1 h2
  unfold MOD at *
  refine ⟨by omega, by omega, add_small _ _ (by omega), add_small _ _ (by omega)⟩

theorem C9_mul_mod_witness :
    998244352 < MOD ∧ 2147483647 < 2147483648 ∧ 32 ≤ 32 ∧
    mul_mod 32 998244352 2147483647 = some ((998244352 * 2147483647) % MOD) ∧
    (998244352 * 2147483647) % MOD < MOD ∧
    2 * MOD - 2 < 2147483648 ∧
    ∀ j, (mul_body^[j] ⟨998244352, 2147483647, 0⟩).res +
        (mul_body^[j] ⟨998244352, 2147483647, 0⟩).x ≤ 2 * MOD - 2 ∧
      (mul_body^[j] ⟨998244352, 2147483647, 0⟩).x +
        (mul_body^[j] ⟨998244352, 2147483647, 0⟩).x ≤ 2 * MOD - 2 ∧
      add (mul_body^[j] ⟨998244352, 2147483647, 0⟩).res
          (mul_body^[j] ⟨998244352, 2147483647, 0⟩).x =
        (mul_body^[j] ⟨998244352, 2147483647, 0⟩).res +
          (mul_body^[j] ⟨998244352, 2147483647, 0⟩).x ∧
      add (mul_body^[j] ⟨998244352, 2147483647, 0⟩).x
          (mul_body^[j] ⟨998244352, 2147483647, 0⟩).x =
        (mul_body^[j] ⟨998244352, 2147483647, 0⟩).x +
          (mul_body^[j] ⟨998244352, 2147483647, 0⟩).x :=
  ⟨by decide, by decide, by decide,
    C9_mul_mod 998244352 2147483647 (by decide) (by decide) 32 (by decide)⟩

/-- C10: for every `a` in `[0, MOD - 1]` and every exponent `e` in `[0, 2 ^ 31)`,
`pow_mod(a, e)` terminates and returns `a ^ e mod MOD`, which lies in `[0, MOD - 1]`; and
`pow_mod(a, 0) = 1` for every `a`. -/
theorem C10_pow_mod (a e : Nat) (ha : a < MOD) (he : e < 2147483648) (F : Nat) (hF : 32 ≤ F) :
    pow_mod F a e = some (a ^ e % MOD) ∧ a ^ e % MOD < MOD ∧
    ∀ b : Nat, pow_mod F b 0 = some 1 := by
  refine ⟨pow_mod_eq F a e hF ha he, Nat.mod_lt _ MOD_pos, ?_⟩
  intro b
  obtain ⟨f, rfl⟩ : ∃ f, F = f + 1 := ⟨F - 1, by omega⟩
  unfold pow_mod pow_loop
  simp

theorem C10_pow_mod_witness :
    3 < MOD ∧ 100 < 2147483648 ∧ 32 ≤ 32 ∧
    pow_mod 32 3 100 = some (3 ^ 100 % MOD) ∧ 3 ^ 100 % MOD < MOD ∧
    ∀ b : Nat, pow_mod 32 b 0 = some 1 :=
  ⟨by decide, by decide, by decide, C10_pow_mod 3 100 (by decide) (by decide) 32 (by decide)⟩

/-- C11: for every `x` in `[1, MOD - 1]` the value `pow_mod(x, MOD - 2)` is the inverse of `x`:
`mul_mod(x, pow_mod(x, MOD - 2)) = 1`; in particular `root_inv = pow_mod(3, MOD - 2)` gives
`mul_mod(3, root_inv) = 1`, and `n_inv = pow_mod(n, MOD - 2)` gives `mul_mod(n, n_inv) = 1`
for every transform length `n = 2 ^ k`, `k ≤ 23`. -/
theorem C11_pow_mod_inverse (x : Nat) (h1 : 1 ≤ x) (hx : x < MOD) (F : Nat) (hF : 32 ≤ F) :
    (∃ inv, pow_mod F x (sub MOD 2) = some inv ∧ mul_mod F x inv = some 1) ∧
    (∃ root_inv, pow_mod F G (sub MOD 2) = some root_inv ∧ mul_mod F G root_inv = some 1) ∧
    (∀ k, k ≤ 23 → ∃ n_inv, pow_mod F (2 ^ k) (sub MOD 2) = some n_inv ∧
      mul_mod F (2 ^ k) n_inv = some 1) := by
  refine ⟨⟨_, inverse_run F x hF h1 hx⟩,
    ⟨_, inverse_run F G hF (by unfold G; omega) (by unfold G MOD; omega)⟩, ?_⟩
  intro k hk
  have h23 : (2 : Nat) ^ k ≤ 2 ^ 23 := Nat.pow_le_pow_right (by omega) hk
  exact ⟨_, inverse_run F (2 ^ k) hF Nat.one_le_two_pow (by unfold MOD; omega)⟩

theorem C11_pow_mod_inverse_witness :
    1 ≤ 2 ∧ 2 < MOD ∧ 32 ≤ 32 ∧
    (∃ inv, pow_mod 32 2 (sub MOD 2) = some inv ∧ mul_mod 32 2 inv = some 1) ∧
    (∃ root_inv, pow_mod 32 G (sub MOD 2) = some root_inv ∧ mul_mod 32 G root_inv = some 1) ∧
    (∀ k, k ≤ 23 → ∃ n_inv, pow_mod 32 (2 ^ k) (sub MOD 2) = some n_inv ∧
      mul_mod 32 (2 ^ k) n_inv = some 1) :=
  ⟨by decide, by decide, by decide, C11_pow_mod_inverse 2 (by decide) (by decide) 32 (by decide)⟩

/-- C12: for `n = 2 ^ k` within the table capacity `2 ^ 21`, `build_rev(n, k)` terminates and
leaves in `rev_bits[i]`, for every `i < n`, the number whose `k`-bit representation is the
reverse of that of `i`, that is the sum over `b < k` of `bit_b(i) * 2 ^ (k - 1 - b)`; on
`[0, n)` the table is an involution and a permutation, and entries at indices `≥ n` are
unchanged. -/
theorem C12_build_rev (k : Nat) (hk : k ≤ 21) (rev : Mem) (F : Nat) (hF : 2 ^ k < F) :
    ∃ rev2, build_rev F (2 ^ k) k rev = some rev2 ∧
      (∀ i, i < 2 ^ k → rev2 i = ∑ b in Finset.range k, (i / 2 ^ b % 2) * 2 ^ (k - 1 - b)) ∧
      (∀ i, i < 2 ^ k → rev2 i < 2 ^ k ∧ rev2 (rev2 i) = i) ∧
      (∀ i j, i < 2 ^ k → j < 2 ^ k → rev2 i = rev2 j → i = j) ∧
      (∀ j, j < 2 ^ k → ∃ i, i < 2 ^ k ∧ rev2 i = j) ∧
      (∀ i, 2 ^ k ≤ i → rev2 i = rev i) := by
  have h21 : (2 : Nat) ^ k ≤ 2 ^ 21 := Nat.pow_le_pow_right (by omega) hk
  have hkn : k < 2 ^ k := Nat.lt_two_pow k
  have hval : ∀ i, i < 2 ^ k →
      (fun j => if j < 2 ^ k then bitrev k j else rev j) i = bitrev k i := by
    intro i hi
    simp only [if_pos hi]
  have hinv : ∀ i, i < 2 ^ k → (fun j => if j < 2 ^ k then bitrev k j else rev j)
      ((fun j => if j < 2 ^ k then bitrev k j else rev j) i) = i := by
    intro i hi
    rw [hval i hi, hval _ (bitrev_lt k i), bitrev_bitrev k i hi]
  refine ⟨fun j => if j < 2 ^ k then bitrev k j else rev j,
    build_rev_eq F (2 ^ k) k rev (by omega) (by omega) hF (by omega), ?_, ?_, ?_, ?_, ?_⟩
  · intro i hi
    rw [hval i hi, bitrev_eq_sum]
  · intro i hi
    refine ⟨?_, hinv i hi⟩
    rw [hval i hi]
    exact bitrev_lt k i
  · intro i j hi hj h
    rw [← hinv i hi, ← hinv j hj, h]
  · intro j hj
    refine ⟨bitrev k j, bitrev_lt k j, ?_⟩
    rw [hval _ (bitrev_lt k j), bitrev_bitrev k j hj]
  · intro i hi
    simp only [if_neg (by omega : ¬ i < 2 ^ k)]

theorem C12_build_rev_witness :
    3 ≤ 21 ∧ 2 ^ 3 < 9 ∧
    ∃ rev2, build_rev 9 (2 ^ 3) 3 (fun _ => 5) = some rev2 ∧
      (∀ i, i < 2 ^ 3 → rev2 i = ∑ b in Finset.range 3, (i / 2 ^ b % 2) * 2 ^ (3 - 1 - b)) ∧
      (∀ i, i < 2 ^ 3 → rev2 i < 2 ^ 3 ∧ rev2 (rev2 i) = i) ∧
      (∀ i j, i < 2 ^ 3 → j < 2 ^ 3 → rev2 i = rev2 j → i = j) ∧
      (∀ j, j < 2 ^ 3 → ∃ i, i < 2 ^ 3 ∧ rev2 i = j) ∧
      (∀ i, 2 ^ 3 ≤ i → rev2 i = (fun _ => 5) i) :=
  ⟨by decide, by decide, C12_build_rev 3 (by decide) (fun _ => 5) 9 (by decide)⟩

/-- C13: for operand lengths `len1`, `len2` in `[1, 10 ^ 6]` the loop `grow_loop` at the start
of `big_multiply` terminates with a length `n` that is a power of two, is at least
`len1 + len2 - 1`, and is minimal: `n = 1` or `n / 2 < len1 + len2 - 1`. -/
theorem C13_transform_length (len1 len2 : Nat) (h1 : 1 ≤ len1) (h2 : len1 ≤ 1000000)
    (h3 : 1 ≤ len2) (h4 : len2 ≤ 1000000) (F : Nat) (hF : 21 < F) :
    ∃ n k, grow_loop (sub (add len1 len2) 1) F 1 = some n ∧ n = 2 ^ k ∧
      len1 + len2 - 1 ≤ n ∧ (n = 1 ∨ n / 2 < len1 + len2 - 1) := by
  rw [add_small _ _ (by omega), sub_small _ 1 (by omega) (by omega)]
  obtain ⟨k, hk1, _, hneed, hmin⟩ := grow_loop_eq (len1 + len2 - 1) (by omega) 21 F 0
    (by omega) (by omega) (Or.inl rfl)
  simp only [pow_zero] at hk1
  refine ⟨2 ^ k, k, hk1, rfl, hneed, ?_⟩
  rcases hmin with h | h
  · left
    rw [h]
    rfl
  · right
    by_cases hk0 : k = 0
    · subst hk0
      simp at h ⊢
      omega
    · obtain ⟨m, rfl⟩ : ∃ m, k = m + 1 := ⟨k - 1, by omega⟩
      simp only [Nat.add_sub_cancel] at h
      have e : 2 ^ (m + 1) / 2 = 2 ^ m := by
        rw [pow_succ]
        omega
      rw [e]
      exact h

theorem C13_transform_length_witness :
    1 ≤ 2 ∧ 2 ≤ 1000000 ∧ 1 ≤ 3 ∧ 3 ≤ 1000000 ∧ 21 < 22 ∧
    ∃ n k, grow_loop (sub (add 2 3) 1) 22 1 = some n ∧ n = 2 ^ k ∧
      2 + 3 - 1 ≤ n ∧ (n = 1 ∨ n / 2 < 2 + 3 - 1) :=
  ⟨by decide, by decide, by decide, by decide, by decide,
    C13_transform_length 2 3 (by decide) (by decide) (by decide) (by decide) 22 (by decide)⟩

/-- C15: when fewer than two tokens are available, `main` returns having written nothing,
not even a newline; this holds for any fuel, also zero, and any globals, so neither
`get_length` nor `big_multiply` is run. -/
theorem C15_too_few_tokens (F : Nat) (g : Globals) (tokens : List (List Char))
    (h : tokens.length < 2) :
    mainFrom F g tokens = some [] ∧ main F tokens = some [] := by
  match tokens, h with
  | [], _ => exact ⟨rfl, rfl⟩
  | [_], _ => exact ⟨rfl, rfl⟩

theorem C15_too_few_tokens_witness :
    ["123".toList].length < 2 ∧
    mainFrom 0 Globals.zero ["123".toList] = some [] ∧ main 0 ["123".toList] = some [] :=
  ⟨by decide, C15_too_few_tokens 0 Globals.zero ["123".toList] (by decide)⟩

/-- C20: in the carry stage of `big_multiply` (the loop `car_loop` over `res_len` positions
followed by the flush `cc_loop`), for any coefficients `c` for which every `c[i] + carry`
formed stays non-negative and below `2 ^ 31` (the carry entering position `i` being
`carrySeq c i`), both loops terminate, every stored digit lies in `[0, 9]`, and the sum of
`digits[i] * 10 ^ i` over the final `res_len` positions is the sum of `c[i] * 10 ^ i` over
the initial ones. -/
theorem C20_carry_stage (F : Nat) (hF : 32 ≤ F) (c digits : Mem) (res_len : Nat)
    (hL : res_len < 2147483000) (hFL : res_len < F)
    (hval : ∀ i, i < res_len → c i + carrySeq c i < 2147483648) :
    ∃ carry D1 res_len2 D2,
      car_loop F res_len c F 0 0 digits = some (carry, D1) ∧ carry = carrySeq c res_len ∧
      cc_loop F F carry res_len D1 = some (res_len2, D2) ∧
      (∀ i, i < res_len2 → D2 i ≤ 9) ∧
      ∑ i in Finset.range res_len2, D2 i * 10 ^ i =
        ∑ i in Finset.range res_len, c i * 10 ^ i := by
  have h1 := car_loop_gen F res_len c digits hF (by omega) hval res_len F 0 digits (by omega)
    hFL (by intro j; rw [if_neg (by omega)])
  have hc31 := carrySeq_lt c res_len hval
  obtain ⟨L2, D2, h2, h3, h4, h5, h6, _, h7⟩ := cc_loop_gen F hF 9 F (carrySeq c res_len) res_len
    (fun j => if j < res_len then (c j + carrySeq c j) % 10 else digits j)
    (by norm_num; omega) hc31 (by omega) (by omega)
  refine ⟨carrySeq c res_len, _, L2, D2, h1, rfl, h2, ?_, ?_⟩
  · intro i hi
    by_cases hlt : i < res_len
    · rw [h5 i hlt]
      simp only [if_pos hlt]
      have := Nat.mod_lt (c i + carrySeq c i) (by omega : 0 < 10)
      omega
    · exact h6 i (by omega) hi
  · rw [h7, ← carry_sum c res_len]
    congr 1
    apply Finset.sum_congr rfl
    intro i hi
    simp only [if_pos (Finset.mem_range.mp hi)]

theorem C20_carry_stage_witness :
    32 ≤ 32 ∧ 3 < 2147483000 ∧ 3 < 32 ∧
    (∀ i, i < 3 → (fun j => 2000000000 - 900000000 * j) i +
      carrySeq (fun j => 2000000000 - 900000000 * j) i < 2147483648) ∧
    ∃ carry D1 res_len2 D2,
      car_loop 32 3 (fun j => 2000000000 - 900000000 * j) 32 0 0 (fun _ => 0) =
        some (carry, D1) ∧
      carry = carrySeq (fun j => 2000000000 - 900000000 * j) 3 ∧
      cc_loop 32 32 carry 3 D1 = some (res_len2, D2) ∧
      (∀ i, i < res_len2 → D2 i ≤ 9) ∧
      ∑ i in Finset.range res_len2, D2 i * 10 ^ i =
        ∑ i in Finset.range 3, (fun j => 2000000000 - 900000000 * j) i * 10 ^ i :=
  ⟨by decide, by decide, by decide,
    fun i hi => by interval_cases i <;> simp [carrySeq],
    C20_carry_stage 32 (by decide) (fun j => 2000000000 - 900000000 * j) (fun _ => 0) 3
      (by decide) (by decide) (fun i hi => by interval_cases i <;> simp [carrySeq])⟩

/-- C18: for valid operands `A`, `B` and the planned length `n`, the clear and load loops,
the two forward transforms, the pointwise `mul_mod` and the inverse transform of
`big_multiply` all terminate, and afterwards `a_ntt[i]`, for every `i < n`, is the exact
integer convolution sum of the products `digitA_j * digitB_(i - j)` (digits counted from the
least significant one); in particular it is `0` for `lenA + lenB - 1 ≤ i < n`. The globals
are those `main` passes: `a_ntt` holds zero at index `lenA + lenB - 1`. -/
theorem C18_convolution (A B : List Char) (hA : ValidOperand A) (hB : ValidOperand B)
    (F : Nat) (hF : 2097152 < F) (g : Globals)
    (hz : g.a_ntt (A.length + B.length - 1) = 0) :
    ∃ n a0 b0 a1 b1 A2 r1 B2 r2 A3 A4 r3,
      grow_loop (sub (add A.length B.length) 1) F 1 = some n ∧
      cl_loop n F 0 g.a_ntt g.b_ntt = some (a0, b0) ∧
      ld1 A A.length F 0 a0 = some a1 ∧ ld2 B B.length F 0 b0 = some b1 ∧
      ntt F a1 g.rev_bits n 0 = some (A2, r1) ∧ ntt F b1 r1 n 0 = some (B2, r2) ∧
      pm_loop F n B2 F 0 A2 = some A3 ∧ ntt F A3 r2 n 1 = some (A4, r3) ∧
      (∀ i, i < n → A4 i = ∑ j in Finset.range (i + 1), digitLE A j * digitLE B (i - j)) ∧
      (∀ i, A.length + B.length - 1 ≤ i → i < n → A4 i = 0) := by
  obtain ⟨r, hr⟩ := big_multiply_run F g A B hA hB hF hz
  refine ⟨r.n, r.a0, r.b0, r.a1, r.b1, r.A2, r.r1, r.B2, r.r2, r.A3, r.A4, r.r3, ?_, hr.h_cl,
    hr.h_ld1, hr.h_ld2, hr.h_ntt1, hr.h_ntt2, hr.h_pm, hr.h_ntt3, ?_, ?_⟩
  · rw [hr.h_add, hr.h_sub]
    exact hr.h_grow
  · intro i hi
    rw [hr.h_coef_n i hi]
    rfl
  · intro i h1 h2
    rw [hr.h_coef_n i h2, conv_zero A B i h1 hA.1]

theorem C18_convolution_witness :
    ValidOperand "12".toList ∧ ValidOperand "345".toList ∧ 2097152 < 2097153 ∧
    Globals.zero.a_ntt ("12".toList.length + "345".toList.length - 1) = 0 ∧
    ∃ n a0 b0 a1 b1 A2 r1 B2 r2 A3 A4 r3,
      grow_loop (sub (add "12".toList.length "345".toList.length) 1) 2097153 1 = some n ∧
      cl_loop n 2097153 0 Globals.zero.a_ntt Globals.zero.b_ntt = some (a0, b0) ∧
      ld1 "12".toList "12".toList.length 2097153 0 a0 = some a1 ∧
      ld2 "345".toList "345".toList.length 2097153 0 b0 = some b1 ∧
      ntt 2097153 a1 Globals.zero.rev_bits n 0 = some (A2, r1) ∧
      ntt 2097153 b1 r1 n 0 = some (B2, r2) ∧
      pm_loop 2097153 n B2 2097153 0 A2 = some A3 ∧ ntt 2097153 A3 r2 n 1 = some (A4, r3) ∧
      (∀ i, i < n → A4 i =
        ∑ j in Finset.range (i + 1), digitLE "12".toList j * digitLE "345".toList (i - j)) ∧
      (∀ i, "12".toList.length + "345".toList.length - 1 ≤ i → i < n → A4 i = 0) :=
  ⟨⟨by decide, by decide, by decide⟩, ⟨by decide, by decide, by decide⟩, by decide, rfl,
    C18_convolution "12".toList "345".toList ⟨by decide, by decide, by decide⟩
      ⟨by decide, by decide, by decide⟩ 2097153 (by decide) Globals.zero rfl⟩

/-- C19: for operands of at most `10 ^ 6` digits every convolution coefficient is at most
`81 * min(lenA, lenB) ≤ 81000000 < MOD`; and in the carry loop of `big_multiply`, at every
position `i < lenA + lenB`, the carry entering the position (the carry with which the loop
run up to `i` ends) and the coefficient `a_ntt[i]` have a sum below `2 ^ 31`, which the
machine addition `add` returns exactly, and `a_ntt[i]` is the unreduced coefficient. -/
theorem C19_no_overflow (A B : List Char) (hA : ValidOperand A) (hB : ValidOperand B)
    (F : Nat) (hF : 2097152 < F) (g : Globals)
    (hz : g.a_ntt (A.length + B.length - 1) = 0) :
    (∀ m, conv (digitLE A) (digitLE B) m ≤ 81 * min A.length B.length) ∧
    81 * min A.length B.length ≤ 81000000 ∧ 81000000 < MOD ∧
    ∃ g2 out, big_multiply F g A B A.length B.length = some (g2, out) ∧
      ∀ i, i < A.length + B.length →
        ∃ carry Di, car_loop F i g2.a_ntt F 0 0 g.digits = some (carry, Di) ∧
          g2.a_ntt i = conv (digitLE A) (digitLE B) i ∧
          g2.a_ntt i + carry < 2147483648 ∧
          add (g2.a_ntt i) carry = conv (digitLE A) (digitLE B) i + carry := by
  have hA6 := hA.2.1
  have hB6 := hB.2.1
  have hmin : 81 * min A.length B.length ≤ 81000000 := by
    have := Nat.min_le_left A.length B.length
    omega
  have hcle : ∀ i, conv (digitLE A) (digitLE B) i ≤ 81000000 := fun i =>
    le_trans (conv_le_min A B hA.2.2 hB.2.2 i) hmin
  obtain ⟨r, hr⟩ := big_multiply_run F g A B hA hB hF hz
  refine ⟨conv_le_min A B hA.2.2 hB.2.2, hmin, by unfold MOD; omega, _, _, hr.h_result, ?_⟩
  intro i hi
  have hcar := car_loop_eq F i 81000000 r.A4 (conv (digitLE A) (digitLE B)) g.digits
    (by omega) (by omega) (by omega) hcle (fun j hj => hr.h_coef j (by omega)) i F 0 g.digits
    (by omega) (by omega) (by intro j; rw [if_neg (by omega)])
  have h1 := hcle i
  have h2 := carrySeq_le (conv (digitLE A) (digitLE B)) 81000000 hcle i
  refine ⟨_, _, hcar, hr.h_coef i hi, ?_, ?_⟩
  · show r.A4 i + _ < _
    rw [hr.h_coef i hi]
    omega
  · show add (r.A4 i) _ = _
    rw [hr.h_coef i hi, add_small _ _ (by omega)]

theorem C19_no_overflow_witness :
    ValidOperand "99".toList ∧ ValidOperand "999".toList ∧ 2097152 < 2097153 ∧
    Globals.zero.a_ntt ("99".toList.length + "999".toList.length - 1) = 0 ∧
    (∀ m, conv (digitLE "99".toList) (digitLE "999".toList) m ≤
      81 * min "99".toList.length "999".toList.length) ∧
    81 * min "99".toList.length "999".toList.length ≤ 81000000 ∧ 81000000 < MOD ∧
    ∃ g2 out, big_multiply 2097153 Globals.zero "99".toList "999".toList
        "99".toList.length "999".toList.length = some (g2, out) ∧
      ∀ i, i < "99".toList.length + "999".toList.length →
        ∃ carry Di, car_loop 2097153 i g2.a_ntt 2097153 0 0 Globals.zero.digits =
            some (carry, Di) ∧
          g2.a_ntt i = conv (digitLE "99".toList) (digitLE "999".toList) i ∧
          g2.a_ntt i + carry < 2147483648 ∧
          add (g2.a_ntt i) carry = conv (digitLE "99".toList) (digitLE "999".toList) i + carry :=
  ⟨⟨by decide, by decide, by decide⟩, ⟨by decide, by decide, by decide⟩, by decide, rfl,
    C19_no_overflow "99".toList "999".toList ⟨by decide, by decide, by decide⟩
      ⟨by decide, by decide, by decide⟩ 2097153 (by decide) Globals.zero rfl⟩

/-- C17: for valid operands (so for all lengths `len1`, `len2` in `[1, 10 ^ 6]`) the planned
transform length `n` is at most `MAXN = 2 ^ 21`, `len1 + len2 ≤ MAXN`, and `big_multiply`
with every access to `a_ntt`, `b_ntt` and `rev_bits` checked against `MAXN`, every access to
`digits` checked against `2200005` and every access to an operand string checked against
its length passes all the checks: it returns what the unchecked function returns. The
same holds for `ntt` and `build_rev` on their own at every length `2 ^ k ≤ MAXN`. -/
theorem C17_in_bounds (A B : List Char) (hA : ValidOperand A) (hB : ValidOperand B)
    (F : Nat) (hF : 2097152 < F) (g : Globals)
    (hz : g.a_ntt (A.length + B.length - 1) = 0) :
    MAXN = 2 ^ 21 ∧ digitsCap = 2200005 ∧ A.length + B.length ≤ MAXN ∧
    (∃ n, grow_loop (sub (add A.length B.length) 1) F 1 = some n ∧ n ≤ MAXN) ∧
    (∃ res, big_multiply F g A B A.length B.length = some res ∧
      big_multiply_chk MAXN digitsCap F g A B A.length B.length = some res) ∧
    (∀ k, k ≤ 21 → ∀ a rev invert, (∀ i, i < 2 ^ k → a i < MOD) →
      ∃ res, ntt F a rev (2 ^ k) invert = some res ∧
        ntt_chk MAXN F a rev (2 ^ k) invert = some res) ∧
    (∀ k, k ≤ 21 → ∀ rev, ∃ rev2, build_rev F (2 ^ k) k rev = some rev2 ∧
      build_rev_chk MAXN F (2 ^ k) k rev = some rev2) := by
  have hA6 := hA.2.1
  have hB6 := hB.2.1
  have hA1 : 1 ≤ A.length := List.length_pos.mpr hA.1
  have hB1 : 1 ≤ B.length := List.length_pos.mpr hB.1
  have hpow : ∀ k, k ≤ 21 → (2 : Nat) ^ k ≤ 2097152 := by
    intro k hk
    have : (2 : Nat) ^ k ≤ 2 ^ 21 := Nat.pow_le_pow_right (by omega) hk
    simpa using this
  obtain ⟨r, hr⟩ := big_multiply_run F g A B hA hB hF hz
  obtain ⟨hn, hchk⟩ := big_multiply_chk_run F g A B r hr hA1 hA6 hB1 hB6 hF
  refine ⟨by decide, rfl, by unfold MAXN; omega, ⟨r.n, ?_, hn⟩, ⟨_, hr.h_result, hchk⟩, ?_, ?_⟩
  · rw [hr.h_add, hr.h_sub]
    exact hr.h_grow
  · intro k hk a rev invert ha
    have h2 := hpow k hk
    refine ⟨_, ntt_eq F (2 ^ k) k invert a rev (by omega) (by omega) rfl (by omega) ha, ?_⟩
    rw [ntt_chk_eq MAXN F (2 ^ k) k invert a rev rfl (by omega) h2 (by omega)]
    exact ntt_eq F (2 ^ k) k invert a rev (by omega) (by omega) rfl (by omega) ha
  · intro k hk rev
    have h2 := hpow k hk
    have hk2 : k < 2 ^ k := Nat.lt_two_pow k
    refine ⟨_, build_rev_eq F (2 ^ k) k rev (by omega) (by omega) (by omega) (by omega), ?_⟩
    have hbr : build_rev_chk MAXN F (2 ^ k) k rev = build_rev F (2 ^ k) k rev :=
      br_loop_chk_eq MAXN F (2 ^ k) k h2 (by omega) F 0 rev (by omega)
    rw [hbr]
    exact build_rev_eq F (2 ^ k) k rev (by omega) (by omega) (by omega) (by omega)

theorem C17_in_bounds_witness :
    ValidOperand "99".toList ∧ ValidOperand "12345".toList ∧ 2097152 < 2097153 ∧
    Globals.zero.a_ntt ("99".toList.length + "12345".toList.length - 1) = 0 ∧
    MAXN = 2 ^ 21 ∧ digitsCap = 2200005 ∧
    "99".toList.length + "12345".toList.length ≤ MAXN ∧
    (∃ n, grow_loop (sub (add "99".toList.length "12345".toList.length) 1) 2097153 1 =
      some n ∧ n ≤ MAXN) ∧
    (∃ res, big_multiply 2097153 Globals.zero "99".toList "12345".toList
        "99".toList.length "12345".toList.length = some res ∧
      big_multiply_chk MAXN digitsCap 2097153 Globals.zero "99".toList "12345".toList
        "99".toList.length "12345".toList.length = some res) ∧
    (∀ k, k ≤ 21 → ∀ a rev invert, (∀ i, i < 2 ^ k → a i < MOD) →
      ∃ res, ntt 2097153 a rev (2 ^ k) invert = some res ∧
        ntt_chk MAXN 2097153 a rev (2 ^ k) invert = some res) ∧
    (∀ k, k ≤ 21 → ∀ rev, ∃ rev2, build_rev 2097153 (2 ^ k) k rev = some rev2 ∧
      build_rev_chk MAXN 2097153 (2 ^ k) k rev = some rev2) :=
  ⟨⟨by decide, by decide, by decide⟩, ⟨by decide, by decide, by decide⟩, by decide, rfl,
    C17_in_bounds "99".toList "12345".toList ⟨by decide, by decide, by decide⟩
      ⟨by decide, by decide, by decide⟩ 2097153 (by decide) Globals.zero rfl⟩

/-- C14: for valid operands the whole multiplication terminates: with fuel above `2 ^ 21`
for each loop, `main` and `big_multiply` return, and more fuel does not change the output.
The parts terminate under the values the pipeline passes: the second argument of the call
of `add` or `sub` nested `d` deep is divisible by `2 ^ d`, so the base case is reached
within 32 calls; `mul_mod` and `pow_mod` return for a non-negative multiplier or exponent,
`divmod10` returns for a non-negative argument, and `build_rev` and `ntt` return for every
length `n = 2 ^ k` with `k ≤ 21`. -/
theorem C14_terminates (A B : List Char) (hA : ValidOperand A) (hB : ValidOperand B)
    (F : Nat) (hF : 2097152 < F) :
    (∃ out, main F [A, B] = some out) ∧
    (∀ F2, 2097152 < F2 → main F2 [A, B] = main F [A, B]) ∧
    (∃ res, big_multiply F Globals.zero A B A.length B.length = some res) ∧
    (∀ x y, x < 4294967296 → y < 4294967296 →
      (∀ d, d ≤ 32 → 2 ^ d ∣ (addArgs d x y).2) ∧ (addArgs 32 x y).2 = 0 ∧
      add x y = (addArgs 32 x y).1) ∧
    (∀ x y, x < 4294967296 → y < 4294967296 →
      (∀ d, d ≤ 32 → 2 ^ d ∣ (subArgs d x y).2) ∧ (subArgs 32 x y).2 = 0 ∧
      sub x y = (subArgs 32 x y).1) ∧
    (∀ x y, x < MOD → y < 2147483648 → ∃ v, mul_mod F x y = some v) ∧
    (∀ a e, a < MOD → e < 2147483648 → ∃ v, pow_mod F a e = some v) ∧
    (∀ x, x < 2147483648 → ∃ q r, divmod10 F x = some (q, r)) ∧
    (∀ k, k ≤ 21 → ∀ rev, ∃ rev2, build_rev F (2 ^ k) k rev = some rev2) ∧
    (∀ k, k ≤ 21 → ∀ a rev invert, (∀ i, i < 2 ^ k → a i < MOD) →
      ∃ res, ntt F a rev (2 ^ k) invert = some res) := by
  have hpow : ∀ k, k ≤ 21 → (2 : Nat) ^ k ≤ 2097152 := by
    intro k hk
    have : (2 : Nat) ^ k ≤ 2 ^ 21 := Nat.pow_le_pow_right (by omega) hk
    simpa using this
  have hm := multiply_eq F A B hA hB hF
  unfold multiply at hm
  obtain ⟨r, hr⟩ := big_multiply_run F Globals.zero A B hA hB hF rfl
  refine ⟨⟨_, hm⟩, ?_, ⟨_, hr.h_result⟩, ?_, ?_, ?_, ?_, ?_, ?_, ?_⟩
  · intro F2 hF2
    have hm2 := multiply_eq F2 A B hA hB hF2
    unfold multiply at hm2
    rw [hm, hm2]
  · intro x y _ hy
    refine ⟨?_, ?_, ?_⟩
    · intro d hd
      have := (addArgs_snd d x y 0 hy (by omega) (by simp)).1
      rwa [zero_add] at this
    · have h := addArgs_snd 32 x y 0 hy (by omega) (by simp)
      exact eq_zero_of_dvd_lt _ h.1 h.2
    · rw [addArgs_fst]
      rfl
  · intro x y _ hy
    refine ⟨?_, ?_, ?_⟩
    · intro d hd
      have := (subArgs_snd d x y 0 hy (by omega) (by simp)).1
      rwa [zero_add] at this
    · have h := subArgs_snd 32 x y 0 hy (by omega) (by simp)
      exact eq_zero_of_dvd_lt _ h.1 h.2
    · rw [subArgs_fst]
      rfl
  · intro x y hx hy
    exact ⟨_, mul_mod_eq F x y (by omega) hx hy⟩
  · intro a e ha he
    exact ⟨_, pow_mod_eq F a e (by omega) ha he⟩
  · intro x hx
    exact ⟨_, _, divmod10_eq F x (by omega) hx⟩
  · intro k hk rev
    have h2 := hpow k hk
    have hk2 : k < 2 ^ k := Nat.lt_two_pow k
    exact ⟨_, build_rev_eq F (2 ^ k) k rev (by omega) (by omega) (by omega) (by omega)⟩
  · intro k hk a rev invert ha
    have h2 := hpow k hk
    exact ⟨_, ntt_eq F (2 ^ k) k invert a rev (by omega) (by omega) rfl (by omega) ha⟩

theorem C14_terminates_witness :
    ValidOperand "12".toList ∧ ValidOperand "34".toList ∧ 2097152 < 2097153 ∧
    (∃ out, main 2097153 ["12".toList, "34".toList] = some out) ∧
    (∀ F2, 2097152 < F2 →
      main F2 ["12".toList, "34".toList] = main 2097153 ["12".toList, "34".toList]) ∧
    (∃ res, big_multiply 2097153 Globals.zero "12".toList "34".toList
      "12".toList.length "34".toList.length = some res) ∧
    (∀ x y, x < 4294967296 → y < 4294967296 →
      (∀ d, d ≤ 32 → 2 ^ d ∣ (addArgs d x y).2) ∧ (addArgs 32 x y).2 = 0 ∧
      add x y = (addArgs 32 x y).1) ∧
    (∀ x y, x < 4294967296 → y < 4294967296 →
      (∀ d, d ≤ 32 → 2 ^ d ∣ (subArgs d x y).2) ∧ (subArgs 32 x y).2 = 0 ∧
      sub x y = (subArgs 32 x y).1) ∧
    (∀ x y, x < MOD → y < 2147483648 → ∃ v, mul_mod 2097153 x y = some v) ∧
    (∀ a e, a < MOD → e < 2147483648 → ∃ v, pow_mod 2097153 a e = some v) ∧
    (∀ x, x < 2147483648 → ∃ q r, divmod10 2097153 x = some (q, r)) ∧
    (∀ k, k ≤ 21 → ∀ rev, ∃ rev2, build_rev 2097153 (2 ^ k) k rev = some rev2) ∧
    (∀ k, k ≤ 21 → ∀ a rev invert, (∀ i, i < 2 ^ k → a i < MOD) →
      ∃ res, ntt 2097153 a rev (2 ^ k) invert = some res) :=
  ⟨⟨by decide, by decide, by decide⟩, ⟨by decide, by decide, by decide⟩, by decide,
    C14_terminates "12".toList "34".toList ⟨by decide, by decide, by decide⟩
      ⟨by decide, by decide, by decide⟩ 2097153 (by decide)⟩

/-- C16, counterexample: an operand of 1000001 digits exceeds the maximum of `10 ^ 6` digits
(and still fits the input buffer of `MAXD` bytes), yet with `0` as the other operand the
program writes `0` and a newline, the very text it writes for the valid operands `7` and
`0`: the excess is not reported. -/
theorem C16_no_explicit_failure :
    1000000 < (List.replicate 1000001 '1').length ∧
    (List.replicate 1000001 '1').length < MAXD ∧
    ¬ ValidOperand (List.replicate 1000001 '1') ∧
    main 1000002 [List.replicate 1000001 '1', ['0']] = some ['0', '\n'] ∧
    main 1000002 [['7'], ['0']] = some ['0', '\n'] := by
  have hlen : (List.replicate 1000001 '1').length = 1000001 := List.length_replicate _ _
  have hc : ∀ c ∈ List.replicate 1000001 '1', c.toNat ≠ 0 := by
    intro c h
    rw [List.eq_of_mem_replicate h]
    decide
  refine ⟨by rw [hlen]; omega, by rw [hlen]; unfold MAXD; omega, ?_, ?_, ?_⟩
  · intro h
    have := h.2.1
    rw [hlen] at this
    omega
  · exact (mainFrom_other_zero 1000002 Globals.zero _ hc (by rw [hlen]; omega)
      (by rw [hlen]; omega) (by omega)).1
  · exact (mainFrom_other_zero 1000002 Globals.zero ['7'] (by decide) (by decide) (by decide)
      (by omega)).1

/-- C16, amended: the program has no explicit failure and checks no length. An operand of
more than `10 ^ 6` digits that fits the input buffer is read like any other: with `0` as the
other operand, in either order, the program writes `0` and a newline. The limits are kept
only implicitly: for all operand lengths that fit the input buffers (from `1` to `MAXD - 1`)
the planned transform length is a power of two `2 ^ k` with `k ≤ 21`, so it is at most
`MAXN = 2 ^ 21` and divides `MOD - 1`. -/
theorem C16_limits_implicit (A : List Char) (hc : ∀ c ∈ A, c.toNat ≠ 0)
    (hl : 1000000 < A.length) (hl2 : A.length < MAXD) (F : Nat) (hF : A.length < F)
    (g : Globals) :
    ¬ ValidOperand A ∧
    mainFrom F g [A, ['0']] = some ['0', '\n'] ∧
    mainFrom F g [['0'], A] = some ['0', '\n'] ∧
    ∀ len1 len2, 1 ≤ len1 → len1 < MAXD → 1 ≤ len2 → len2 < MAXD →
      ∃ n k, grow_loop (sub (add len1 len2) 1) F 1 = some n ∧ n = 2 ^ k ∧ k ≤ 21 ∧
        n ≤ MAXN ∧ n ∣ MOD - 1 := by
  have hl3 : A.length < 2147483647 := by
    unfold MAXD at hl2
    omega
  have h := mainFrom_other_zero F g A hc hl3 hF (by omega)
  refine ⟨?_, h.1, h.2, ?_⟩
  · intro hv
    have := hv.2.1
    omega
  · intro len1 len2 h1 h2 h3 h4
    unfold MAXD at h2 h4
    exact planned_length len1 len2 h1 h2 h3 h4 F (by omega)

theorem C16_limits_implicit_witness :
    (∀ c ∈ List.replicate 1000001 '9', c.toNat ≠ 0) ∧
    1000000 < (List.replicate 1000001 '9').length ∧
    (List.replicate 1000001 '9').length < MAXD ∧
    (List.replicate 1000001 '9').length < 1000002 ∧
    ¬ ValidOperand (List.replicate 1000001 '9') ∧
    mainFrom 1000002 Globals.zero [List.replicate 1000001 '9', ['0']] = some ['0', '\n'] ∧
    mainFrom 1000002 Globals.zero [['0'], List.replicate 1000001 '9'] = some ['0', '\n'] ∧
    ∀ len1 len2, 1 ≤ len1 → len1 < MAXD → 1 ≤ len2 → len2 < MAXD →
      ∃ n k, grow_loop (sub (add len1 len2) 1) 1000002 1 = some n ∧ n = 2 ^ k ∧ k ≤ 21 ∧
        n ≤ MAXN ∧ n ∣ MOD - 1 :=
  ⟨fun c h => by rw [List.eq_of_mem_replicate h]; decide,
    by rw [List.length_replicate]; decide,
    by rw [List.length_replicate]; decide,
    by rw [List.length_replicate]; decide,
    C16_limits_implicit (List.replicate 1000001 '9')
      (fun c h => by rw [List.eq_of_mem_replicate h]; decide)
      (by rw [List.length_replicate]; decide) (by rw [List.length_replicate]; decide)
      1000002 (by rw [List.length_replicate]; decide) Globals.zero⟩

/-- C21: for every `x` with `0 ≤ x < 2 ^ 31`, `divmod10` terminates (fuel 32 suffices for
each of its loops) and stores the quotient `x / 10` and the remainder `x % 10`, so that
`x = 10 * q + r` with `r ≤ 9`. The argument is passed by value, so the call
`divmod10(carry, &carry, &r)` of `cc_loop`, where the quotient overwrites the input, goes
on with `carry / 10` and stores `carry % 10`. -/
theorem C21_divmod10 (x : Nat) (hx : x < 2147483648) (F : Nat) (hF : 32 ≤ F) :
    ∃ q r, divmod10 F x = some (q, r) ∧ q = x / 10 ∧ r = x % 10 ∧ x = 10 * q + r ∧ r ≤ 9 ∧
      ∀ f res_len digits, 10 ≤ x →
        cc_loop F (f + 1) x res_len digits =
          cc_loop F f q (add res_len 1) (digits.set res_len r) := by
  refine ⟨x / 10, x % 10, divmod10_eq F x hF hx, rfl, rfl, by omega, by omega, ?_⟩
  intro f res_len digits h10
  exact cc_loop_step F f x res_len digits hF hx h10

theorem C21_divmod10_witness :
    2147483647 < 2147483648 ∧ 32 ≤ 32 ∧
    ∃ q r, divmod10 32 2147483647 = some (q, r) ∧ q = 2147483647 / 10 ∧
      r = 2147483647 % 10 ∧ 2147483647 = 10 * q + r ∧ r ≤ 9 ∧
      ∀ f res_len digits, 10 ≤ 2147483647 →
        cc_loop 32 (f + 1) 2147483647 res_len digits =
          cc_loop 32 f q (add res_len 1) (digits.set res_len r) :=
  ⟨by decide, by decide, C21_divmod10 2147483647 (by decide) 32 (by decide)⟩

/-- C22: the trim loop of `big_multiply`, started with `1 ≤ res_len`, terminates with a
length `res_len2` with `1 ≤ res_len2 ≤ res_len`; every position it removes held the digit
`0`; it stops at length `1` or at a non-zero most significant digit; and the represented
value is unchanged. The loop stores nothing, so the digits are as before. -/
theorem C22_trim (digits : Mem) (res_len : Nat) (h1 : 1 ≤ res_len)
    (h31 : res_len < 2147483648) (F : Nat) (hF : res_len ≤ F) :
    ∃ res_len2, trim_loop digits F res_len = some res_len2 ∧ 1 ≤ res_len2 ∧
      res_len2 ≤ res_len ∧ (∀ i, res_len2 ≤ i → i < res_len → digits i = 0) ∧
      (res_len2 = 1 ∨ digits (res_len2 - 1) ≠ 0) ∧
      ∑ i in Finset.range res_len2, digits i * 10 ^ i =
        ∑ i in Finset.range res_len, digits i * 10 ^ i := by
  obtain ⟨L2, h, hL1, hL2, htop, hzero⟩ := trim_loop_eq digits (res_len - 1) F res_len
    (by omega) h31 (by omega)
  exact ⟨L2, h, hL1, hL2, hzero, htop, (sum_trimmed digits L2 res_len hL2 hzero).symm⟩

theorem C22_trim_witness :
    1 ≤ 4 ∧ 4 < 2147483648 ∧ 4 ≤ 4 ∧
    ∃ res_len2, trim_loop (fun i => if i = 0 then 7 else if i = 1 then 3 else 0) 4 4 =
        some res_len2 ∧ 1 ≤ res_len2 ∧ res_len2 ≤ 4 ∧
      (∀ i, res_len2 ≤ i → i < 4 →
        (fun i => if i = 0 then 7 else if i = 1 then 3 else 0) i = 0) ∧
      (res_len2 = 1 ∨
        (fun i => if i = 0 then 7 else if i = 1 then 3 else 0) (res_len2 - 1) ≠ 0) ∧
      ∑ i in Finset.range res_len2,
          (fun i => if i = 0 then 7 else if i = 1 then 3 else 0) i * 10 ^ i =
        ∑ i in Finset.range 4,
          (fun i => if i = 0 then 7 else if i = 1 then 3 else 0) i * 10 ^ i :=
  ⟨by decide, by decide, by decide,
    C22_trim (fun i => if i = 0 then 7 else if i = 1 then 3 else 0) 4 (by decide) (by decide) 4
      (by decide)⟩

/-- C27: the bitwise primitives agree with native 32-bit arithmetic. For all 32-bit `x`,
`y` the recursions `add` and `sub` reach the base case within 32 calls, each call giving the
second argument one more trailing zero bit (it is divisible by `2 ^ d` at depth `d`), and
return `(x + y) mod 2 ^ 32` and `(x - y) mod 2 ^ 32`, the two's complement results
`nativeAdd` and `nativeSub`; and whenever the signed difference `x - y` does not overflow,
in particular for `0 ≤ x, y < 2 ^ 31`, `less_than x y` is `1` if `x < y` and `0`
otherwise. -/
theorem C27_bitwise_native (x y : Nat) (hx : x < 4294967296) (hy : y < 4294967296) :
    add x y = nativeAdd x y ∧ add x y = (x + y) % 4294967296 ∧
    sub x y = nativeSub x y ∧ sub x y = (x + 4294967296 - y) % 4294967296 ∧
    (∀ d, d ≤ 32 → 2 ^ d ∣ (addArgs d x y).2) ∧ (addArgs 32 x y).2 = 0 ∧
    add x y = (addArgs 32 x y).1 ∧
    (∀ d, d ≤ 32 → 2 ^ d ∣ (subArgs d x y).2) ∧ (subArgs 32 x y).2 = 0 ∧
    sub x y = (subArgs 32 x y).1 ∧
    (∀ t, t < 32 → 2 ^ t ∣ y →
      2 ^ (t + 1) ∣ shl (x &&& y) 1 ∧ 2 ^ (t + 1) ∣ shl (lnot x &&& y) 1) ∧
    (-2147483648 ≤ toInt x - toInt y → toInt x - toInt y < 2147483648 →
      less_than x y = nativeLess x y) ∧
    (x < 2147483648 → y < 2147483648 →
      less_than x y = nativeLess x y ∧ less_than x y = if x < y then 1 else 0) := by
  refine ⟨?_, add_eq x y hx hy, ?_, sub_eq x y hx hy, ?_, ?_, ?_, ?_, ?_, ?_, ?_, ?_, ?_⟩
  · rw [add_eq x y hx hy, nativeAdd_eq x y]
  · rw [sub_eq x y hx hy, nativeSub_eq x y hy]
  · intro d hd
    have := (addArgs_snd d x y 0 hy (by omega) (by simp)).1
    rwa [zero_add] at this
  · have h := addArgs_snd 32 x y 0 hy (by omega) (by simp)
    exact eq_zero_of_dvd_lt _ h.1 h.2
  · rw [addArgs_fst]
    rfl
  · intro d hd
    have := (subArgs_snd d x y 0 hy (by omega) (by simp)).1
    rwa [zero_add] at this
  · have h := subArgs_snd 32 x y 0 hy (by omega) (by simp)
    exact eq_zero_of_dvd_lt _ h.1 h.2
  · rw [subArgs_fst]
    rfl
  · intro t ht h
    exact ⟨dvd_shl_one _ t (by omega) (dvd_and_of_dvd x y t h),
      dvd_shl_one _ t (by omega) (dvd_and_of_dvd (lnot x) y t h)⟩
  · intro h1 h2
    exact less_than_signed x y hx hy h1 h2
  · intro hx31 hy31
    refine ⟨?_, less_than_nonneg x y hx31 hy31⟩
    apply less_than_signed x y hx hy <;> unfold toInt <;> rw [if_pos hx31, if_pos hy31] <;>
      omega

theorem C27_bitwise_native_witness :
    4294967295 < 4294967296 ∧ 7 < 4294967296 ∧
    add 4294967295 7 = nativeAdd 4294967295 7 ∧
    add 4294967295 7 = (4294967295 + 7) % 4294967296 ∧
    sub 4294967295 7 = nativeSub 4294967295 7 ∧
    sub 4294967295 7 = (4294967295 + 4294967296 - 7) % 4294967296 ∧
    (∀ d, d ≤ 32 → 2 ^ d ∣ (addArgs d 4294967295 7).2) ∧ (addArgs 32 4294967295 7).2 = 0 ∧
    add 4294967295 7 = (addArgs 32 4294967295 7).1 ∧
    (∀ d, d ≤ 32 → 2 ^ d ∣ (subArgs d 4294967295 7).2) ∧ (subArgs 32 4294967295 7).2 = 0 ∧
    sub 4294967295 7 = (subArgs 32 4294967295 7).1 ∧
    (∀ t, t < 32 → 2 ^ t ∣ 7 →
      2 ^ (t + 1) ∣ shl (4294967295 &&& 7) 1 ∧ 2 ^ (t + 1) ∣ shl (lnot 4294967295 &&& 7) 1) ∧
    (-2147483648 ≤ toInt 4294967295 - toInt 7 → toInt 4294967295 - toInt 7 < 2147483648 →
      less_than 4294967295 7 = nativeLess 4294967295 7) ∧
    (4294967295 < 2147483648 → 7 < 2147483648 →
      less_than 4294967295 7 = nativeLess 4294967295 7 ∧
      less_than 4294967295 7 = if 4294967295 < 7 then 1 else 0) :=
  ⟨by decide, by decide, C27_bitwise_native 4294967295 7 (by decide) (by decide)⟩

/-- C23: for every `n = 2 ^ k` with `k ≤ 23` and every buffer `a` whose first `n` entries
are in `[0, MOD - 1]`, the call `ntt(a, n, 0)` terminates and leaves in `a[m]`, for every
`m < n`, the sum over `j < n` of `a[j] * w ^ (j * m)` reduced modulo `MOD`, where
`w = 3 ^ ((MOD - 1) / n) mod MOD`; the call `ntt(a, n, 1)` leaves `ninv` times the same sum
with `winv` in place of `w`, where `winv` and `ninv` are the inverses of `w` and `n` modulo
`MOD`. The arrays of the embedding have no capacity, so `n` may exceed `MAXN` here. -/
theorem C23_transform (k : Nat) (hk : k ≤ 23) (a rev : Mem)
    (ha : ∀ i, i < 2 ^ k → a i < MOD) (F : Nat) (hF : 2 ^ k < F) (hF32 : 32 ≤ F) :
    ∃ w winv ninv, w = G ^ ((MOD - 1) / 2 ^ k) % MOD ∧ winv < MOD ∧ ninv < MOD ∧
      w * winv % MOD = 1 ∧ 2 ^ k * ninv % MOD = 1 ∧
      (∃ a2 rev2, ntt F a rev (2 ^ k) 0 = some (a2, rev2) ∧
        ∀ m, m < 2 ^ k →
          a2 m = (∑ j in Finset.range (2 ^ k), a j * w ^ (j * m)) % MOD) ∧
      (∃ a3 rev3, ntt F a rev (2 ^ k) 1 = some (a3, rev3) ∧
        ∀ m, m < 2 ^ k →
          a3 m = (ninv * ∑ j in Finset.range (2 ^ k), a j * winv ^ (j * m)) % MOD) := by
  refine ⟨G ^ ((MOD - 1) / 2 ^ k) % MOD,
    (G ^ (MOD - 2) % MOD) ^ ((MOD - 1) / 2 ^ k) % MOD, (2 ^ k) ^ (MOD - 2) % MOD, rfl,
    Nat.mod_lt _ MOD_pos, Nat.mod_lt _ MOD_pos, root_mul_inverse k, length_mul_inverse k hk,
    ⟨_, _, ntt_eq F (2 ^ k) k 0 a rev hF32 hF rfl hk ha, ?_⟩,
    ⟨_, _, ntt_eq F (2 ^ k) k 1 a rev hF32 hF rfl hk ha, ?_⟩⟩
  · intro m hm
    exact ntt_forward_sum k hk a ha m hm
  · intro m hm
    exact ntt_inverse_sum k hk a ha m hm

theorem C23_transform_witness :
    2 ≤ 23 ∧ (∀ i, i < 2 ^ 2 → (fun i => i + 1) i < MOD) ∧ 2 ^ 2 < 32 ∧ 32 ≤ 32 ∧
    ∃ w winv ninv, w = G ^ ((MOD - 1) / 2 ^ 2) % MOD ∧ winv < MOD ∧ ninv < MOD ∧
      w * winv % MOD = 1 ∧ 2 ^ 2 * ninv % MOD = 1 ∧
      (∃ a2 rev2, ntt 32 (fun i => i + 1) (fun _ => 0) (2 ^ 2) 0 = some (a2, rev2) ∧
        ∀ m, m < 2 ^ 2 →
          a2 m = (∑ j in Finset.range (2 ^ 2), (fun i => i + 1) j * w ^ (j * m)) % MOD) ∧
      (∃ a3 rev3, ntt 32 (fun i => i + 1) (fun _ => 0) (2 ^ 2) 1 = some (a3, rev3) ∧
        ∀ m, m < 2 ^ 2 →
          a3 m =
            (ninv * ∑ j in Finset.range (2 ^ 2), (fun i => i + 1) j * winv ^ (j * m)) % MOD) :=
  ⟨by decide, fun i hi => by unfold MOD; simp only; omega, by decide, by decide,
    C23_transform 2 (by decide) (fun i => i + 1) (fun _ => 0)
      (fun i hi => by unfold MOD; simp only; omega) 32 (by decide) (by decide)⟩

/-- C24: `MOD - 1 = 998244352 = 119 * 2 ^ 23`, so for every stage of length `len = 2 ^ s`,
`1 ≤ s ≤ 23`, the shifted exponent `(MOD - 1) >> s` is `(MOD - 1) / len` exactly, and the
stage generator `wlen = pow_mod(3, (MOD - 1) >> s)` is a primitive `len`-th root of unity
modulo `MOD`: `wlen ^ len = 1`, `wlen ^ (len / 2) = MOD - 1`, and no smaller positive power
is `1`. The same holds for `root_inv = pow_mod(3, MOD - 2)`, the inverse of `3`, in place
of `3`. -/
theorem C24_stage_twiddle (s : Nat) (hs1 : 1 ≤ s) (hs : s ≤ 23) (F : Nat) (hF : 32 ≤ F) :
    MOD - 1 = 998244352 ∧ MOD - 1 = 119 * 2 ^ 23 ∧
    sar (MOD - 1) s = (MOD - 1) / 2 ^ s ∧ (MOD - 1) / 2 ^ s * 2 ^ s = MOD - 1 ∧
    (∃ wlen, pow_mod F G (sar (MOD - 1) s) = some wlen ∧ wlen < MOD ∧
      wlen ^ 2 ^ s % MOD = 1 ∧ wlen ^ (2 ^ s / 2) % MOD = MOD - 1 ∧
      ∀ j, 0 < j → j < 2 ^ s → wlen ^ j % MOD ≠ 1) ∧
    (∃ root_inv, pow_mod F G (sub MOD 2) = some root_inv ∧ mul_mod F G root_inv = some 1 ∧
      ∃ wlen, pow_mod F root_inv (sar (MOD - 1) s) = some wlen ∧ wlen < MOD ∧
        wlen ^ 2 ^ s % MOD = 1 ∧ wlen ^ (2 ^ s / 2) % MOD = MOD - 1 ∧
        ∀ j, 0 < j → j < 2 ^ s → wlen ^ j % MOD ≠ 1) := by
  have hG : G < MOD := by unfold G MOD; omega
  have hI := inverse_run F G hF (by unfold G; omega) hG
  refine ⟨by unfold MOD; norm_num, by unfold MOD; norm_num, sar_MOD_pred s, ?_,
    stage_twiddle F G s hF hG cast_G_pow_half hs1 hs,
    ⟨_, hI.1, hI.2, stage_twiddle F _ s hF (Nat.mod_lt _ MOD_pos) cast_Ginv_pow_half hs1 hs⟩⟩
  rw [ MOD_pred_div s hs, mul_assoc, ← pow_add]
  have : 23 - s + s = 23 := by omega
  rw [this]
  unfold MOD
  norm_num

theorem C24_stage_twiddle_witness :
    1 ≤ 23 ∧ 23 ≤ 23 ∧ 32 ≤ 32 ∧
    MOD - 1 = 998244352 ∧ MOD - 1 = 119 * 2 ^ 23 ∧
    sar (MOD - 1) 23 = (MOD - 1) / 2 ^ 23 ∧ (MOD - 1) / 2 ^ 23 * 2 ^ 23 = MOD - 1 ∧
    (∃ wlen, pow_mod 32 G (sar (MOD - 1) 23) = some wlen ∧ wlen < MOD ∧
      wlen ^ 2 ^ 23 % MOD = 1 ∧ wlen ^ (2 ^ 23 / 2) % MOD = MOD - 1 ∧
      ∀ j, 0 < j → j < 2 ^ 23 → wlen ^ j % MOD ≠ 1) ∧
    (∃ root_inv, pow_mod 32 G (sub MOD 2) = some root_inv ∧ mul_mod 32 G root_inv = some 1 ∧
      ∃ wlen, pow_mod 32 root_inv (sar (MOD - 1) 23) = some wlen ∧ wlen < MOD ∧
        wlen ^ 2 ^ 23 % MOD = 1 ∧ wlen ^ (2 ^ 23 / 2) % MOD = MOD - 1 ∧
        ∀ j, 0 < j → j < 2 ^ 23 → wlen ^ j % MOD ≠ 1) :=
  ⟨by decide, by decide, by decide, C24_stage_twiddle 23 (by decide) (by decide) 32 (by decide)⟩

/-- C25: for `n = 2 ^ k`, after `ntt` has computed `logn = k` and built the table
`rev_bits`, its swap loop `nr_loop` terminates with the bit-reversal permutation of the
buffer: the new `a[i]` is the old `a[rev(i)]` for every `i < n`, entries from `n` on and
fixed points of `rev` keep their value. The swap is performed at index `i` exactly when
`i < rev(i)`, so once for each pair; accordingly the loop run to a bound `m ≤ n` has
exchanged exactly the pairs whose smaller index is below `m`. -/
theorem C25_bit_reversal (k : Nat) (hk : k ≤ 30) (a rev : Mem) (F : Nat) (hF : 2 ^ k < F) :
    logn_loop F 0 (2 ^ k) = some k ∧
    ∃ rev2 a2, build_rev F (2 ^ k) k rev = some rev2 ∧
      nr_loop (2 ^ k) rev2 F 0 a = some a2 ∧
      (∀ i, i < 2 ^ k → a2 i = a (bitrev k i)) ∧
      (∀ i, 2 ^ k ≤ i → a2 i = a i) ∧
      (∀ i, i < 2 ^ k → bitrev k i = i → a2 i = a i) ∧
      (∀ i, i < 2 ^ k → (less_than i (rev2 i) ≠ 0 ↔ i < bitrev k i)) ∧
      (∀ m, m ≤ 2 ^ k → nr_loop m rev2 F 0 a =
        some (fun j => if j < 2 ^ k ∧ (j < m ∨ bitrev k j < m) then a (bitrev k j)
          else a j)) := by
  have hn30 : 2 ^ k ≤ 2 ^ 30 := Nat.pow_le_pow_right (by omega) hk
  have hn30 : 2 ^ k ≤ 1073741824 := by simpa using hn30
  have hkn : k < 2 ^ k := Nat.lt_two_pow k
  have hlog := logn_loop_eq k F 0 hk (by omega) (by omega)
  rw [zero_add] at hlog
  have hrev2 : ∀ j, j < 2 ^ k →
      (fun j => if j < 2 ^ k then bitrev k j else rev j) j = bitrev k j := by
    intro j hj
    simp only [if_pos hj]
  have hinit : ∀ j, a j = if j < 2 ^ k ∧ (j < 0 ∨ bitrev k j < 0) then a (bitrev k j)
      else a j := by
    intro j
    rw [if_neg (by omega)]
  refine ⟨hlog, fun j => if j < 2 ^ k then bitrev k j else rev j,
    fun j => if j < 2 ^ k then a (bitrev k j) else a j,
    build_rev_eq F (2 ^ k) k rev hk (by omega) hF (by omega),
    nr_loop_eq (2 ^ k) k _ a rfl hk hrev2 (2 ^ k) F 0 a (by omega) hF hinit, ?_, ?_, ?_, ?_, ?_⟩
  · intro i hi
    simp only [if_pos hi]
  · intro i hi
    simp only [if_neg (by omega : ¬ i < 2 ^ k)]
  · intro i hi hfix
    simp only [if_pos hi, hfix]
  · intro i hi
    have hb := bitrev_lt k i
    simp only [if_pos hi]
    rw [less_than_nonneg i (bitrev k i) (by omega) (by omega)]
    by_cases h : i < bitrev k i
    · simp [h]
    · simp [h]
  · intro m hm
    exact nr_loop_prefix (2 ^ k) k m _ a rfl hk hm hrev2 m F 0 a (by omega) (by omega) hinit

theorem C25_bit_reversal_witness :
    2 ≤ 30 ∧ 2 ^ 2 < 5 ∧
    logn_loop 5 0 (2 ^ 2) = some 2 ∧
    ∃ rev2 a2, build_rev 5 (2 ^ 2) 2 (fun _ => 0) = some rev2 ∧
      nr_loop (2 ^ 2) rev2 5 0 (fun i => i + 10) = some a2 ∧
      (∀ i, i < 2 ^ 2 → a2 i = (fun i => i + 10) (bitrev 2 i)) ∧
      (∀ i, 2 ^ 2 ≤ i → a2 i = (fun i => i + 10) i) ∧
      (∀ i, i < 2 ^ 2 → bitrev 2 i = i → a2 i = (fun i => i + 10) i) ∧
      (∀ i, i < 2 ^ 2 → (less_than i (rev2 i) ≠ 0 ↔ i < bitrev 2 i)) ∧
      (∀ m, m ≤ 2 ^ 2 → nr_loop m rev2 5 0 (fun i => i + 10) =
        some (fun j => if j < 2 ^ 2 ∧ (j < m ∨ bitrev 2 j < m)
          then (fun i => i + 10) (bitrev 2 j) else (fun i => i + 10) j)) :=
  ⟨by decide, by decide, C25_bit_reversal 2 (by decide) (fun i => i + 10) (fun _ => 0) 5
    (by decide)⟩

/-- C26: if the first `n = 2 ^ k` entries of the buffer are in `[0, MOD - 1]`, `k ≤ 23`,
then in `ntt(a, n, invert)`, for both directions: the roots `G` and `root_inv` and every
stage generator `wlen` are in `[0, MOD - 1]`; every butterfly of `inner_loop` leaves the
running twiddle `w` and all entries in `[0, MOD - 1]`; every stage (one `outer_loop`) leaves
all entries in `[0, MOD - 1]`; and so does the whole call on return. -/
theorem C26_range (k : Nat) (hk : k ≤ 23) (a rev : Mem) (ha : ∀ i, i < 2 ^ k → a i < MOD)
    (invert F : Nat) (hF : 2 ^ k < F) (hF32 : 32 ≤ F) :
    (∃ a2 rev2, ntt F a rev (2 ^ k) invert = some (a2, rev2) ∧ ∀ i, i < 2 ^ k → a2 i < MOD) ∧
    G < MOD ∧
    ∃ root_inv, pow_mod F G (sub MOD 2) = some root_inv ∧ root_inv < MOD ∧
      ∀ s, s < k → ∀ x : Mem, (∀ i, i < 2 ^ k → x i < MOD) →
        ∃ wlen x2,
          pow_mod F (if invert ≠ 0 then root_inv else G) (sar (MOD - 1) (s + 1)) = some wlen ∧
          wlen < MOD ∧
          outer_loop F (2 ^ k) (2 ^ (s + 1)) wlen F 0 x = some x2 ∧
          (∀ i, i < 2 ^ k → x2 i < MOD) ∧
          ∀ i2 j w (y : Mem), i2 + 2 ^ (s + 1) ≤ 2 ^ k → j < 2 ^ s → w < MOD →
            (∀ i, i < 2 ^ k → y i < MOD) →
            ∃ w2 y2, (∀ f, inner_loop F i2 (2 ^ (s + 1)) wlen (f + 1) j w y =
                inner_loop F i2 (2 ^ (s + 1)) wlen f (add j 1) w2 y2) ∧
              w2 < MOD ∧ ∀ i, i < 2 ^ k → y2 i < MOD := by
  have hn23 : 2 ^ k ≤ 2 ^ 23 := Nat.pow_le_pow_right (by omega) hk
  have hn23 : 2 ^ k ≤ 8388608 := by simpa using hn23
  have hG : G < MOD := by unfold G MOD; omega
  have hI := inverse_run F G hF32 (by unfold G; omega) hG
  have hri : G ^ (MOD - 2) % MOD < MOD := Nat.mod_lt _ MOD_pos
  refine ⟨⟨_, _, ntt_eq F (2 ^ k) k invert a rev hF32 hF rfl hk ha,
    nttFn_lt (2 ^ k) k invert a rfl ha⟩, hG, _, hI.1, hri, ?_⟩
  intro s hs x hx
  have hroot : (if invert ≠ 0 then G ^ (MOD - 2) % MOD else G) < MOD := by
    split
    · exact hri
    · exact hG
  obtain ⟨wlen, x2, h1, h2, h3, h4⟩ := stage_step F (2 ^ k) k s _ hF32 hF rfl hk hs hroot x hx
  refine ⟨wlen, x2, h1, h2, h3, h4, ?_⟩
  intro i2 j w y hb hj hw hy
  obtain ⟨w2, y2, e1, e2, e3, -, -⟩ := inner_loop_step F i2 (2 ^ (s + 1)) (2 ^ s) wlen (2 ^ k)
    hF32 (by rw [pow_succ]; ring) hb (by omega) h2 j w y hj hw hy
  exact ⟨w2, y2, e1, e2, e3⟩

theorem C26_range_witness :
    2 ≤ 23 ∧ (∀ i, i < 2 ^ 2 → (fun i => i + 1) i < MOD) ∧ 2 ^ 2 < 32 ∧ 32 ≤ 32 ∧
    (∃ a2 rev2, ntt 32 (fun i => i + 1) (fun _ => 0) (2 ^ 2) 1 = some (a2, rev2) ∧
      ∀ i, i < 2 ^ 2 → a2 i < MOD) ∧
    G < MOD ∧
    ∃ root_inv, pow_mod 32 G (sub MOD 2) = some root_inv ∧ root_inv < MOD ∧
      ∀ s, s < 2 → ∀ x : Mem, (∀ i, i < 2 ^ 2 → x i < MOD) →
        ∃ wlen x2,
          pow_mod 32 (if 1 ≠ 0 then root_inv else G) (sar (MOD - 1) (s + 1)) = some wlen ∧
          wlen < MOD ∧
          outer_loop 32 (2 ^ 2) (2 ^ (s + 1)) wlen 32 0 x = some x2 ∧
          (∀ i, i < 2 ^ 2 → x2 i < MOD) ∧
          ∀ i2 j w (y : Mem), i2 + 2 ^ (s + 1) ≤ 2 ^ 2 → j < 2 ^ s → w < MOD →
            (∀ i, i < 2 ^ 2 → y i < MOD) →
            ∃ w2 y2, (∀ f, inner_loop 32 i2 (2 ^ (s + 1)) wlen (f + 1) j w y =
                inner_loop 32 i2 (2 ^ (s + 1)) wlen f (add j 1) w2 y2) ∧
              w2 < MOD ∧ ∀ i, i < 2 ^ 2 → y2 i < MOD :=
  ⟨by decide, fun i hi => by unfold MOD; simp only; omega, by decide, by decide,
    C26_range 2 (by decide) (fun i => i + 1) (fun _ => 0)
      (fun i hi => by unfold MOD; simp only; omega) 1 32 (by decide) (by decide)⟩

/-- C28: after the clear and load loops of `big_multiply`, run from any globals, each
buffer holds the digits of its operand in little-endian order and zeros up to the planned
length `n`: `a_ntt[i]` is the digit value of `s1[len1 - 1 - i]` for `i < len1` and `0` for
`len1 ≤ i < n`, likewise `b_ntt` for `s2`; so the sum of `a_ntt[i] * 10 ^ i` over `i < n` is
the value of the operand. -/
theorem C28_load (A B : List Char) (hA : ValidOperand A) (hB : ValidOperand B)
    (F : Nat) (hF : 2097152 < F) (g : Globals) :
    ∃ n a0 b0 a1 b1,
      grow_loop (sub (add A.length B.length) 1) F 1 = some n ∧
      cl_loop n F 0 g.a_ntt g.b_ntt = some (a0, b0) ∧
      ld1 A A.length F 0 a0 = some a1 ∧ ld2 B B.length F 0 b0 = some b1 ∧
      A.length ≤ n ∧ B.length ≤ n ∧
      (∀ i, i < A.length → a1 i = charAt A (A.length - 1 - i) - 48) ∧
      (∀ i, A.length ≤ i → i < n → a1 i = 0) ∧
      (∀ i, i < B.length → b1 i = charAt B (B.length - 1 - i) - 48) ∧
      (∀ i, B.length ≤ i → i < n → b1 i = 0) ∧
      ∑ i in Finset.range n, a1 i * 10 ^ i = value A ∧
      ∑ i in Finset.range n, b1 i * 10 ^ i = value B := by
  have hl1 : 0 < A.length := List.length_pos.mpr hA.1
  have hl2 : 0 < B.length := List.length_pos.mpr hB.1
  obtain ⟨n, k, a0, b0, a1, b1, A3, h_grow, -, -, hneed, -, h_cl, h_ld1, h_ld2, -, -, -, -,
    ha0, hb0, ha1, hb1, -, -⟩ := transform_run F g A B hA hB hF
  have hAn : A.length ≤ n := by omega
  have hBn : B.length ≤ n := by omega
  have ha_lo : ∀ i, i < A.length → a1 i = digitLE A i := by
    intro i hi
    rw [ha1]
    simp only [if_pos hi]
  have hb_lo : ∀ i, i < B.length → b1 i = digitLE B i := by
    intro i hi
    rw [hb1]
    simp only [if_pos hi]
  have ha_hi : ∀ i, A.length ≤ i → i < n → a1 i = 0 := by
    intro i h1 h2
    rw [ha1, ha0]
    simp only [if_neg (by omega : ¬ i < A.length), if_pos h2]
  have hb_hi : ∀ i, B.length ≤ i → i < n → b1 i = 0 := by
    intro i h1 h2
    rw [hb1, hb0]
    simp only [if_neg (by omega : ¬ i < B.length), if_pos h2]
  refine ⟨n, a0, b0, a1, b1, h_grow, h_cl, h_ld1, h_ld2, hAn, hBn, ?_, ha_hi, ?_, hb_hi, ?_, ?_⟩
  · intro i hi
    rw [ha_lo i hi]
    unfold digitLE
    rw [if_pos hi]
  · intro i hi
    rw [hb_lo i hi]
    unfold digitLE
    rw [if_pos hi]
  · rw [sum_trimmed a1 A.length n hAn ha_hi, value_eq_sum]
    apply Finset.sum_congr rfl
    intro i hi
    rw [ha_lo i (Finset.mem_range.mp hi)]
  · rw [sum_trimmed b1 B.length n hBn hb_hi, value_eq_sum]
    apply Finset.sum_congr rfl
    intro i hi
    rw [hb_lo i (Finset.mem_range.mp hi)]

theorem C28_load_witness :
    ValidOperand "123".toList ∧ ValidOperand "45".toList ∧ 2097152 < 2097153 ∧
    ∃ n a0 b0 a1 b1,
      grow_loop (sub (add "123".toList.length "45".toList.length) 1) 2097153 1 = some n ∧
      cl_loop n 2097153 0 (fun _ => 7) (fun _ => 8) = some (a0, b0) ∧
      ld1 "123".toList "123".toList.length 2097153 0 a0 = some a1 ∧
      ld2 "45".toList "45".toList.length 2097153 0 b0 = some b1 ∧
      "123".toList.length ≤ n ∧ "45".toList.length ≤ n ∧
      (∀ i, i < "123".toList.length →
        a1 i = charAt "123".toList ("123".toList.length - 1 - i) - 48) ∧
      (∀ i, "123".toList.length ≤ i → i < n → a1 i = 0) ∧
      (∀ i, i < "45".toList.length →
        b1 i = charAt "45".toList ("45".toList.length - 1 - i) - 48) ∧
      (∀ i, "45".toList.length ≤ i → i < n → b1 i = 0) ∧
      ∑ i in Finset.range n, a1 i * 10 ^ i = value "123".toList ∧
      ∑ i in Finset.range n, b1 i * 10 ^ i = value "45".toList :=
  ⟨⟨by decide, by decide, by decide⟩, ⟨by decide, by decide, by decide⟩, by decide,
    C28_load "123".toList "45".toList ⟨by decide, by decide, by decide⟩
      ⟨by decide, by decide, by decide⟩ 2097153 (by decide)
      (Globals.mk (fun _ => 7) (fun _ => 8) (fun _ => 0) (fun _ => 0))⟩

/-- C29, the code at the failing input: a first call of `big_multiply` on `11` and `11`
from zero-initialised arrays prints `121` and leaves `a_ntt[1] = 2`; a second call on `1`
and `1` from the arrays so left plans `n = 1`, clears only `a_ntt[0]`, reads `a_ntt[1]` in
the carry loop and prints `21`, whereas from zero-initialised arrays the same call prints
`1`. -/
theorem C29_stale_entry :
    ∃ g1 g2 g3,
      big_multiply 2097153 Globals.zero ['1', '1'] ['1', '1'] 2 2 =
        some (g1, ['1', '2', '1']) ∧
      g1.a_ntt 1 = 2 ∧
      big_multiply 2097153 g1 ['1'] ['1'] 1 1 = some (g2, ['2', '1']) ∧
      big_multiply 2097153 Globals.zero ['1'] ['1'] 1 1 = some (g3, ['1']) := by
  have hv11 : ValidOperand ['1', '1'] := ⟨by decide, by decide, by decide⟩
  have hv1 : ValidOperand ['1'] := ⟨by decide, by decide, by decide⟩
  obtain ⟨r, hr⟩ := big_multiply_run 2097153 Globals.zero ['1', '1'] ['1', '1'] hv11 hv11
    (by omega) rfl
  obtain ⟨g1, h1⟩ := big_multiply_eq 2097153 Globals.zero ['1', '1'] ['1', '1'] hv11 hv11
    (by omega) rfl
  have hg : g1 = Globals.mk r.A4 r.B2 r.r3 r.D := by
    have h := hr.h_result
    rw [h1] at h
    exact (Prod.mk.inj (Option.some.inj h)).1
  have hc : g1.a_ntt 1 = 2 := by
    rw [hg]
    show r.A4 1 = 2
    rw [hr.h_coef 1 (by decide)]
    decide
  obtain ⟨g2, h2⟩ := stale_run 2097153 (by omega) g1 hc
  obtain ⟨g3, h3⟩ := big_multiply_eq 2097153 Globals.zero ['1'] ['1'] hv1 hv1 (by omega) rfl
  exact ⟨g1, g2, g3, h1, hc, h2, h3⟩

/-- C30: the zero fast path of `main` is a pure shortcut. For every valid operand `B`,
`big_multiply` called directly on `("0", B)` or on `(B, "0")` from zero-initialised arrays
terminates and prints `0`, the text of the fast path; so `main` with the zero test left out
(`mainDirect`) writes what `main` writes, for these and for all valid operands. -/
theorem C30_fast_path (B : List Char) (hB : ValidOperand B) (F : Nat) (hF : 2097152 < F) :
    (∃ g1, big_multiply F Globals.zero ['0'] B 1 B.length = some (g1, ['0'])) ∧
    (∃ g2, big_multiply F Globals.zero B ['0'] B.length 1 = some (g2, ['0'])) ∧
    main F [['0'], B] = some ['0', '\n'] ∧ main F [B, ['0']] = some ['0', '\n'] ∧
    mainDirect F Globals.zero [['0'], B] = main F [['0'], B] ∧
    mainDirect F Globals.zero [B, ['0']] = main F [B, ['0']] ∧
    ∀ A, ValidOperand A → mainDirect F Globals.zero [A, B] = main F [A, B] := by
  have hB6 := hB.2.1
  have h0 := valid_single_zero
  have hz1 : (Nat.repr (value ['0'] * value B)).toList = ['0'] := by
    rw [value_single_zero, zero_mul]
    rfl
  have hz2 : (Nat.repr (value B * value ['0'])).toList = ['0'] := by
    rw [value_single_zero, mul_zero]
    rfl
  obtain ⟨g1, h1⟩ := big_multiply_eq F Globals.zero ['0'] B h0 hB hF rfl
  obtain ⟨g2, h2⟩ := big_multiply_eq F Globals.zero B ['0'] hB h0 hF (by rfl)
  rw [hz1] at h1
  rw [hz2] at h2
  have m1 : main F [['0'], B] = some ['0', '\n'] :=
    mainFrom_zero F _ ['0'] B h0 hB (by simp; omega) (by omega) (Or.inl rfl) []
  have m2 : main F [B, ['0']] = some ['0', '\n'] :=
    mainFrom_zero F _ B ['0'] hB h0 (by omega) (by simp; omega) (Or.inr rfl) []
  have hall : ∀ A, ValidOperand A → mainDirect F Globals.zero [A, B] = main F [A, B] := by
    intro A hA
    have e := multiply_eq F A B hA hB hF
    unfold multiply at e
    rw [e, mainDirect_eq F A B hA hB hF]
  refine ⟨⟨g1, h1⟩, ⟨g2, h2⟩, m1, m2, hall _ h0, ?_, hall⟩
  have e := multiply_eq F B ['0'] hB h0 hF
  unfold multiply at e
  rw [e, mainDirect_eq F B ['0'] hB h0 hF]

theorem C30_fast_path_witness :
    ValidOperand "907".toList ∧ 2097152 < 2097153 ∧
    (∃ g1, big_multiply 2097153 Globals.zero ['0'] "907".toList 1 "907".toList.length =
      some (g1, ['0'])) ∧
    (∃ g2, big_multiply 2097153 Globals.zero "907".toList ['0'] "907".toList.length 1 =
      some (g2, ['0'])) ∧
    main 2097153 [['0'], "907".toList] = some ['0', '\n'] ∧
    main 2097153 ["907".toList, ['0']] = some ['0', '\n'] ∧
    mainDirect 2097153 Globals.zero [['0'], "907".toList] = main 2097153 [['0'], "907".toList] ∧
    mainDirect 2097153 Globals.zero ["907".toList, ['0']] = main 2097153 ["907".toList, ['0']] ∧
    ∀ A, ValidOperand A →
      mainDirect 2097153 Globals.zero [A, "907".toList] = main 2097153 [A, "907".toList] :=
  ⟨⟨by decide, by decide, by decide⟩, by decide,
    C30_fast_path "907".toList ⟨by decide, by decide, by decide⟩ 2097153 (by decide)⟩

/-- C31: for all valid operands, run from zero-initialised buffers, the product is below
`10 ^ (len1 + len2)`, and the carry loop of `big_multiply` over the `len1 + len2`
positions ends with carry `0`; so the flush `cc_loop` with its exit `cc_last` returns at
once, leaving `res_len = len1 + len2` and the digits as they are: no digit is appended, and
the `len1 + len2` digits before trimming, each at most `9`, represent the product. -/
theorem C31_no_final_carry (A B : List Char) (hA : ValidOperand A) (hB : ValidOperand B)
    (F : Nat) (hF : 2097152 < F) :
    value A * value B < 10 ^ (A.length + B.length) ∧
    ∃ n a0 b0 a1 b1 A2 r1 B2 r2 A3 A4 r3 D,
      grow_loop (sub (add A.length B.length) 1) F 1 = some n ∧
      cl_loop n F 0 Globals.zero.a_ntt Globals.zero.b_ntt = some (a0, b0) ∧
      ld1 A A.length F 0 a0 = some a1 ∧ ld2 B B.length F 0 b0 = some b1 ∧
      ntt F a1 Globals.zero.rev_bits n 0 = some (A2, r1) ∧
      ntt F b1 r1 n 0 = some (B2, r2) ∧
      pm_loop F n B2 F 0 A2 = some A3 ∧ ntt F A3 r2 n 1 = some (A4, r3) ∧
      car_loop F (add A.length B.length) A4 F 0 0 Globals.zero.digits = some (0, D) ∧
      cc_loop F F 0 (add A.length B.length) D = some (A.length + B.length, D) ∧
      (∀ i, i < A.length + B.length → D i ≤ 9) ∧
      ∑ i in Finset.range (A.length + B.length), D i * 10 ^ i = value A * value B := by
  obtain ⟨r, hr⟩ := big_multiply_run F Globals.zero A B hA hB hF rfl
  have hprod : value A * value B < 10 ^ (A.length + B.length) := by
    rw [pow_add]
    exact Nat.mul_lt_mul'' (value_lt A hA.2.2) (value_lt B hB.2.2)
  refine ⟨hprod, r.n, r.a0, r.b0, r.a1, r.b1, r.A2, r.r1, r.B2, r.r2, r.A3, r.A4, r.r3, r.D,
    ?_, hr.h_cl, hr.h_ld1, hr.h_ld2, hr.h_ntt1, hr.h_ntt2, hr.h_pm, hr.h_ntt3, ?_, ?_, ?_, ?_⟩
  · rw [hr.h_add, hr.h_sub]
    exact hr.h_grow
  · rw [hr.h_add]
    exact hr.h_car
  · rw [hr.h_add]
    exact hr.h_cc
  · intro i hi
    rw [hr.h_D]
    simp only [if_pos hi]
    have := Nat.mod_lt (conv (digitLE A) (digitLE B) i +
      carrySeq (conv (digitLE A) (digitLE B)) i) (by omega : 0 < 10)
    omega
  · rw [sum_trimmed r.D r.L2 (A.length + B.length) hr.h_L2_le hr.h_trimmed]
    exact hr.h_total

theorem C31_no_final_carry_witness :
    ValidOperand "99".toList ∧ ValidOperand "99".toList ∧ 2097152 < 2097153 ∧
    value "99".toList * value "99".toList < 10 ^ ("99".toList.length + "99".toList.length) ∧
    ∃ n a0 b0 a1 b1 A2 r1 B2 r2 A3 A4 r3 D,
      grow_loop (sub (add "99".toList.length "99".toList.length) 1) 2097153 1 = some n ∧
      cl_loop n 2097153 0 Globals.zero.a_ntt Globals.zero.b_ntt = some (a0, b0) ∧
      ld1 "99".toList "99".toList.length 2097153 0 a0 = some a1 ∧
      ld2 "99".toList "99".toList.length 2097153 0 b0 = some b1 ∧
      ntt 2097153 a1 Globals.zero.rev_bits n 0 = some (A2, r1) ∧
      ntt 2097153 b1 r1 n 0 = some (B2, r2) ∧
      pm_loop 2097153 n B2 2097153 0 A2 = some A3 ∧ ntt 2097153 A3 r2 n 1 = some (A4, r3) ∧
      car_loop 2097153 (add "99".toList.length "99".toList.length) A4 2097153 0 0
        Globals.zero.digits = some (0, D) ∧
      cc_loop 2097153 2097153 0 (add "99".toList.length "99".toList.length) D =
        some ("99".toList.length + "99".toList.length, D) ∧
      (∀ i, i < "99".toList.length + "99".toList.length → D i ≤ 9) ∧
      ∑ i in Finset.range ("99".toList.length + "99".toList.length), D i * 10 ^ i =
        value "99".toList * value "99".toList :=
  ⟨⟨by decide, by decide, by decide⟩, ⟨by decide, by decide, by decide⟩, by decide,
    C31_no_final_carry "99".toList "99".toList ⟨by decide, by decide, by decide⟩
      ⟨by decide, by decide, by decide⟩ 2097153 (by decide)⟩

end Requiem
